import Mathlib

/-!
TGA decoder of PianoGame (`src/Tga.cpp`).

A shallow embedding of `Tga::LoadFromData`, `Tga::LoadUncompressed`,
`Tga::LoadCompressed` and `Tga::BuildFromParameters`, followed by theorems
about them.

Conventions of the embedding.

* An `unsigned char` is a `Fin 256`; an `unsigned int` is a `Nat` reduced
  modulo `2 ^ 32` wherever the C++ arithmetic can wrap.
* The source bytes are a `List Byte`; a pointer into them is an offset.  The
  C++ entry point receives a bare pointer, so a read at or past the end of the
  list is undefined behaviour and is reported as `outOfBounds`.
* Writable storage (`image_data`, `pixel_buffer`) is a function from offsets to
  cells.  A cell is `none` until something is stored in it, which is how
  uninitialised storage (`new unsigned char[n]`, a local array) is modelled.
  Stores are not bounds checked, exactly as in the C++; whether a store stays
  inside the allocated block is a matter for theorems.
-/

namespace PianoGame

/-- An `unsigned char`. -/
abbrev Byte := Fin 256

/-- The modulus of `unsigned int` arithmetic. -/
abbrev U32 : Nat := 4294967296

/-- Writable storage reached through a pointer: the cell at each offset, `none`
while the cell has never been stored to. -/
abbrev Mem := Nat → Option Byte

/-- Storage nothing has been stored in yet. -/
def Mem.fresh : Mem := fun _ => none

/-- The store `m[i] = v`. -/
def Mem.store (m : Mem) (i : Nat) (v : Option Byte) : Mem :=
  fun j => if j = i then v else m j

/-- The call `memcpy(dest, src + pos, n)`, for a `src` that holds the `n` bytes. -/
def memcpy (dest : Mem) (src : List Byte) (pos n : Nat) : Mem :=
  fun i => if i < n then src[pos + i]? else dest i

/-- The operator `^` on two cells; an operand never stored to gives an
indeterminate result. -/
def xorCell (a b : Option Byte) : Option Byte :=
  match a, b with
  | some x, some y => some ⟨(x.val ^^^ y.val) % 256, Nat.mod_lt _ (by decide)⟩
  | _, _ => none

/-- The errors `Tga.cpp` throws, one per `throw PianoGameError(...)` site. -/
inductive PianoGameError where
  | UnsupportedTgaType
  | InvalidTgaDimensions
  | UnsupportedTgaBpp
  | TooManyPixels
  deriving DecidableEq

/-- The message of each error. -/
def PianoGameError.message : PianoGameError → String
  | .UnsupportedTgaType => "Unsupported TGA type."
  | .InvalidTgaDimensions => "Invalid TGA dimensions."
  | .UnsupportedTgaBpp => "Unsupported TGA BPP."
  | .TooManyPixels => "Too many pixels in TGA."

/-- The `pixel_format` chosen by `BuildFromParameters`. -/
inductive PixelFormat where
  | zero
  | GL_RGB
  | GL_RGBA
  deriving DecidableEq

/-- What `BuildFromParameters` stores in the new `Tga` (`m_width`, `m_height`)
and hands to `glTexImage2D` (`raw`, `bpp / 8` components, `pixel_format`). -/
structure Tga where
  m_width : Nat
  m_height : Nat
  bpp : Nat
  pixel_format : PixelFormat
  raw : Mem

/-- The enumeration `TgaType`. -/
inductive TgaType where
  | TgaUncompressed
  | TgaCompressed
  | TgaUnknown
  deriving DecidableEq

/-- How a call of one of the loaders ends. -/
inductive Outcome where
  /-- The loader returned the null pointer (`if (!bytes) return 0;`). -/
  | null
  /-- The loader threw. -/
  | threw (e : PianoGameError)
  /-- The loader returned the object built by `BuildFromParameters`. -/
  | built (t : Tga)
  /-- The loader read past the end of the source bytes. -/
  | outOfBounds
  /-- The iteration bound of the embedding was used up. -/
  | outOfFuel

/-- The variables of `LoadCompressed` that change while it runs. -/
structure RleState where
  pos : Nat
  pixel_buffer : Mem
  pixel : Nat
  byte : Nat
  dest : Mem

/-- How a loop, or a part of one, of `LoadCompressed` ends. -/
inductive Run where
  /-- Control left the loop normally, in this state. -/
  | next (s : RleState)
  /-- A `throw` was executed, in this state. -/
  | threw (e : PianoGameError) (s : RleState)
  /-- A read past the end of the source bytes. -/
  | outOfBounds
  /-- The iteration bound of the embedding was used up. -/
  | outOfFuel

namespace Tga

def TgaTypeHeaderLength : Nat := 12

def UncompressedTgaHeader : List Byte := [0, 0, 2, 0, 0, 0, 0, 0, 0, 0, 0, 0]

def CompressedTgaHeader : List Byte := [0, 0, 10, 0, 0, 0, 0, 0, 0, 0, 0, 0]

def TgaDataHeaderLength : Nat := 6

/-- The value `src[i]` as an integer, for an `i` inside `src`. -/
def at_ (src : List Byte) (i : Nat) : Nat := (src.getD i 0).val

/-- The function `Tga::BuildFromParameters`.  The texture name given by `glGenTextures` is
taken to be non-zero, so the `return 0` after it is not taken. -/
def BuildFromParameters (raw : Mem) (width height bpp : Nat) : Outcome :=
  let pixel_format := PixelFormat.zero
  let pixel_format := if bpp = 24 then PixelFormat.GL_RGB else pixel_format
  let pixel_format := if bpp = 32 then PixelFormat.GL_RGBA else pixel_format
  .built { m_width := width, m_height := height, bpp := bpp,
           pixel_format := pixel_format, raw := raw }

/-- The statement `dest[cswap] ^= dest[cswap+2] ^= dest[cswap] ^= dest[cswap+2];`
of `LoadUncompressed`: three compound assignments, the rightmost first, each
using the value the one to its right has just stored. -/
def xorSwap (dest : Mem) (cswap : Nat) : Mem :=
  let i := cswap
  let j := (cswap + 2) % U32
  let d1 := dest.store i (xorCell (dest i) (dest j))
  let d2 := d1.store j (xorCell (d1 j) (d1 i))
  d2.store i (xorCell (d2 i) (d2 j))

/-- The loop `for (cswap = 0; cswap < size; cswap += bpp/8)` of
`LoadUncompressed`, from a given `cswap`; `none` when `fuel` iterations did
not reach the exit. -/
def swapLoop (size bpp : Nat) : Nat → Nat → Mem → Option Mem
  | 0, _, _ => none
  | fuel + 1, cswap, dest =>
    if cswap < size then
      swapLoop size bpp fuel ((cswap + bpp / 8) % U32) (xorSwap dest cswap)
    else some dest

/-- The function `Tga::LoadUncompressed`; `src` is the source bytes and `pos` the offset the
C++ pointer `src` points at.  The call `memcpy(dest, src, size)` reads the `size` bytes from
`pos` on; with `size = 0` it reads nothing, wherever `pos` lies. -/
def LoadUncompressed (src : List Byte) (pos : Nat) (dest : Mem)
    (size width height bpp : Nat) : Outcome :=
  if 0 < size ∧ src.length < pos + size then .outOfBounds else
  let dest := memcpy dest src pos size
  match swapLoop size bpp (size + 1) 0 dest with
  | none => .outOfFuel
  | some dest => BuildFromParameters dest width height bpp

/-- The lines `memcpy(pixel_buffer, pos, BytesPerPixel); pos += BytesPerPixel;`;
`none` when the source bytes end before the pixel does. -/
def readPixel (src : List Byte) (BytesPerPixel : Nat) (s : RleState) : Option RleState :=
  if src.length < s.pos + BytesPerPixel then none else
  some { s with pixel_buffer := memcpy s.pixel_buffer src s.pos BytesPerPixel,
                pos := s.pos + BytesPerPixel }

/-- The four stores into `dest` and the two increments `byte += BytesPerPixel;
pixel++;` that both inner loops of `LoadCompressed` share. -/
def writePixel (BytesPerPixel : Nat) (s : RleState) : RleState :=
  let dest := s.dest.store ((s.byte + 0) % U32) (s.pixel_buffer 2)
  let dest := dest.store ((s.byte + 1) % U32) (s.pixel_buffer 1)
  let dest := dest.store ((s.byte + 2) % U32) (s.pixel_buffer 0)
  let dest := if BytesPerPixel = 4 then dest.store ((s.byte + 3) % U32) (s.pixel_buffer 3)
              else dest
  { s with dest := dest, byte := (s.byte + BytesPerPixel) % U32,
           pixel := (s.pixel + 1) % U32 }

/-- The `for` loop of the raw packet branch, with `n` iterations left. -/
def rawLoop (src : List Byte) (BytesPerPixel PixelCount : Nat) : Nat → RleState → Run
  | 0, s => .next s
  | n + 1, s =>
    match readPixel src BytesPerPixel s with
    | none => .outOfBounds
    | some s =>
      let s := writePixel BytesPerPixel s
      if s.pixel > PixelCount then .threw .TooManyPixels s
      else rawLoop src BytesPerPixel PixelCount n s

/-- The `for` loop of the run packet branch, with `n` iterations left. -/
def runLoop (BytesPerPixel PixelCount : Nat) : Nat → RleState → Run
  | 0, s => .next s
  | n + 1, s =>
    let s := writePixel BytesPerPixel s
    if s.pixel > PixelCount then .threw .TooManyPixels s
    else runLoop BytesPerPixel PixelCount n s

/-- The body of the `while` loop of `LoadCompressed`: one packet. -/
def packet (src : List Byte) (BytesPerPixel PixelCount : Nat) (s : RleState) : Run :=
  if src.length < s.pos + 1 then .outOfBounds else
  let chunkheader := at_ src s.pos
  let s := { s with pos := s.pos + 1 }
  if chunkheader < 128 then
    let chunkheader := (chunkheader + 1) % 256
    rawLoop src BytesPerPixel PixelCount chunkheader s
  else
    let chunkheader := (chunkheader - 127) % 256
    match readPixel src BytesPerPixel s with
    | none => .outOfBounds
    | some s => runLoop BytesPerPixel PixelCount chunkheader s

/-- The loop `while (pixel < PixelCount)` of `LoadCompressed`; `outOfFuel` when
`fuel` tests of the condition did not reach the exit. -/
def rleLoop (src : List Byte) (BytesPerPixel PixelCount : Nat) : Nat → RleState → Run
  | 0, _ => .outOfFuel
  | fuel + 1, s =>
    if s.pixel < PixelCount then
      match packet src BytesPerPixel PixelCount s with
      | .next s => rleLoop src BytesPerPixel PixelCount fuel s
      | r => r
    else .next s

/-- The state `LoadCompressed` enters its loop in. -/
def rleStart (pos : Nat) (dest : Mem) : RleState :=
  { pos := pos, pixel_buffer := Mem.fresh, pixel := 0, byte := 0, dest := dest }

/-- The function `Tga::LoadCompressed`; `src` is the source bytes and `pos` the offset the
C++ pointer `src` points at.  Every packet consumes its control byte, so the
loop condition is tested at most `src.length + 1` times. -/
def LoadCompressed (src : List Byte) (pos : Nat) (dest : Mem)
    (width height bpp : Nat) : Outcome :=
  let BytesPerPixel := bpp / 8
  let PixelCount := (height * width) % U32
  match rleLoop src BytesPerPixel PixelCount (src.length + 1) (rleStart pos dest) with
  | .next s => BuildFromParameters s.dest width height bpp
  | .threw e _ => .threw e
  | .outOfBounds => .outOfBounds
  | .outOfFuel => .outOfFuel

/-- The expression `width * height * bpp/8` in `unsigned int` arithmetic. -/
def data_size (width height bpp : Nat) : Nat :=
  (width * height % U32 * bpp % U32) / 8

/-- The two `memcmp` tests of `LoadFromData` on the twelve bytes at `pos`. -/
def classify (bytes : List Byte) (pos : Nat) : TgaType :=
  let type := TgaType.TgaUnknown
  let type := if (bytes.drop pos).take TgaTypeHeaderLength = UncompressedTgaHeader
              then TgaType.TgaUncompressed else type
  let type := if (bytes.drop pos).take TgaTypeHeaderLength = CompressedTgaHeader
              then TgaType.TgaCompressed else type
  type

/-- The function `Tga::LoadFromData`; `none` is the null pointer.  The block
`new unsigned char[data_size]` is `data_size` bytes of storage nothing has been
stored in; the storage of the embedding has no size of its own, so a store at
an offset of `data_size` or more, which in the C++ lies outside the block, is
recorded at that offset like any other.  Whether the stores of a decode stay
below `data_size` is therefore stated, where it matters, in the theorems. -/
def LoadFromData (bytes : Option (List Byte)) : Outcome :=
  match bytes with
  | none => .null
  | some bytes =>
    let pos := 0
    if bytes.length < pos + TgaTypeHeaderLength then .outOfBounds else
    let type := classify bytes pos
    if type = TgaType.TgaUnknown then .threw .UnsupportedTgaType else
    let pos := pos + TgaTypeHeaderLength
    if bytes.length < pos + 5 then .outOfBounds else
    let width := at_ bytes (pos + 1) * 256 + at_ bytes (pos + 0)
    let height := at_ bytes (pos + 3) * 256 + at_ bytes (pos + 2)
    let bpp := at_ bytes (pos + 4)
    let pos := pos + TgaDataHeaderLength
    if width ≤ 0 ∨ height ≤ 0 then .threw .InvalidTgaDimensions else
    if bpp ≠ 24 ∧ bpp ≠ 32 then .threw .UnsupportedTgaBpp else
    let data_size := data_size width height bpp
    let image_data := Mem.fresh
    match type with
    | .TgaCompressed => LoadCompressed bytes pos image_data width height bpp
    | .TgaUncompressed => LoadUncompressed bytes pos image_data data_size width height bpp
    | .TgaUnknown => .null

/-! ## Predicates and input shapes the theorems are stated with -/

/-- What the swap loop leaves in a buffer `dest`, as a relation to what it
found there: bytes 0 and 2 of the pixels `j .. n-1` exchanged, every other
byte kept. -/
def SwappedFrom (k n j : Nat) (dest d : Mem) : Prop :=
  (∀ p, j ≤ p → p < n →
    d (p * k) = dest (p * k + 2) ∧ d (p * k + 1) = dest (p * k + 1) ∧
    d (p * k + 2) = dest (p * k) ∧ (k = 4 → d (p * k + 3) = dest (p * k + 3))) ∧
  ∀ i, i < j * k ∨ n * k ≤ i → d i = dest i

/-- A pixel buffer of 3-byte pixels with bytes 0 and 2 of every pixel exchanged. -/
def swapChannels3 : List Byte → List Byte
  | b0 :: b1 :: b2 :: rest => b2 :: b1 :: b0 :: swapChannels3 rest
  | l => l

/-- A pixel buffer of 4-byte pixels with bytes 0 and 2 of every pixel exchanged. -/
def swapChannels4 : List Byte → List Byte
  | b0 :: b1 :: b2 :: b3 :: rest => b2 :: b1 :: b0 :: b3 :: swapChannels4 rest
  | l => l

/-- The bytes of an uncompressed stream for the pixel buffer `P` in RGB(A)
order: header pattern A, the descriptor (the low and the high byte of the width,
the low and the high byte of the height, bits per pixel, a zero attribute
byte), then `P` with bytes 0 and 2 of every pixel exchanged. -/
def uncompressedStream (width height bpp : Nat) (P : List Byte) : List Byte :=
  UncompressedTgaHeader ++
    [Fin.ofNat width, Fin.ofNat (width / 256), Fin.ofNat height, Fin.ofNat (height / 256),
      Fin.ofNat bpp, 0] ++
    (if bpp / 8 = 4 then swapChannels4 P else swapChannels3 P)

/-- The encoder of the round trip: the uncompressed stream of an image, when
its width and height fit the descriptor's two-byte fields and its bits per
pixel the one-byte field; there is no stream otherwise. -/
def encodeUncompressed (width height bpp : Nat) (P : List Byte) : Option (List Byte) :=
  if width < 65536 ∧ height < 65536 ∧ bpp < 256 then
    some (uncompressedStream width height bpp P)
  else none

/-- The output pixel at byte offset `b` of `d` holds the pixel `px` reordered:
bytes [2,1,0] of `px`, then byte 3 of `px` when pixels are 4 bytes wide. -/
def PixelStored (k : Nat) (d : Mem) (b : Nat) (px : Nat → Option Byte) : Prop :=
  d b = px 2 ∧ d (b + 1) = px 1 ∧ d (b + 2) = px 0 ∧ (k = 4 → d (b + 3) = px 3)

/-- The state a run ended in, when it ended normally. -/
def endState : Run → Option RleState
  | .next s => some s
  | _ => none

/-- The error and the state of a run that ended in a `throw`. -/
def thrownAt : Run → Option (PianoGameError × RleState)
  | .threw e s => some (e, s)
  | _ => none

/-- What processing a raw packet with control byte `c` does, from the state `s`
with the control byte at `s.pos` to the state `s'`: the output pixels
`s.pixel .. s.pixel + c` hold the `c + 1` source pixels that follow the control
byte, each reordered; the output bytes below pixel `s.pixel` are unchanged; the
pixel cursor is `s.pixel + c + 1`; the source position has advanced by
`1 + (c + 1) * k`. -/
def RawPacketStep (src : List Byte) (k : Nat) (s s' : RleState) (c : Nat) : Prop :=
  (∀ i, i ≤ c →
    PixelStored k s'.dest ((s.pixel + i) * k) (fun j => src[s.pos + 1 + i * k + j]?)) ∧
  (∀ j, j < s.pixel * k → s'.dest j = s.dest j) ∧
  s'.pixel = s.pixel + c + 1 ∧ s'.pos = s.pos + (1 + (c + 1) * k)

/-- What processing a run packet with control byte `c` does, from the state `s`
with the control byte at `s.pos` to the state `s'`: the output pixels
`s.pixel .. s.pixel + c - 128` each hold the one source pixel that follows the
control byte, reordered; the output bytes below pixel `s.pixel` are unchanged;
the pixel cursor has advanced by `c - 127`; the source position has advanced by
`1 + k`. -/
def RunPacketStep (src : List Byte) (k : Nat) (s s' : RleState) (c : Nat) : Prop :=
  (∀ i, i < c - 127 →
    PixelStored k s'.dest ((s.pixel + i) * k) (fun j => src[s.pos + 1 + j]?)) ∧
  (∀ j, j < s.pixel * k → s'.dest j = s.dest j) ∧
  s'.pixel = s.pixel + (c - 127) ∧ s'.pos = s.pos + (1 + k)

/-- A decoder state of a 65535 x 65535 image at 32 bits per pixel whose byte
cursor, `pixel * 4`, is one pixel short of `2 ^ 32`. -/
def nearWrapState : RleState :=
  { pos := 0, pixel_buffer := Mem.fresh, pixel := 1073741823, byte := 4294967292,
    dest := Mem.fresh }

/-- A raw packet of two 4-byte pixels. -/
def twoPixelRawPacket : List Byte := [1, 1, 2, 3, 4, 5, 6, 7, 8]

/-- A run packet of two copies of a 4-byte pixel. -/
def twoPixelRunPacket : List Byte := [129, 1, 2, 3, 4]

/-- One packet of an RLE stream: its control byte and the bytes that follow it. -/
structure Packet where
  ctrl : Byte
  payload : List Byte

/-- The number of pixels a packet counts for: `c + 1` for a raw packet
(control byte `c < 128`), `c - 127` for a run packet. -/
def Packet.count (q : Packet) : Nat :=
  if q.ctrl.val < 128 then q.ctrl.val + 1 else q.ctrl.val - 127

/-- The packet carries all the pixel bytes its control byte announces:
`c + 1` pixels for a raw packet, one pixel for a run packet. -/
def Packet.Whole (k : Nat) (q : Packet) : Prop :=
  q.payload.length = if q.ctrl.val < 128 then (q.ctrl.val + 1) * k else k

/-- The bytes of a packet as they lie in the stream. -/
def Packet.bytes (q : Packet) : List Byte := q.ctrl :: q.payload

/-- The bytes of a sequence of packets, one after the other. -/
def encodePackets : List Packet → List Byte
  | [] => []
  | q :: qs => q.bytes ++ encodePackets qs

/-- The running pixel total after a sequence of packets. -/
def totalCount : List Packet → Nat
  | [] => 0
  | q :: qs => q.count + totalCount qs

/-- The exchange of `dest[i]` and `dest[i+2]` through a temporary variable:
`t = dest[i]; dest[i] = dest[i+2]; dest[i+2] = t;`, the index `i+2` in
`unsigned int` arithmetic as in `xorSwap`. -/
def tempSwap (dest : Mem) (i : Nat) : Mem :=
  let j := (i + 2) % U32
  let t := dest i
  let d1 := dest.store i (dest j)
  d1.store j t

/-- The states in which the condition of the `while` loop of `LoadCompressed`
is tested in a run from `s0`: `s0` itself, and every state a packet that ended
normally leaves, when it started in such a state in which the condition held. -/
inductive LoopHead (src : List Byte) (BytesPerPixel PixelCount : Nat) (s0 : RleState) :
    RleState → Prop where
  | start : LoopHead src BytesPerPixel PixelCount s0 s0
  | step (s s' : RleState) : LoopHead src BytesPerPixel PixelCount s0 s →
      s.pixel < PixelCount → packet src BytesPerPixel PixelCount s = .next s' →
      LoopHead src BytesPerPixel PixelCount s0 s'

/-- The RLE input whose single raw packet announces two pixels for a 1 x 1
image at 24 bits per pixel. -/
def overrunInput : List Byte :=
  [0, 0, 10, 0, 0, 0, 0, 0, 0, 0, 0, 0, 1, 0, 1, 0, 24, 0,
   1, 0x10, 0x20, 0x30, 0x40, 0x50, 0x60]

/-- The packet is cut short: fewer bytes follow its control byte than the
control byte announces. -/
def Packet.Cut (k : Nat) (q : Packet) : Prop :=
  q.payload.length < if q.ctrl.val < 128 then (q.ctrl.val + 1) * k else k

/-- An uncompressed 2 x 1 image at 24 bits per pixel with 3 of its 6 bytes of
pixel data. -/
def truncatedUncompressed : List Byte :=
  [0, 0, 2, 0, 0, 0, 0, 0, 0, 0, 0, 0, 2, 0, 1, 0, 24, 0, 0x10, 0x20, 0x30]

/-- An RLE 2 x 1 image at 24 bits per pixel whose stream ends after a raw
packet of one pixel. -/
def truncatedCompressed : List Byte :=
  [0, 0, 10, 0, 0, 0, 0, 0, 0, 0, 0, 0, 2, 0, 1, 0, 24, 0, 0, 0x10, 0x20, 0x30]

/-- An RLE 1 x 1 image at 24 bits per pixel with no pixel data at all. -/
def emptyRleInput : List Byte :=
  [0, 0, 10, 0, 0, 0, 0, 0, 0, 0, 0, 0, 1, 0, 1, 0, 24, 0]

/-- The two sources hold at least `n` bytes and the same first `n` bytes. -/
def SamePrefix (n : Nat) (src src' : List Byte) : Prop :=
  n ≤ src.length ∧ n ≤ src'.length ∧ ∀ i, i < n → src[i]? = src'[i]?

/-- The bytes that follow the control bytes of a sequence of packets, in
order: for raw packets, the pixels the packets carry. -/
def payloads : List Packet → List Byte
  | [] => []
  | q :: qs => q.payload ++ payloads qs

/-- The six bytes after the type header: width and height, each low byte
first, the bits per pixel, and a zero attribute byte. -/
def descriptor (width height bpp : Nat) : List Byte :=
  [Fin.ofNat width, Fin.ofNat (width / 256), Fin.ofNat height, Fin.ofNat (height / 256),
    Fin.ofNat bpp, 0]

theorem rawLoop_threw_eq (src : List Byte) (k N : Nat) :
    ∀ (n : Nat) (s s' : RleState) (e : PianoGameError),
      rawLoop src k N n s = .threw e s' → e = .TooManyPixels := by
  intro n
  induction n with
  | zero => intro s s' e h; simp [rawLoop] at h
  | succ n ih =>
    intro s s' e h
    unfold rawLoop at h
    cases hr : readPixel src k s with
    | none => simp [hr] at h
    | some s1 =>
      simp only [hr] at h
      by_cases hp : (writePixel k s1).pixel > N
      · simp [hp] at h; exact h.1.symm
      · simp [hp] at h; exact ih _ _ _ h

theorem runLoop_threw_eq (k N : Nat) :
    ∀ (n : Nat) (s s' : RleState) (e : PianoGameError),
      runLoop k N n s = .threw e s' → e = .TooManyPixels := by
  intro n
  induction n with
  | zero => intro s s' e h; simp [runLoop] at h
  | succ n ih =>
    intro s s' e h
    unfold runLoop at h
    by_cases hp : (writePixel k s).pixel > N
    · simp [hp] at h; exact h.1.symm
    · simp [hp] at h; exact ih _ _ _ h

theorem packet_threw_eq (src : List Byte) (k N : Nat) (s s' : RleState)
    (e : PianoGameError) (h : packet src k N s = .threw e s') : e = .TooManyPixels := by
  unfold packet at h
  by_cases h1 : src.length < s.pos + 1
  · simp [h1] at h
  · simp only [h1, if_false] at h
    by_cases h2 : at_ src s.pos < 128
    · simp only [h2, if_true] at h
      exact rawLoop_threw_eq _ _ _ _ _ _ _ h
    · simp only [h2, if_false] at h
      cases hr : readPixel src k { s with pos := s.pos + 1 } with
      | none => simp [hr] at h
      | some s1 =>
        simp only [hr] at h
        exact runLoop_threw_eq _ _ _ _ _ _ h

theorem rleLoop_threw_eq (src : List Byte) (k N : Nat) :
    ∀ (fuel : Nat) (s s' : RleState) (e : PianoGameError),
      rleLoop src k N fuel s = .threw e s' → e = .TooManyPixels := by
  intro fuel
  induction fuel with
  | zero => intro s s' e h; simp [rleLoop] at h
  | succ n ih =>
    intro s s' e h
    unfold rleLoop at h
    by_cases hp : s.pixel < N
    · simp only [hp, if_true] at h
      cases hq : packet src k N s with
      | next s1 => simp only [hq] at h; exact ih _ _ _ h
      | threw e1 s1 =>
        simp only [hq] at h
        injection h with h3 h4
        subst h3
        exact packet_threw_eq _ _ _ _ _ _ hq
      | outOfBounds => simp [hq] at h
      | outOfFuel => simp [hq] at h
    · simp [hp] at h

theorem LoadCompressed_threw_eq (src : List Byte) (pos : Nat) (dest : Mem)
    (width height bpp : Nat) (e : PianoGameError)
    (h : LoadCompressed src pos dest width height bpp = .threw e) : e = .TooManyPixels := by
  unfold LoadCompressed at h
  simp only at h
  cases hr : rleLoop src (bpp / 8) (height * width % U32) (src.length + 1) (rleStart pos dest) with
  | next s1 => simp [hr, BuildFromParameters] at h
  | threw e1 s1 =>
    simp only [hr] at h
    injection h with h3
    subst h3
    exact rleLoop_threw_eq _ _ _ _ _ _ _ hr
  | outOfBounds => simp [hr] at h
  | outOfFuel => simp [hr] at h

theorem LoadUncompressed_ne_threw (src : List Byte) (pos : Nat) (dest : Mem)
    (size width height bpp : Nat) (e : PianoGameError) :
    LoadUncompressed src pos dest size width height bpp ≠ .threw e := by
  unfold LoadUncompressed
  by_cases h1 : 0 < size ∧ src.length < pos + size
  · simp [h1]
  · simp only [h1, if_false]
    cases swapLoop size bpp (size + 1) 0 (memcpy dest src pos size) with
    | none => simp
    | some d => simp [BuildFromParameters]


/-! ## The checks of `LoadFromData` -/

theorem UncompressedTgaHeader_ne : UncompressedTgaHeader ≠ CompressedTgaHeader := by decide

theorem classify_uncompressed (bytes : List Byte)
    (h : bytes.take 12 = UncompressedTgaHeader) : classify bytes 0 = .TgaUncompressed := by
  have h2 : ¬ UncompressedTgaHeader = CompressedTgaHeader := UncompressedTgaHeader_ne
  simp [classify, TgaTypeHeaderLength, h, h2]

theorem classify_compressed (bytes : List Byte)
    (h : bytes.take 12 = CompressedTgaHeader) : classify bytes 0 = .TgaCompressed := by
  simp [classify, TgaTypeHeaderLength, h]

theorem classify_unknown_iff (bytes : List Byte) :
    classify bytes 0 = .TgaUnknown ↔
      bytes.take 12 ≠ UncompressedTgaHeader ∧ bytes.take 12 ≠ CompressedTgaHeader := by
  by_cases h1 : bytes.take 12 = CompressedTgaHeader
  · simp [classify, TgaTypeHeaderLength, h1]
  · by_cases h2 : bytes.take 12 = UncompressedTgaHeader
    · have h3 : ¬ UncompressedTgaHeader = CompressedTgaHeader := UncompressedTgaHeader_ne
      simp [classify, TgaTypeHeaderLength, h2, h3]
    · simp [classify, TgaTypeHeaderLength, h1, h2]

/-- Unfolding of `LoadFromData` on a non-null pointer, with the offsets evaluated. -/
theorem LoadFromData_some (bytes : List Byte) :
    LoadFromData (some bytes) =
      if bytes.length < 12 then .outOfBounds else
      if classify bytes 0 = TgaType.TgaUnknown then .threw .UnsupportedTgaType else
      if bytes.length < 17 then .outOfBounds else
      if at_ bytes 13 * 256 + at_ bytes 12 ≤ 0 ∨ at_ bytes 15 * 256 + at_ bytes 14 ≤ 0 then
        .threw .InvalidTgaDimensions else
      if at_ bytes 16 ≠ 24 ∧ at_ bytes 16 ≠ 32 then .threw .UnsupportedTgaBpp else
      match classify bytes 0 with
      | .TgaCompressed =>
        LoadCompressed bytes 18 Mem.fresh (at_ bytes 13 * 256 + at_ bytes 12)
          (at_ bytes 15 * 256 + at_ bytes 14) (at_ bytes 16)
      | .TgaUncompressed =>
        LoadUncompressed bytes 18 Mem.fresh
          (data_size (at_ bytes 13 * 256 + at_ bytes 12) (at_ bytes 15 * 256 + at_ bytes 14)
            (at_ bytes 16))
          (at_ bytes 13 * 256 + at_ bytes 12) (at_ bytes 15 * 256 + at_ bytes 14)
          (at_ bytes 16)
      | .TgaUnknown => .null := rfl

/-- With a recognised header and a valid descriptor, `LoadFromData` is the
pixel decoder the header selects, applied to the descriptor's values. -/
theorem LoadFromData_dispatch (bytes : List Byte) (h12 : 17 ≤ bytes.length)
    (hw : 1 ≤ at_ bytes 13 * 256 + at_ bytes 12)
    (hh : 1 ≤ at_ bytes 15 * 256 + at_ bytes 14)
    (hb : at_ bytes 16 = 24 ∨ at_ bytes 16 = 32) :
    (bytes.take 12 = UncompressedTgaHeader →
      LoadFromData (some bytes) =
        LoadUncompressed bytes 18 Mem.fresh
          (data_size (at_ bytes 13 * 256 + at_ bytes 12) (at_ bytes 15 * 256 + at_ bytes 14)
            (at_ bytes 16))
          (at_ bytes 13 * 256 + at_ bytes 12) (at_ bytes 15 * 256 + at_ bytes 14)
          (at_ bytes 16)) ∧
    (bytes.take 12 = CompressedTgaHeader →
      LoadFromData (some bytes) =
        LoadCompressed bytes 18 Mem.fresh
          (at_ bytes 13 * 256 + at_ bytes 12) (at_ bytes 15 * 256 + at_ bytes 14)
          (at_ bytes 16)) := by
  have e1 : ¬ bytes.length < 12 := by omega
  have e2 : ¬ bytes.length < 17 := by omega
  have e3 : ¬ (at_ bytes 13 * 256 + at_ bytes 12 ≤ 0 ∨ at_ bytes 15 * 256 + at_ bytes 14 ≤ 0) := by
    omega
  have e4 : ¬ (at_ bytes 16 ≠ 24 ∧ at_ bytes 16 ≠ 32) := by omega
  constructor
  · intro h
    have hc := classify_uncompressed bytes h
    rw [LoadFromData_some, if_neg e1, hc, if_neg (by decide), if_neg e2, if_neg e3, if_neg e4]
  · intro h
    have hc := classify_compressed bytes h
    rw [LoadFromData_some, if_neg e1, hc, if_neg (by decide), if_neg e2, if_neg e3, if_neg e4]

theorem BuildFromParameters_ne_threw (raw : Mem) (width height bpp : Nat) (e : PianoGameError) :
    BuildFromParameters raw width height bpp ≠ .threw e := by
  simp [BuildFromParameters]

/-- A `throw` of `LoadFromData` past its three checks is `TooManyPixels`. -/
theorem LoadFromData_decoder_threw (bytes : List Byte) (e : PianoGameError)
    (h : (match classify bytes 0 with
      | .TgaCompressed =>
        LoadCompressed bytes 18 Mem.fresh (at_ bytes 13 * 256 + at_ bytes 12)
          (at_ bytes 15 * 256 + at_ bytes 14) (at_ bytes 16)
      | .TgaUncompressed =>
        LoadUncompressed bytes 18 Mem.fresh
          (data_size (at_ bytes 13 * 256 + at_ bytes 12) (at_ bytes 15 * 256 + at_ bytes 14)
            (at_ bytes 16))
          (at_ bytes 13 * 256 + at_ bytes 12) (at_ bytes 15 * 256 + at_ bytes 14)
          (at_ bytes 16)
      | .TgaUnknown => Outcome.null) = .threw e) : e = .TooManyPixels := by
  cases hc : classify bytes 0 with
  | TgaCompressed => rw [hc] at h; exact LoadCompressed_threw_eq _ _ _ _ _ _ _ h
  | TgaUncompressed => rw [hc] at h; exact absurd h (LoadUncompressed_ne_threw _ _ _ _ _ _ _ _)
  | TgaUnknown => rw [hc] at h; simp at h

/-- C5. For every non-null input of at least 12 bytes, `LoadFromData` throws
"Unsupported TGA type." if and only if the first 12 bytes are neither
`{0,0,2,0,...,0}` nor `{0,0,10,0,...,0}`, whatever the bytes from index 12 on
are. -/
theorem LoadFromData_unsupported_type_iff (bytes : List Byte) (hlen : 12 ≤ bytes.length) :
    (LoadFromData (some bytes) = .threw .UnsupportedTgaType ↔
      bytes.take 12 ≠ [0, 0, 2, 0, 0, 0, 0, 0, 0, 0, 0, 0] ∧
      bytes.take 12 ≠ [0, 0, 10, 0, 0, 0, 0, 0, 0, 0, 0, 0]) ∧
    PianoGameError.UnsupportedTgaType.message = "Unsupported TGA type." := by
  refine ⟨?_, rfl⟩
  have e1 : ¬ bytes.length < 12 := by omega
  have hu := classify_unknown_iff bytes
  simp only [UncompressedTgaHeader, CompressedTgaHeader] at hu
  rw [← hu, LoadFromData_some, if_neg e1]
  constructor
  · intro h
    by_contra hc
    rw [if_neg hc] at h
    by_cases e2 : bytes.length < 17
    · rw [if_pos e2] at h; exact Outcome.noConfusion h
    · rw [if_neg e2] at h
      split at h
      · injection h with h; exact PianoGameError.noConfusion h
      · split at h
        · injection h with h; exact PianoGameError.noConfusion h
        · have := LoadFromData_decoder_threw bytes _ h
          exact PianoGameError.noConfusion this
  · intro h
    rw [if_pos h]

theorem LoadFromData_unsupported_type_witness :
    12 ≤ ([0, 0, 0, 0, 0, 0, 0, 0, 0, 0, 0, 0] : List Byte).length ∧
    LoadFromData (some [0, 0, 0, 0, 0, 0, 0, 0, 0, 0, 0, 0]) = .threw .UnsupportedTgaType ∧
    LoadFromData (some [0, 0, 1, 0, 0, 0, 0, 0, 0, 0, 0, 0, 2, 0, 1, 0, 24, 0, 1, 2, 3, 4, 5, 6])
      = .threw .UnsupportedTgaType :=
  ⟨by decide,
   (LoadFromData_unsupported_type_iff [0, 0, 0, 0, 0, 0, 0, 0, 0, 0, 0, 0] (by decide)).1.2
     (by decide),
   (LoadFromData_unsupported_type_iff
      [0, 0, 1, 0, 0, 0, 0, 0, 0, 0, 0, 0, 2, 0, 1, 0, 24, 0, 1, 2, 3, 4, 5, 6] (by decide)).1.2
     (by decide)⟩


theorem classify_ne_unknown (bytes : List Byte)
    (hdr : bytes.take 12 = UncompressedTgaHeader ∨ bytes.take 12 = CompressedTgaHeader) :
    ¬ classify bytes 0 = .TgaUnknown := by
  rw [classify_unknown_iff]
  rcases hdr with h | h
  · exact fun hc => hc.1 h
  · exact fun hc => hc.2 h

/-- C6. For every input whose first 12 bytes are pattern A or pattern B (and
that holds the descriptor bytes 12..16 the code reads), `LoadFromData` throws
"Invalid TGA dimensions." if and only if the decoded width or the decoded
height is zero; the bits-per-pixel byte plays no part. -/
theorem LoadFromData_invalid_dimensions_iff (bytes : List Byte)
    (hdr : bytes.take 12 = UncompressedTgaHeader ∨ bytes.take 12 = CompressedTgaHeader)
    (hlen : 17 ≤ bytes.length) :
    (LoadFromData (some bytes) = .threw .InvalidTgaDimensions ↔
      at_ bytes 13 * 256 + at_ bytes 12 = 0 ∨ at_ bytes 15 * 256 + at_ bytes 14 = 0) ∧
    PianoGameError.InvalidTgaDimensions.message = "Invalid TGA dimensions." := by
  refine ⟨?_, rfl⟩
  have e1 : ¬ bytes.length < 12 := by omega
  have e2 : ¬ bytes.length < 17 := by omega
  rw [LoadFromData_some, if_neg e1, if_neg (classify_ne_unknown bytes hdr), if_neg e2]
  constructor
  · intro h
    by_contra hc
    have e3 : ¬ (at_ bytes 13 * 256 + at_ bytes 12 ≤ 0 ∨
        at_ bytes 15 * 256 + at_ bytes 14 ≤ 0) := by omega
    rw [if_neg e3] at h
    split at h
    · injection h with h; exact PianoGameError.noConfusion h
    · have := LoadFromData_decoder_threw bytes _ h
      exact PianoGameError.noConfusion this
  · intro h
    have e3 : at_ bytes 13 * 256 + at_ bytes 12 ≤ 0 ∨
        at_ bytes 15 * 256 + at_ bytes 14 ≤ 0 := by omega
    rw [if_pos e3]

theorem LoadFromData_invalid_dimensions_witness :
    LoadFromData (some [0, 0, 2, 0, 0, 0, 0, 0, 0, 0, 0, 0, 0, 0, 1, 0, 16, 0])
      = .threw .InvalidTgaDimensions :=
  (LoadFromData_invalid_dimensions_iff
    [0, 0, 2, 0, 0, 0, 0, 0, 0, 0, 0, 0, 0, 0, 1, 0, 16, 0]
    (Or.inl (by decide)) (by decide)).1.2 (Or.inl (by decide))

/-- C7. For every input whose first 12 bytes are pattern A or pattern B and
whose decoded width and height are both at least 1, `LoadFromData` throws
"Unsupported TGA BPP." if and only if byte 16 is neither 24 nor 32. -/
theorem LoadFromData_unsupported_bpp_iff (bytes : List Byte)
    (hdr : bytes.take 12 = UncompressedTgaHeader ∨ bytes.take 12 = CompressedTgaHeader)
    (hlen : 17 ≤ bytes.length)
    (hw : 1 ≤ at_ bytes 13 * 256 + at_ bytes 12)
    (hh : 1 ≤ at_ bytes 15 * 256 + at_ bytes 14) :
    (LoadFromData (some bytes) = .threw .UnsupportedTgaBpp ↔
      at_ bytes 16 ≠ 24 ∧ at_ bytes 16 ≠ 32) ∧
    PianoGameError.UnsupportedTgaBpp.message = "Unsupported TGA BPP." := by
  refine ⟨?_, rfl⟩
  have e1 : ¬ bytes.length < 12 := by omega
  have e2 : ¬ bytes.length < 17 := by omega
  have e3 : ¬ (at_ bytes 13 * 256 + at_ bytes 12 ≤ 0 ∨
      at_ bytes 15 * 256 + at_ bytes 14 ≤ 0) := by omega
  rw [LoadFromData_some, if_neg e1, if_neg (classify_ne_unknown bytes hdr), if_neg e2,
    if_neg e3]
  constructor
  · intro h
    by_contra hc
    rw [if_neg hc] at h
    have := LoadFromData_decoder_threw bytes _ h
    exact PianoGameError.noConfusion this
  · intro h
    rw [if_pos h]

theorem LoadFromData_unsupported_bpp_witness :
    LoadFromData (some [0, 0, 10, 0, 0, 0, 0, 0, 0, 0, 0, 0, 2, 0, 1, 0, 16, 0, 129, 1, 2, 3])
      = .threw .UnsupportedTgaBpp :=
  (LoadFromData_unsupported_bpp_iff
    [0, 0, 10, 0, 0, 0, 0, 0, 0, 0, 0, 0, 2, 0, 1, 0, 16, 0, 129, 1, 2, 3]
    (Or.inr (by decide)) (by decide) (by decide) (by decide)).1.2 (by decide)

theorem at__lt (src : List Byte) (i : Nat) : at_ src i < 256 := (src.getD i 0).isLt

theorem BuildFromParameters_built (raw : Mem) (width height bpp : Nat) (t : Tga)
    (h : BuildFromParameters raw width height bpp = .built t) :
    t.m_width = width ∧ t.m_height = height ∧ t.bpp = bpp ∧ t.raw = raw := by
  unfold BuildFromParameters at h
  injection h with h
  subst h
  exact ⟨rfl, rfl, rfl, rfl⟩

theorem LoadUncompressed_built (src : List Byte) (pos : Nat) (dest : Mem)
    (size width height bpp : Nat) (t : Tga)
    (h : LoadUncompressed src pos dest size width height bpp = .built t) :
    t.m_width = width ∧ t.m_height = height ∧ t.bpp = bpp := by
  unfold LoadUncompressed at h
  split at h
  · exact Outcome.noConfusion h
  · simp only at h
    split at h
    · exact Outcome.noConfusion h
    · have := BuildFromParameters_built _ _ _ _ _ h
      exact ⟨this.1, this.2.1, this.2.2.1⟩

theorem LoadCompressed_built (src : List Byte) (pos : Nat) (dest : Mem)
    (width height bpp : Nat) (t : Tga)
    (h : LoadCompressed src pos dest width height bpp = .built t) :
    t.m_width = width ∧ t.m_height = height ∧ t.bpp = bpp := by
  unfold LoadCompressed at h
  simp only at h
  split at h
  · have := BuildFromParameters_built _ _ _ _ _ h
    exact ⟨this.1, this.2.1, this.2.2.1⟩
  · exact Outcome.noConfusion h
  · exact Outcome.noConfusion h
  · exact Outcome.noConfusion h

/-- C8. Whenever `LoadFromData` returns an object, the input holds the
descriptor bytes, the width and height are `byte[12] + 256*byte[13]` and
`byte[14] + 256*byte[15]`, each in [1, 65535], the bits per pixel are
`byte[16]`; these are the values passed to the pixel decoder that produced the
object and the values stored in it. -/
theorem LoadFromData_built_descriptor (bytes : List Byte) (t : Tga)
    (h : LoadFromData (some bytes) = .built t) :
    17 ≤ bytes.length ∧
    t.m_width = at_ bytes 12 + 256 * at_ bytes 13 ∧
    t.m_height = at_ bytes 14 + 256 * at_ bytes 15 ∧
    t.bpp = at_ bytes 16 ∧
    1 ≤ t.m_width ∧ t.m_width ≤ 65535 ∧ 1 ≤ t.m_height ∧ t.m_height ≤ 65535 ∧
    (LoadUncompressed bytes 18 Mem.fresh
        (data_size (at_ bytes 12 + 256 * at_ bytes 13) (at_ bytes 14 + 256 * at_ bytes 15)
          (at_ bytes 16))
        (at_ bytes 12 + 256 * at_ bytes 13) (at_ bytes 14 + 256 * at_ bytes 15)
        (at_ bytes 16) = .built t ∨
     LoadCompressed bytes 18 Mem.fresh
        (at_ bytes 12 + 256 * at_ bytes 13) (at_ bytes 14 + 256 * at_ bytes 15)
        (at_ bytes 16) = .built t) := by
  have b12 := at__lt bytes 12
  have b13 := at__lt bytes 13
  have b14 := at__lt bytes 14
  have b15 := at__lt bytes 15
  have ew : at_ bytes 13 * 256 + at_ bytes 12 = at_ bytes 12 + 256 * at_ bytes 13 := by omega
  have eh : at_ bytes 15 * 256 + at_ bytes 14 = at_ bytes 14 + 256 * at_ bytes 15 := by omega
  rw [LoadFromData_some] at h
  split at h
  · exact Outcome.noConfusion h
  split at h
  · exact Outcome.noConfusion h
  split at h
  · exact Outcome.noConfusion h
  rename_i hlen
  split at h
  · exact Outcome.noConfusion h
  rename_i hdim
  split at h
  · exact Outcome.noConfusion h
  rw [ew, eh] at h hdim
  have hkey : t.m_width = at_ bytes 12 + 256 * at_ bytes 13 ∧
      t.m_height = at_ bytes 14 + 256 * at_ bytes 15 ∧ t.bpp = at_ bytes 16 ∧
      (LoadUncompressed bytes 18 Mem.fresh
        (data_size (at_ bytes 12 + 256 * at_ bytes 13) (at_ bytes 14 + 256 * at_ bytes 15)
          (at_ bytes 16))
        (at_ bytes 12 + 256 * at_ bytes 13) (at_ bytes 14 + 256 * at_ bytes 15)
        (at_ bytes 16) = .built t ∨
      LoadCompressed bytes 18 Mem.fresh
        (at_ bytes 12 + 256 * at_ bytes 13) (at_ bytes 14 + 256 * at_ bytes 15)
        (at_ bytes 16) = .built t) := by
    split at h
    · have := LoadCompressed_built _ _ _ _ _ _ _ h
      exact ⟨this.1, this.2.1, this.2.2, Or.inr h⟩
    · have := LoadUncompressed_built _ _ _ _ _ _ _ _ h
      exact ⟨this.1, this.2.1, this.2.2, Or.inl h⟩
    · exact Outcome.noConfusion h
  obtain ⟨k1, k2, k3, k4⟩ := hkey
  refine ⟨by omega, k1, k2, k3, ?_, ?_, ?_, ?_, k4⟩ <;> omega

theorem LoadFromData_built_descriptor_witness :
    ∃ t, LoadFromData (some [0, 0, 2, 0, 0, 0, 0, 0, 0, 0, 0, 0, 2, 0, 1, 0, 24, 0,
        16, 32, 48, 64, 80, 96]) = .built t ∧
      t.m_width = 2 ∧ t.m_height = 1 ∧ t.bpp = 24 := by
  refine ⟨_, rfl, ?_⟩
  have h := LoadFromData_built_descriptor
    [0, 0, 2, 0, 0, 0, 0, 0, 0, 0, 0, 0, 2, 0, 1, 0, 24, 0, 16, 32, 48, 64, 80, 96] _ rfl
  exact ⟨h.2.1, h.2.2.1, h.2.2.2.1⟩

/-! ## The size of the output buffer -/

theorem data_size_eq_iff (width height bpp : Nat)
    (hw : width ≤ 65535) (hh : height ≤ 65535) (hb : bpp = 24 ∨ bpp = 32) :
    data_size width height bpp = width * height * (bpp / 8) ↔
      width * height * bpp < 4294967296 := by
  have hU : U32 = 4294967296 := rfl
  have hwh : width * height ≤ 65535 * 65535 := Nat.mul_le_mul hw hh
  have h1 : width * height % U32 = width * height := Nat.mod_eq_of_lt (by omega)
  unfold data_size
  rw [h1]
  generalize width * height = n at hwh ⊢
  rcases hb with rfl | rfl
  · constructor
    · intro h
      by_contra hc
      have := Nat.mod_lt (n * 24) (show 0 < U32 by decide)
      omega
    · intro h
      rw [Nat.mod_eq_of_lt h]
      omega
  · constructor
    · intro h
      by_contra hc
      have := Nat.mod_lt (n * 32) (show 0 < U32 by decide)
      omega
    · intro h
      rw [Nat.mod_eq_of_lt h]
      omega

/-- C9, amended. For a recognised header and a valid descriptor (width and
height in [1, 65535], bpp 24 or 32), the buffer size `LoadFromData` computes
in `unsigned int` arithmetic equals `width * height * (bpp/8)` exactly when
`width * height * bpp < 2^32`. -/
theorem data_size_exact_iff (width height bpp : Nat)
    (hw : 1 ≤ width ∧ width ≤ 65535) (hh : 1 ≤ height ∧ height ≤ 65535)
    (hb : bpp = 24 ∨ bpp = 32) :
    data_size width height bpp = width * height * (bpp / 8) ↔
      width * height * bpp < 4294967296 :=
  data_size_eq_iff width height bpp hw.2 hh.2 hb

theorem data_size_exact_witness :
    data_size 2 1 24 = 2 * 1 * (24 / 8) :=
  (data_size_exact_iff 2 1 24 (by decide) (by decide) (Or.inl rfl)).2 (by decide)

/-- C9 fails as stated: a 16384 x 16384 image at 32 bits per pixel is a valid
descriptor, yet the computed buffer size is 0, and `LoadFromData` on an
uncompressed input with that descriptor and no pixel data at all returns an
object whose buffer nothing was copied into. -/
theorem data_size_wraps :
    (1 ≤ 16384 ∧ 16384 ≤ 65535 ∧ (32 = 24 ∨ 32 = 32)) ∧
    data_size 16384 16384 32 = 0 ∧
    data_size 16384 16384 32 ≠ 16384 * 16384 * (32 / 8) ∧
    ∃ t, LoadFromData (some [0, 0, 2, 0, 0, 0, 0, 0, 0, 0, 0, 0, 0, 64, 0, 64, 32, 0])
        = .built t ∧
      t.m_width = 16384 ∧ t.m_height = 16384 ∧ t.bpp = 32 ∧ ∀ i, t.raw i = none :=
  ⟨by decide, by decide, by decide, _, rfl, rfl, rfl, rfl, fun _ => rfl⟩


/-! ## The channel swap of `LoadUncompressed` -/

theorem xorCell_some (a b : Byte) :
    xorCell (some a) (some b) = some ⟨a.val ^^^ b.val, Nat.xor_lt_two_pow (n := 8) a.isLt b.isLt⟩ := by
  have h : a.val ^^^ b.val < 256 := Nat.xor_lt_two_pow (n := 8) a.isLt b.isLt
  simp only [xorCell]
  congr 1
  apply Fin.ext
  exact Nat.mod_eq_of_lt h

theorem xorCell_cancel_left (a b : Byte) :
    xorCell (some b) (xorCell (some a) (some b)) = some a := by
  rw [xorCell_some, xorCell_some]
  congr 1
  apply Fin.ext
  show b.val ^^^ (a.val ^^^ b.val) = a.val
  rw [Nat.xor_comm a.val b.val, ← Nat.xor_assoc, Nat.xor_self, Nat.zero_xor]

theorem xorCell_cancel_right (a b : Byte) :
    xorCell (xorCell (some a) (some b)) (some a) = some b := by
  rw [xorCell_some, xorCell_some]
  congr 1
  apply Fin.ext
  show (a.val ^^^ b.val) ^^^ a.val = b.val
  rw [Nat.xor_comm a.val b.val, Nat.xor_assoc, Nat.xor_self, Nat.xor_zero]

/-- On two cells that hold bytes, the XOR statement exchanges them and touches
nothing else. -/
theorem xorSwap_apply (dest : Mem) (c : Nat) (a b : Byte) (hc : c + 2 < U32)
    (ha : dest c = some a) (hb : dest (c + 2) = some b) (i : Nat) :
    xorSwap dest c i = if i = c then some b else if i = c + 2 then some a else dest i := by
  have hm : (c + 2) % U32 = c + 2 := Nat.mod_eq_of_lt hc
  have hne : c + 2 ≠ c := by omega
  have hne2 : c ≠ c + 2 := by omega
  simp only [xorSwap, Mem.store, hm, if_pos, if_neg hne, if_neg hne2, ha, hb, if_true]
  by_cases h1 : i = c
  · simp only [h1, if_true]
    rw [xorCell_cancel_left]
    exact xorCell_cancel_right a b
  · simp only [if_neg h1]
    by_cases h2 : i = c + 2
    · simp only [h2, if_true]
      exact xorCell_cancel_left a b
    · simp only [if_neg h2]

theorem swapLoop_spec (bpp k n : Nat) (hk : bpp / 8 = k) (hk34 : k = 3 ∨ k = 4)
    (hn : n * k + k ≤ U32) :
    ∀ (m j : Nat) (dest : Mem) (fuel : Nat), j + m = n → m + 1 ≤ fuel →
      (∀ i, j * k ≤ i → i < n * k → ∃ v, dest i = some v) →
      ∃ d, swapLoop (n * k) bpp fuel (j * k) dest = some d ∧ SwappedFrom k n j dest d := by
  have hU : U32 = 4294967296 := rfl
  intro m
  induction m with
  | zero =>
    intro j dest fuel hj hf _
    obtain ⟨f, rfl⟩ : ∃ f, fuel = f + 1 := ⟨fuel - 1, by omega⟩
    have hjn : j = n := by omega
    subst hjn
    refine ⟨dest, ?_, ?_, ?_⟩
    · simp [swapLoop]
    · intro p h1 h2; omega
    · intro i _; rfl
  | succ m ih =>
    intro j dest fuel hj hf hdef
    obtain ⟨f, rfl⟩ : ∃ f, fuel = f + 1 := ⟨fuel - 1, by omega⟩
    have hjn : j < n := by omega
    have hlt : j * k < n * k := by
      rcases hk34 with rfl | rfl <;> omega
    have hstep : (j * k + bpp / 8) % U32 = (j + 1) * k := by
      rw [hk, Nat.mod_eq_of_lt]
      · rcases hk34 with rfl | rfl <;> omega
      · rcases hk34 with rfl | rfl <;> omega
    obtain ⟨a, ha⟩ := hdef (j * k) (le_refl _) hlt
    obtain ⟨b, hb⟩ := hdef (j * k + 2) (by omega) (by rcases hk34 with rfl | rfl <;> omega)
    have hc2 : j * k + 2 < U32 := by rcases hk34 with rfl | rfl <;> omega
    have hx := xorSwap_apply dest (j * k) a b hc2 ha hb
    have hdef1 : ∀ i, (j + 1) * k ≤ i → i < n * k → ∃ v, xorSwap dest (j * k) i = some v := by
      intro i h1 h2
      rw [hx]
      have e1 : i ≠ j * k := by rcases hk34 with rfl | rfl <;> omega
      have e2 : i ≠ j * k + 2 := by rcases hk34 with rfl | rfl <;> omega
      rw [if_neg e1, if_neg e2]
      exact hdef i (by rcases hk34 with rfl | rfl <;> omega) h2
    obtain ⟨d, hd, hsw, hfr⟩ := ih (j + 1) (xorSwap dest (j * k)) f (by omega) (by omega) hdef1
    refine ⟨d, ?_, ?_, ?_⟩
    · rw [swapLoop, if_pos hlt, hstep]
      exact hd
    · intro p h1 h2
      by_cases hp : p = j
      · subst hp
        have f0 := hfr (p * k) (Or.inl (by rcases hk34 with rfl | rfl <;> omega))
        have f1 := hfr (p * k + 1) (Or.inl (by rcases hk34 with rfl | rfl <;> omega))
        have f2 := hfr (p * k + 2) (Or.inl (by rcases hk34 with rfl | rfl <;> omega))
        rw [f0, f1, f2, hx, hx, hx]
        refine ⟨?_, ?_, ?_, ?_⟩
        · rw [if_pos rfl, hb]
        · rw [if_neg (by rcases hk34 with rfl | rfl <;> omega), if_neg (by rcases hk34 with rfl | rfl <;> omega)]
        · rw [if_neg (by rcases hk34 with rfl | rfl <;> omega), if_pos rfl, ha]
        · intro h4
          have f3 := hfr (p * k + 3) (Or.inl (by rcases hk34 with rfl | rfl <;> omega))
          rw [f3, hx, if_neg (by rcases hk34 with rfl | rfl <;> omega), if_neg (by rcases hk34 with rfl | rfl <;> omega)]
      · obtain ⟨g0, g1, g2, g3⟩ := hsw p (by rcases hk34 with rfl | rfl <;> omega) h2
        rw [g0, g1, g2, hx, hx, hx]
        refine ⟨?_, ?_, ?_, ?_⟩
        · rw [if_neg (by rcases hk34 with rfl | rfl <;> omega),
            if_neg (by rcases hk34 with rfl | rfl <;> omega)]
        · rw [if_neg (by rcases hk34 with rfl | rfl <;> omega),
            if_neg (by rcases hk34 with rfl | rfl <;> omega)]
        · rw [if_neg (by rcases hk34 with rfl | rfl <;> omega),
            if_neg (by rcases hk34 with rfl | rfl <;> omega)]
        · intro h4
          rw [g3 h4, hx, if_neg (by rcases hk34 with rfl | rfl <;> omega), if_neg (by rcases hk34 with rfl | rfl <;> omega)]
    · intro i hi
      rw [hfr i (by rcases hk34 with rfl | rfl <;> omega), hx,
        if_neg (by rcases hk34 with rfl | rfl <;> omega),
        if_neg (by rcases hk34 with rfl | rfl <;> omega)]


theorem memcpy_apply_lt (dest : Mem) (src : List Byte) (pos n i : Nat) (h : i < n) :
    memcpy dest src pos n i = src[pos + i]? := by
  simp [memcpy, h]

theorem memcpy_apply_ge (dest : Mem) (src : List Byte) (pos n i : Nat) (h : n ≤ i) :
    memcpy dest src pos n i = dest i := by
  have : ¬ i < n := by omega
  simp [memcpy, this]

theorem BuildFromParameters_eq (raw : Mem) (width height bpp : Nat) :
    ∃ t, BuildFromParameters raw width height bpp = .built t ∧
      t.m_width = width ∧ t.m_height = height ∧ t.bpp = bpp ∧ t.raw = raw :=
  ⟨{ m_width := width, m_height := height, bpp := bpp,
     pixel_format := if bpp = 32 then PixelFormat.GL_RGBA
       else if bpp = 24 then PixelFormat.GL_RGB else PixelFormat.zero,
     raw := raw }, rfl, rfl, rfl, rfl, rfl⟩

/-- The result of `LoadUncompressed` on a source that holds `n` whole pixels of `k` bytes
from `pos` on: it builds the object, and the buffer it hands over holds the
source pixels with bytes 0 and 2 exchanged. -/
theorem LoadUncompressed_spec (src : List Byte) (pos : Nat) (dest : Mem)
    (width height bpp k n : Nat) (hk : bpp / 8 = k) (hk34 : k = 3 ∨ k = 4)
    (hn : n * k + k ≤ U32) (hlen : pos + n * k ≤ src.length) :
    ∃ t, LoadUncompressed src pos dest (n * k) width height bpp = .built t ∧
      t.m_width = width ∧ t.m_height = height ∧ t.bpp = bpp ∧
      (∀ p, p < n →
        t.raw (p * k) = src[pos + p * k + 2]? ∧ t.raw (p * k + 1) = src[pos + p * k + 1]? ∧
        t.raw (p * k + 2) = src[pos + p * k]? ∧
        (k = 4 → t.raw (p * k + 3) = src[pos + p * k + 3]?)) ∧
      ∀ i, n * k ≤ i → t.raw i = dest i := by
  have hdef : ∀ i, 0 * k ≤ i → i < n * k → ∃ v, memcpy dest src pos (n * k) i = some v := by
    intro i _ h2
    rw [memcpy_apply_lt _ _ _ _ _ h2]
    have h3 : pos + i < src.length := by omega
    exact ⟨src[pos + i], List.getElem?_eq_getElem h3⟩
  have hfuel : n + 1 ≤ n * k + 1 := by rcases hk34 with rfl | rfl <;> omega
  obtain ⟨d, hd, hsw, hfr⟩ := swapLoop_spec bpp k n hk hk34 hn n 0
    (memcpy dest src pos (n * k)) (n * k + 1) (by omega) hfuel hdef
  rw [Nat.zero_mul] at hd
  obtain ⟨t, ht, t1, t2, t3, t4⟩ := BuildFromParameters_eq d width height bpp
  subst t4
  refine ⟨t, ?_, t1, t2, t3, ?_, ?_⟩
  · rw [LoadUncompressed, if_neg (by omega)]
    simp only [hd]
    exact ht
  · intro p hp
    obtain ⟨g0, g1, g2, g3⟩ := hsw p (Nat.zero_le _) hp
    refine ⟨?_, ?_, ?_, ?_⟩
    ·       rw [g0, memcpy_apply_lt _ _ _ _ _ (by rcases hk34 with rfl | rfl <;> omega),
        Nat.add_assoc]
    ·       rw [g1, memcpy_apply_lt _ _ _ _ _ (by rcases hk34 with rfl | rfl <;> omega),
        Nat.add_assoc]
    ·       rw [g2, memcpy_apply_lt _ _ _ _ _ (by rcases hk34 with rfl | rfl <;> omega)]
    · intro h4
      rw [g3 h4, memcpy_apply_lt _ _ _ _ _ (by rcases hk34 with rfl | rfl <;> omega),
        Nat.add_assoc]
  · intro i hi
    rw [hfr i (Or.inr hi), memcpy_apply_ge _ _ _ _ _ hi]

/-- The result of `LoadFromData` on an uncompressed input with a valid descriptor whose
pixel data is present and whose size does not wrap. -/
theorem LoadFromData_uncompressed_spec (bytes : List Byte) (width height bpp k : Nat)
    (hdr : bytes.take 12 = UncompressedTgaHeader)
    (hwv : width = at_ bytes 12 + 256 * at_ bytes 13)
    (hhv : height = at_ bytes 14 + 256 * at_ bytes 15)
    (hbv : bpp = at_ bytes 16) (hk : k = bpp / 8)
    (hw : 1 ≤ width) (hh : 1 ≤ height) (hb : bpp = 24 ∨ bpp = 32)
    (hlen : 18 + width * height * k ≤ bytes.length)
    (hov : width * height * bpp < 4294967296) :
    ∃ t, LoadFromData (some bytes) = .built t ∧
      t.m_width = width ∧ t.m_height = height ∧ t.bpp = bpp ∧
      (∀ p, p < width * height →
        t.raw (p * k) = bytes[18 + p * k + 2]? ∧ t.raw (p * k + 1) = bytes[18 + p * k + 1]? ∧
        t.raw (p * k + 2) = bytes[18 + p * k]? ∧
        (k = 4 → t.raw (p * k + 3) = bytes[18 + p * k + 3]?)) ∧
      ∀ i, width * height * k ≤ i → t.raw i = none := by
  have hU : U32 = 4294967296 := rfl
  have b12 := at__lt bytes 12
  have b13 := at__lt bytes 13
  have b14 := at__lt bytes 14
  have b15 := at__lt bytes 15
  have ew : at_ bytes 13 * 256 + at_ bytes 12 = width := by omega
  have eh : at_ bytes 15 * 256 + at_ bytes 14 = height := by omega
  have hk34 : k = 3 ∨ k = 4 := by rcases hb with h | h <;> subst h <;> simp [hk]
  have hpos : 0 < width * height := Nat.mul_pos hw hh
  have hlen17 : 17 ≤ bytes.length := by
    rcases hk34 with h | h <;> subst h <;> omega
  have hdisp := (LoadFromData_dispatch bytes hlen17 (by omega) (by omega) (by omega)).1 hdr
  rw [ew, eh, ← hbv] at hdisp
  have hds : data_size width height bpp = width * height * k := by
    rw [hk]
    exact (data_size_eq_iff width height bpp (by omega) (by omega) hb).2 hov
  rw [hds] at hdisp
  have hn : width * height * k + k ≤ U32 := by
    rcases hb with h | h <;> subst h <;> simp at hk <;> subst hk <;> omega
  obtain ⟨t, ht, h1, h2, h3, h4, h5⟩ := LoadUncompressed_spec bytes 18 Mem.fresh width height
    bpp k (width * height) hk.symm hk34 hn hlen
  exact ⟨t, hdisp.trans ht, h1, h2, h3, h4, h5⟩

/-- C1. For every uncompressed input (header pattern A, width >= 1,
height >= 1, bpp 24 or 32, k = bpp/8, at least 18 + width*height*k bytes,
width*height*bpp < 2^32) `LoadFromData` succeeds with that width, height and
bpp, and the buffer handed to `BuildFromParameters` holds, for every pixel
p < width*height, out[p*k] = in[18+p*k+2], out[p*k+1] = in[18+p*k+1],
out[p*k+2] = in[18+p*k] and, when k = 4, out[p*k+3] = in[18+p*k+3]. -/
theorem LoadFromData_uncompressed (bytes : List Byte) (width height bpp k : Nat)
    (hdr : bytes.take 12 = [0, 0, 2, 0, 0, 0, 0, 0, 0, 0, 0, 0])
    (hwv : width = at_ bytes 12 + 256 * at_ bytes 13)
    (hhv : height = at_ bytes 14 + 256 * at_ bytes 15)
    (hbv : bpp = at_ bytes 16) (hk : k = bpp / 8)
    (hw : 1 ≤ width) (hh : 1 ≤ height) (hb : bpp = 24 ∨ bpp = 32)
    (hlen : 18 + width * height * k ≤ bytes.length)
    (hov : width * height * bpp < 2 ^ 32) :
    ∃ t, LoadFromData (some bytes) = .built t ∧
      t.m_width = width ∧ t.m_height = height ∧ t.bpp = bpp ∧
      ∀ p, p < width * height →
        t.raw (p * k) = bytes[18 + p * k + 2]? ∧ t.raw (p * k + 1) = bytes[18 + p * k + 1]? ∧
        t.raw (p * k + 2) = bytes[18 + p * k]? ∧
        (k = 4 → t.raw (p * k + 3) = bytes[18 + p * k + 3]?) := by
  obtain ⟨t, ht, h1, h2, h3, h4, _⟩ := LoadFromData_uncompressed_spec bytes width height bpp k
    hdr hwv hhv hbv hk hw hh hb hlen (by norm_num at hov; exact hov)
  exact ⟨t, ht, h1, h2, h3, h4⟩

theorem LoadFromData_uncompressed_witness :
    ∃ t, LoadFromData (some [0, 0, 2, 0, 0, 0, 0, 0, 0, 0, 0, 0, 0x02, 0x00, 0x01, 0x00, 0x18,
        0x00, 0x10, 0x20, 0x30, 0x40, 0x50, 0x60]) = .built t ∧
      t.m_width = 2 ∧ t.m_height = 1 ∧
      (List.range 6).map t.raw =
        [some 0x30, some 0x20, some 0x10, some 0x60, some 0x50, some 0x40] := by
  obtain ⟨t, ht, h1, h2, _, h4⟩ := LoadFromData_uncompressed
    [0, 0, 2, 0, 0, 0, 0, 0, 0, 0, 0, 0, 0x02, 0x00, 0x01, 0x00, 0x18, 0x00,
      0x10, 0x20, 0x30, 0x40, 0x50, 0x60] 2 1 24 3
    (by decide) (by decide) (by decide) (by decide) (by decide) (by decide) (by decide)
    (by decide) (by decide) (by decide)
  refine ⟨t, ht, h1, h2, ?_⟩
  obtain ⟨a0, a1, a2, _⟩ := h4 0 (by decide)
  obtain ⟨c0, c1, c2, _⟩ := h4 1 (by decide)
  simp only [List.range, List.range.loop, List.map]
  simp only [Nat.zero_mul, Nat.one_mul, Nat.zero_add] at a0 a1 a2 c0 c1 c2
  rw [a0, a1, a2, c0, c1, c2]
  decide


/-! ## Round trip through an uncompressed stream -/

theorem swapChannels3_length : ∀ (n : Nat) (P : List Byte), P.length = n →
    (swapChannels3 P).length = P.length := by
  intro n
  induction n using Nat.strong_induction_on with
  | _ n ih =>
    intro P hP
    match P, hP with
    | [], _ => rfl
    | [_], _ => rfl
    | [_, _], _ => rfl
    | b0 :: b1 :: b2 :: rest, hP =>
      simp only [swapChannels3, List.length_cons] at hP ⊢
      rw [ih rest.length (by omega) rest rfl]

theorem swapChannels4_length : ∀ (n : Nat) (P : List Byte), P.length = n →
    (swapChannels4 P).length = P.length := by
  intro n
  induction n using Nat.strong_induction_on with
  | _ n ih =>
    intro P hP
    match P, hP with
    | [], _ => rfl
    | [_], _ => rfl
    | [_, _], _ => rfl
    | [_, _, _], _ => rfl
    | b0 :: b1 :: b2 :: b3 :: rest, hP =>
      simp only [swapChannels4, List.length_cons] at hP ⊢
      rw [ih rest.length (by omega) rest rfl]

theorem swapChannels3_getElem? : ∀ (p : Nat) (P : List Byte), p * 3 + 3 ≤ P.length →
    (swapChannels3 P)[p * 3]? = P[p * 3 + 2]? ∧
    (swapChannels3 P)[p * 3 + 1]? = P[p * 3 + 1]? ∧
    (swapChannels3 P)[p * 3 + 2]? = P[p * 3]? := by
  intro p
  induction p with
  | zero =>
    intro P hP
    match P, hP with
    | b0 :: b1 :: b2 :: rest, _ => simp [swapChannels3]
  | succ p ih =>
    intro P hP
    match P, hP with
    | b0 :: b1 :: b2 :: rest, hP =>
      simp only [List.length_cons] at hP
      obtain ⟨h0, h1, h2⟩ := ih rest (by omega)
      have c (L : List Byte) (x y z : Byte) (i : Nat) : (x :: y :: z :: L)[i + 3]? = L[i]? := by
        simp [List.getElem?_cons_succ]
      have e0 : (p + 1) * 3 = p * 3 + 3 := by omega
      have e1 : (p + 1) * 3 + 1 = p * 3 + 1 + 3 := by omega
      have e2 : (p + 1) * 3 + 2 = p * 3 + 2 + 3 := by omega
      refine ⟨?_, ?_, ?_⟩
      · rw [e2, e0, swapChannels3, c, c]; exact h0
      · rw [e1, swapChannels3, c, c]; exact h1
      · rw [e2, e0, swapChannels3, c, c]; exact h2

theorem swapChannels4_getElem? : ∀ (p : Nat) (P : List Byte), p * 4 + 4 ≤ P.length →
    (swapChannels4 P)[p * 4]? = P[p * 4 + 2]? ∧
    (swapChannels4 P)[p * 4 + 1]? = P[p * 4 + 1]? ∧
    (swapChannels4 P)[p * 4 + 2]? = P[p * 4]? ∧
    (swapChannels4 P)[p * 4 + 3]? = P[p * 4 + 3]? := by
  intro p
  induction p with
  | zero =>
    intro P hP
    match P, hP with
    | b0 :: b1 :: b2 :: b3 :: rest, _ => simp [swapChannels4]
  | succ p ih =>
    intro P hP
    match P, hP with
    | b0 :: b1 :: b2 :: b3 :: rest, hP =>
      simp only [List.length_cons] at hP
      obtain ⟨h0, h1, h2, h3⟩ := ih rest (by omega)
      have c (L : List Byte) (x y z w : Byte) (i : Nat) :
          (x :: y :: z :: w :: L)[i + 4]? = L[i]? := by
        simp [List.getElem?_cons_succ]
      have e0 : (p + 1) * 4 = p * 4 + 4 := by omega
      have e1 : (p + 1) * 4 + 1 = p * 4 + 1 + 4 := by omega
      have e2 : (p + 1) * 4 + 2 = p * 4 + 2 + 4 := by omega
      have e3 : (p + 1) * 4 + 3 = p * 4 + 3 + 4 := by omega
      refine ⟨?_, ?_, ?_, ?_⟩
      · rw [e2, e0, swapChannels4, c, c]; exact h0
      · rw [e1, swapChannels4, c, c]; exact h1
      · rw [e2, e0, swapChannels4, c, c]; exact h2
      · rw [e3, swapChannels4, c, c]; exact h3


theorem uncompressedStream_getElem? (width height bpp : Nat) (P : List Byte) (j : Nat) :
    (uncompressedStream width height bpp P)[18 + j]? =
      (if bpp / 8 = 4 then swapChannels4 P else swapChannels3 P)[j]? := by
  unfold uncompressedStream
  rw [List.getElem?_append_right (by simp [UncompressedTgaHeader])]
  congr 1
  simp [UncompressedTgaHeader]

theorem uncompressedStream_length (width height bpp : Nat) (P : List Byte) :
    (uncompressedStream width height bpp P).length = 18 + P.length := by
  unfold uncompressedStream
  split
  · simp [UncompressedTgaHeader, swapChannels4_length _ P rfl]; omega
  · simp [UncompressedTgaHeader, swapChannels3_length _ P rfl]; omega

/-- Decoding the uncompressed stream made from a pixel buffer gives back the
buffer, cell by cell. -/
theorem LoadFromData_uncompressedStream (width height bpp : Nat) (P : List Byte)
    (hw : 1 ≤ width ∧ width ≤ 65535) (hh : 1 ≤ height ∧ height ≤ 65535)
    (hb : bpp = 24 ∨ bpp = 32) (hov : width * height * bpp < 4294967296)
    (hP : P.length = width * height * (bpp / 8)) :
    ∃ t, LoadFromData (some (uncompressedStream width height bpp P)) = .built t ∧
      t.m_width = width ∧ t.m_height = height ∧ t.bpp = bpp ∧
      (∀ i, i < P.length → t.raw i = P[i]?) ∧ ∀ i, P.length ≤ i → t.raw i = none := by
  have a12 : at_ (uncompressedStream width height bpp P) 12 = width % 256 := rfl
  have a13 : at_ (uncompressedStream width height bpp P) 13 = width / 256 % 256 := rfl
  have a14 : at_ (uncompressedStream width height bpp P) 14 = height % 256 := rfl
  have a15 : at_ (uncompressedStream width height bpp P) 15 = height / 256 % 256 := rfl
  have a16 : at_ (uncompressedStream width height bpp P) 16 = bpp % 256 := rfl
  have hdr : (uncompressedStream width height bpp P).take 12 = UncompressedTgaHeader := rfl
  obtain ⟨t, ht, h1, h2, h3, h4, h5⟩ := LoadFromData_uncompressed_spec
    (uncompressedStream width height bpp P) width height bpp (bpp / 8) hdr
    (by rw [a12, a13]; omega) (by rw [a14, a15]; omega) (by rw [a16]; omega) rfl hw.1 hh.1 hb
    (by rw [uncompressedStream_length, hP]) hov
  refine ⟨t, ht, h1, h2, h3, ?_, ?_⟩
  · intro i hi
    rcases hb with hb | hb
    · subst hb
      have hk : 24 / 8 = 3 := rfl
      rw [hk] at h4 hP
      obtain ⟨p, r, hr, rfl⟩ : ∃ p r, r < 3 ∧ i = p * 3 + r :=
        ⟨i / 3, i % 3, Nat.mod_lt _ (by decide), by omega⟩
      obtain ⟨g0, g1, g2, _⟩ := h4 p (by omega)
      rw [Nat.add_assoc, uncompressedStream_getElem?] at g0 g1
      rw [uncompressedStream_getElem?] at g2
      simp only [hk, show ¬ (3 = 4) by decide, if_false] at g0 g1 g2
      obtain ⟨s0, s1, s2⟩ := swapChannels3_getElem? p P (by omega)
      interval_cases r
      · rw [Nat.add_zero, g0, s2]
      · rw [g1, s1]
      · rw [g2, s0]
    · subst hb
      have hk : 32 / 8 = 4 := rfl
      rw [hk] at h4 hP
      obtain ⟨p, r, hr, rfl⟩ : ∃ p r, r < 4 ∧ i = p * 4 + r :=
        ⟨i / 4, i % 4, Nat.mod_lt _ (by decide), by omega⟩
      obtain ⟨g0, g1, g2, g3⟩ := h4 p (by omega)
      have g3 := g3 rfl
      rw [Nat.add_assoc, uncompressedStream_getElem?] at g0 g1 g3
      rw [uncompressedStream_getElem?] at g2
      simp only [hk, if_true] at g0 g1 g2 g3
      obtain ⟨s0, s1, s2, s3⟩ := swapChannels4_getElem? p P (by omega)
      interval_cases r
      · rw [Nat.add_zero, g0, s2]
      · rw [g1, s1]
      · rw [g2, s0]
      · rw [g3, s3]
  · intro i hi
    exact h5 i (by rw [← hP]; exact hi)


theorem SwappedFrom_source (k n : Nat) (dest d : Mem) (hk34 : k = 3 ∨ k = 4)
    (h : SwappedFrom k n 0 dest d) (i : Nat) (hi : i < n * k) :
    ∃ j, j < n * k ∧ d i = dest j := by
  obtain ⟨hsw, _⟩ := h
  rcases hk34 with rfl | rfl
  · obtain ⟨p, r, hr, rfl⟩ : ∃ p r, r < 3 ∧ i = p * 3 + r :=
      ⟨i / 3, i % 3, Nat.mod_lt _ (by decide), by omega⟩
    obtain ⟨g0, g1, g2, _⟩ := hsw p (Nat.zero_le _) (by omega)
    interval_cases r
    · exact ⟨p * 3 + 2, by omega, g0⟩
    · exact ⟨p * 3 + 1, by omega, g1⟩
    · exact ⟨p * 3, by omega, g2⟩
  · obtain ⟨p, r, hr, rfl⟩ : ∃ p r, r < 4 ∧ i = p * 4 + r :=
      ⟨i / 4, i % 4, Nat.mod_lt _ (by decide), by omega⟩
    obtain ⟨g0, g1, g2, g3⟩ := hsw p (Nat.zero_le _) (by omega)
    interval_cases r
    · exact ⟨p * 4 + 2, by omega, g0⟩
    · exact ⟨p * 4 + 1, by omega, g1⟩
    · exact ⟨p * 4, by omega, g2⟩
    · exact ⟨p * 4 + 3, by omega, g3 rfl⟩

theorem SwappedFrom_twice (k n : Nat) (dest d d2 : Mem) (hk34 : k = 3 ∨ k = 4)
    (h : SwappedFrom k n 0 dest d) (h2 : SwappedFrom k n 0 d d2) (i : Nat) :
    d2 i = dest i := by
  by_cases hi : i < n * k
  · rcases hk34 with rfl | rfl
    · obtain ⟨p, r, hr, rfl⟩ : ∃ p r, r < 3 ∧ i = p * 3 + r :=
        ⟨i / 3, i % 3, Nat.mod_lt _ (by decide), by omega⟩
      obtain ⟨g0, g1, g2, _⟩ := h.1 p (Nat.zero_le _) (by omega)
      obtain ⟨q0, q1, q2, _⟩ := h2.1 p (Nat.zero_le _) (by omega)
      interval_cases r
      · rw [Nat.add_zero, q0, g2]
      · rw [q1, g1]
      · rw [q2, g0]
    · obtain ⟨p, r, hr, rfl⟩ : ∃ p r, r < 4 ∧ i = p * 4 + r :=
        ⟨i / 4, i % 4, Nat.mod_lt _ (by decide), by omega⟩
      obtain ⟨g0, g1, g2, g3⟩ := h.1 p (Nat.zero_le _) (by omega)
      obtain ⟨q0, q1, q2, q3⟩ := h2.1 p (Nat.zero_le _) (by omega)
      interval_cases r
      · rw [Nat.add_zero, q0, g2]
      · rw [q1, g1]
      · rw [q2, g0]
      · rw [q3 rfl, g3 rfl]
  · rw [h2.2 i (Or.inr (by omega)), h.2 i (Or.inr (by omega))]

/-- Run twice on a buffer of whole pixels, the swap loop gives the buffer back. -/
theorem swapLoop_twice (bpp k n : Nat) (hk : bpp / 8 = k) (hk34 : k = 3 ∨ k = 4)
    (hn : n * k + k ≤ U32) (dest : Mem) (hdef : ∀ i, i < n * k → ∃ v, dest i = some v) :
    ∃ d, swapLoop (n * k) bpp (n * k + 1) 0 dest = some d ∧
      swapLoop (n * k) bpp (n * k + 1) 0 d = some dest := by
  have hfuel : n + 1 ≤ n * k + 1 := by rcases hk34 with rfl | rfl <;> omega
  obtain ⟨d, hd, hs⟩ := swapLoop_spec bpp k n hk hk34 hn n 0 dest (n * k + 1) (by omega) hfuel
    (fun i _ h => hdef i h)
  have hdef2 : ∀ i, 0 * k ≤ i → i < n * k → ∃ v, d i = some v := by
    intro i _ hi
    obtain ⟨j, hjn, hj⟩ := SwappedFrom_source k n dest d hk34 hs i hi
    rw [hj]
    exact hdef j hjn
  obtain ⟨d2, hd2, hs2⟩ := swapLoop_spec bpp k n hk hk34 hn n 0 d (n * k + 1) (by omega) hfuel
    hdef2
  rw [Nat.zero_mul] at hd hd2
  refine ⟨d, hd, ?_⟩
  rw [hd2]
  congr 1
  funext i
  exact SwappedFrom_twice k n dest d d2 hk34 hs hs2 i

/-- C10. Round trip for the uncompressed variant: for every width >= 1,
height >= 1, bpp 24 or 32 with width*height*bpp < 2^32, and every RGB(A) pixel
buffer P of width*height*(bpp/8) bytes, decoding the stream made of header
pattern A, the little-endian descriptor and P with bytes 0 and 2 of every pixel
exchanged succeeds and returns exactly P; and the channel swap loop of
`LoadUncompressed`, run twice on any buffer of that size, gives the buffer
back. -/
theorem LoadFromData_roundtrip (width height bpp : Nat) (P stream : List Byte)
    (hw : 1 ≤ width) (hh : 1 ≤ height)
    (hb : bpp = 24 ∨ bpp = 32) (hov : width * height * bpp < 2 ^ 32)
    (hP : P.length = width * height * (bpp / 8))
    (henc : encodeUncompressed width height bpp P = some stream) :
    (∃ t, LoadFromData (some stream) = .built t ∧
      t.m_width = width ∧ t.m_height = height ∧ t.bpp = bpp ∧
      (List.range P.length).map t.raw = P.map some) ∧
    ∀ dest : Mem, (∀ i, i < P.length → ∃ v, dest i = some v) →
      ∃ d, swapLoop P.length bpp (P.length + 1) 0 dest = some d ∧
        swapLoop P.length bpp (P.length + 1) 0 d = some dest := by
  have hov2 : width * height * bpp < 4294967296 := by norm_num at hov; exact hov
  constructor
  · unfold encodeUncompressed at henc
    split at henc
    · rename_i hfit
      injection henc with henc
      subst henc
      obtain ⟨t, ht, h1, h2, h3, h4, _⟩ :=
        LoadFromData_uncompressedStream width height bpp P ⟨hw, by omega⟩ ⟨hh, by omega⟩ hb
          hov2 hP
      refine ⟨t, ht, h1, h2, h3, ?_⟩
      apply List.ext_getElem?
      intro i
      by_cases hi : i < P.length
      · rw [List.getElem?_map, List.getElem?_map, List.getElem?_range hi, Option.map_some',
          h4 i hi]
        simp [List.getElem?_eq_getElem hi]
      · rw [List.getElem?_map, List.getElem?_map, List.getElem?_eq_none (by simpa using hi),
          List.getElem?_eq_none (by simpa using hi)]
        rfl
    · exact Option.noConfusion henc
  · intro dest hdef
    have hU : U32 = 4294967296 := rfl
    have hk34 : bpp / 8 = 3 ∨ bpp / 8 = 4 := by rcases hb with h | h <;> subst h <;> simp
    have hn : width * height * (bpp / 8) + bpp / 8 ≤ U32 := by
      rcases hb with h | h <;> subst h <;> norm_num <;> omega
    rw [hP]
    exact swapLoop_twice bpp (bpp / 8) (width * height) rfl hk34 hn dest
      (fun i hi => hdef i (by rw [hP]; exact hi))

theorem LoadFromData_roundtrip_witness :
    ∃ t, LoadFromData (some [0, 0, 2, 0, 0, 0, 0, 0, 0, 0, 0, 0, 2, 0, 1, 0, 24, 0,
        0x10, 0x20, 0x30, 0x40, 0x50, 0x60]) = .built t ∧
      (List.range 6).map t.raw =
        [some 0x30, some 0x20, some 0x10, some 0x60, some 0x50, some 0x40] := by
  obtain ⟨⟨t, ht, _, _, _, h4⟩, _⟩ := LoadFromData_roundtrip 2 1 24
    [0x30, 0x20, 0x10, 0x60, 0x50, 0x40]
    [0, 0, 2, 0, 0, 0, 0, 0, 0, 0, 0, 0, 2, 0, 1, 0, 24, 0, 0x10, 0x20, 0x30, 0x40, 0x50, 0x60]
    (by decide) (by decide) (by decide) (by decide) (by decide) (by decide)
  exact ⟨t, ht, h4⟩

/-! ## One pixel of `LoadCompressed` -/

theorem readPixel_some (src : List Byte) (k : Nat) (s : RleState)
    (h : s.pos + k ≤ src.length) :
    readPixel src k s =
      some { s with pixel_buffer := memcpy s.pixel_buffer src s.pos k, pos := s.pos + k } := by
  rw [readPixel, if_neg (by omega)]

theorem writePixel_dest (k : Nat) (s : RleState) (b : Nat) (hk34 : k = 3 ∨ k = 4)
    (hb : s.byte = b) (hbk : b + k ≤ U32) (i : Nat) :
    (writePixel k s).dest i =
      if i = b then s.pixel_buffer 2 else if i = b + 1 then s.pixel_buffer 1
      else if i = b + 2 then s.pixel_buffer 0
      else if k = 4 ∧ i = b + 3 then s.pixel_buffer 3 else s.dest i := by
  have hU : U32 = 4294967296 := rfl
  have m0 : (s.byte + 0) % U32 = b := by rw [hb]; exact Nat.mod_eq_of_lt (by omega)
  have m1 : (s.byte + 1) % U32 = b + 1 := by rw [hb]; exact Nat.mod_eq_of_lt (by omega)
  have m2 : (s.byte + 2) % U32 = b + 2 := by rw [hb]; exact Nat.mod_eq_of_lt (by omega)
  rcases hk34 with rfl | rfl
  · simp only [writePixel, Mem.store, m0, m1, m2, show ¬ (3 = 4) by decide, if_false,
      false_and]
    by_cases h0 : i = b
    · subst h0
      rw [if_neg (by omega), if_neg (by omega), if_pos rfl, if_pos rfl]
    · by_cases h1 : i = b + 1
      · subst h1
        rw [if_neg (by omega), if_pos rfl, if_neg (by omega), if_pos rfl]
      · simp only [if_neg h0, if_neg h1]
  · have m3 : (s.byte + 3) % U32 = b + 3 := by rw [hb]; exact Nat.mod_eq_of_lt (by omega)
    simp only [writePixel, Mem.store, m0, m1, m2, m3, if_true, true_and]
    by_cases h0 : i = b
    · subst h0
      rw [if_neg (by omega), if_neg (by omega), if_neg (by omega), if_pos rfl, if_pos rfl]
    · by_cases h1 : i = b + 1
      · subst h1
        rw [if_neg (by omega), if_neg (by omega), if_pos rfl, if_neg (by omega), if_pos rfl]
      · by_cases h2 : i = b + 2
        · subst h2
          rw [if_neg (by omega), if_pos rfl, if_neg (by omega), if_neg (by omega), if_pos rfl]
        · simp only [if_neg h0, if_neg h1, if_neg h2]


theorem writePixel_fields (k : Nat) (s : RleState) :
    (writePixel k s).pixel = (s.pixel + 1) % U32 ∧ (writePixel k s).pos = s.pos ∧
    (writePixel k s).byte = (s.byte + k) % U32 ∧
    (writePixel k s).pixel_buffer = s.pixel_buffer := ⟨rfl, rfl, rfl, rfl⟩

/-! ## The two inner loops of `LoadCompressed` -/

/-- The raw packet loop when the source holds the `n` pixels and they fit
below the pixel total: it ends normally, and (when the byte cursor does not
wrap) each pixel is stored reordered at the byte cursor, nothing else
changing. -/
theorem rawLoop_next (src : List Byte) (k N : Nat) (hN : N < U32) :
    ∀ (n : Nat) (s : RleState), s.pos + n * k ≤ src.length → s.pixel + n ≤ N →
      ∃ s', rawLoop src k N n s = .next s' ∧ s'.pixel = s.pixel + n ∧
        s'.pos = s.pos + n * k ∧
        ∀ b, s.byte = b % U32 → s'.byte = (b + n * k) % U32 ∧
          ((k = 3 ∨ k = 4) → b + n * k ≤ U32 →
            (∀ i, i < n →
              PixelStored k s'.dest (b + i * k) (fun j => src[s.pos + i * k + j]?)) ∧
            ∀ j, j < b ∨ b + n * k ≤ j → s'.dest j = s.dest j) := by
  have hU : U32 = 4294967296 := rfl
  intro n
  induction n with
  | zero =>
    intro s _ _
    refine ⟨s, rfl, rfl, by rw [Nat.zero_mul]; rfl, ?_⟩
    intro b hb
    refine ⟨by rw [Nat.zero_mul]; exact hb, ?_⟩
    intro _ _
    exact ⟨fun i hi => absurd hi (Nat.not_lt_zero i), fun _ _ => rfl⟩
  | succ n ih =>
    intro s hpos hpix
    have hsucc : (n + 1) * k = n * k + k := Nat.succ_mul n k
    have hr := readPixel_some src k s (by omega)
    obtain ⟨f1, f2, f3, f4⟩ := writePixel_fields k
      { s with pixel_buffer := memcpy s.pixel_buffer src s.pos k, pos := s.pos + k }
    generalize hs2 : writePixel k
      { s with pixel_buffer := memcpy s.pixel_buffer src s.pos k, pos := s.pos + k } = s2
      at f1 f2 f3 f4
    simp only at f1 f2 f3 f4
    have f1' : s2.pixel = s.pixel + 1 := by rw [f1]; exact Nat.mod_eq_of_lt (by omega)
    obtain ⟨s', hrun, hp, hq, hbyte⟩ := ih s2 (by rw [f2]; omega) (by omega)
    refine ⟨s', ?_, by omega, by rw [hq, f2]; omega, ?_⟩
    · rw [rawLoop, hr]
      simp only [hs2]
      rw [if_neg (by omega)]
      exact hrun
    · intro b hb
      have hb2 : s2.byte = (b + k) % U32 := by rw [f3, hb]; exact Nat.mod_add_mod b U32 k
      obtain ⟨hby, hdata⟩ := hbyte (b + k) hb2
      refine ⟨by rw [hby]; congr 1; omega, ?_⟩
      intro hk34 hfit
      obtain ⟨hpx, hfr⟩ := hdata hk34 (by omega)
      have hbU : b % U32 = b := Nat.mod_eq_of_lt (by rcases hk34 with h | h <;> omega)
      have hw := writePixel_dest k
        { s with pixel_buffer := memcpy s.pixel_buffer src s.pos k, pos := s.pos + k } b hk34
        (by rw [← hbU]; exact hb) (by omega)
      rw [hs2] at hw
      simp only at hw
      constructor
      · intro i hi
        cases i with
        | zero =>
          rw [Nat.zero_mul, Nat.add_zero, Nat.add_zero]
          have e0 := hfr b (Or.inl (by rcases hk34 with h | h <;> omega))
          have e1 := hfr (b + 1) (Or.inl (by rcases hk34 with h | h <;> omega))
          have e2 := hfr (b + 2) (Or.inl (by rcases hk34 with h | h <;> omega))
          refine ⟨?_, ?_, ?_, ?_⟩
          · rw [e0, hw, if_pos rfl, memcpy_apply_lt _ _ _ _ _ (by rcases hk34 with h | h <;> omega)]
          · rw [e1, hw, if_neg (by omega), if_pos rfl,
              memcpy_apply_lt _ _ _ _ _ (by rcases hk34 with h | h <;> omega)]
          · rw [e2, hw, if_neg (by omega), if_neg (by omega), if_pos rfl,
              memcpy_apply_lt _ _ _ _ _ (by rcases hk34 with h | h <;> omega)]
          · intro h4
            have e3 := hfr (b + 3) (Or.inl (by omega))
            rw [e3, hw, if_neg (by omega), if_neg (by omega), if_neg (by omega),
              if_pos ⟨h4, rfl⟩, memcpy_apply_lt _ _ _ _ _ (by omega)]
        | succ i =>
          have hi' := hpx i (by omega)
          have hsi : (i + 1) * k = i * k + k := Nat.succ_mul i k
          have eb : b + (i + 1) * k = b + k + i * k := by omega
          have eq : ∀ j, s.pos + (i + 1) * k + j = s2.pos + i * k + j := by
            intro j; rw [f2]; omega
          rw [eb]
          simp only [eq]
          exact hi'
      · intro j hj
        rw [hfr j (by omega), hw, if_neg (by omega), if_neg (by omega), if_neg (by omega),
          if_neg (by rcases hk34 with h | h <;> omega)]


/-- The run packet loop when its `n` pixels fit below the pixel total: it ends
normally, and (when the byte cursor does not wrap) the pixel held in
`pixel_buffer` is stored reordered `n` times from the byte cursor on, nothing
else changing. -/
theorem runLoop_next (k N : Nat) (hN : N < U32) :
    ∀ (n : Nat) (s : RleState), s.pixel + n ≤ N →
      ∃ s', runLoop k N n s = .next s' ∧ s'.pixel = s.pixel + n ∧ s'.pos = s.pos ∧
        ∀ b, s.byte = b % U32 → s'.byte = (b + n * k) % U32 ∧
          ((k = 3 ∨ k = 4) → b + n * k ≤ U32 →
            (∀ i, i < n → PixelStored k s'.dest (b + i * k) s.pixel_buffer) ∧
            ∀ j, j < b ∨ b + n * k ≤ j → s'.dest j = s.dest j) := by
  have hU : U32 = 4294967296 := rfl
  intro n
  induction n with
  | zero =>
    intro s _
    refine ⟨s, rfl, rfl, rfl, ?_⟩
    intro b hb
    refine ⟨by rw [Nat.zero_mul]; exact hb, ?_⟩
    intro _ _
    exact ⟨fun i hi => absurd hi (Nat.not_lt_zero i), fun _ _ => rfl⟩
  | succ n ih =>
    intro s hpix
    have hsucc : (n + 1) * k = n * k + k := Nat.succ_mul n k
    obtain ⟨f1, f2, f3, f4⟩ := writePixel_fields k s
    have hwd := writePixel_dest k s
    generalize hs2 : writePixel k s = s2 at f1 f2 f3 f4 hwd
    have f1' : s2.pixel = s.pixel + 1 := by rw [f1]; exact Nat.mod_eq_of_lt (by omega)
    obtain ⟨s', hrun, hp, hq, hbyte⟩ := ih s2 (by omega)
    refine ⟨s', ?_, by omega, by rw [hq, f2], ?_⟩
    · rw [runLoop]
      simp only [hs2]
      rw [if_neg (by omega)]
      exact hrun
    · intro b hb
      have hb2 : s2.byte = (b + k) % U32 := by rw [f3, hb]; exact Nat.mod_add_mod b U32 k
      obtain ⟨hby, hdata⟩ := hbyte (b + k) hb2
      refine ⟨by rw [hby]; congr 1; omega, ?_⟩
      intro hk34 hfit
      obtain ⟨hpx, hfr⟩ := hdata hk34 (by omega)
      have hbU : b % U32 = b := Nat.mod_eq_of_lt (by rcases hk34 with h | h <;> omega)
      have hw := hwd b hk34 (by rw [← hbU]; exact hb) (by omega)
      constructor
      · intro i hi
        cases i with
        | zero =>
          rw [Nat.zero_mul, Nat.add_zero]
          have e0 := hfr b (Or.inl (by rcases hk34 with h | h <;> omega))
          have e1 := hfr (b + 1) (Or.inl (by rcases hk34 with h | h <;> omega))
          have e2 := hfr (b + 2) (Or.inl (by rcases hk34 with h | h <;> omega))
          refine ⟨?_, ?_, ?_, ?_⟩
          · rw [e0, hw, if_pos rfl]
          · rw [e1, hw, if_neg (by omega), if_pos rfl]
          · rw [e2, hw, if_neg (by omega), if_neg (by omega), if_pos rfl]
          · intro h4
            have e3 := hfr (b + 3) (Or.inl (by omega))
            rw [e3, hw, if_neg (by omega), if_neg (by omega), if_neg (by omega),
              if_pos ⟨h4, rfl⟩]
        | succ i =>
          have hi' := hpx i (by omega)
          have hsi : (i + 1) * k = i * k + k := Nat.succ_mul i k
          have eb : b + (i + 1) * k = b + k + i * k := by omega
          rw [eb, ← f4]
          exact hi'
      · intro j hj
        rw [hfr j (by omega), hw, if_neg (by omega), if_neg (by omega), if_neg (by omega),
          if_neg (by rcases hk34 with h | h <;> omega)]

theorem PixelStored_congr (k : Nat) (d : Mem) (b : Nat) (px px' : Nat → Option Byte)
    (hk34 : k = 3 ∨ k = 4) (h : ∀ j, j < k → px j = px' j) (hs : PixelStored k d b px) :
    PixelStored k d b px' := by
  obtain ⟨h0, h1, h2, h3⟩ := hs
  refine ⟨?_, ?_, ?_, ?_⟩
  · rw [h0, h 2 (by rcases hk34 with e | e <;> omega)]
  · rw [h1, h 1 (by rcases hk34 with e | e <;> omega)]
  · rw [h2, h 0 (by rcases hk34 with e | e <;> omega)]
  · intro h4
    rw [h3 h4, h 3 (by omega)]

/-- A raw packet that is wholly present and fits below the pixel total. -/
theorem packet_raw (src : List Byte) (k N : Nat) (hN : N < U32) (s : RleState) (c : Nat)
    (hc : at_ src s.pos = c) (hc128 : c < 128)
    (hsrc : s.pos + 1 + (c + 1) * k ≤ src.length) (hfit : s.pixel + (c + 1) ≤ N) :
    ∃ s', packet src k N s = .next s' ∧ s'.pixel = s.pixel + (c + 1) ∧
      s'.pos = s.pos + 1 + (c + 1) * k ∧
      ∀ b, s.byte = b % U32 → s'.byte = (b + (c + 1) * k) % U32 ∧
        ((k = 3 ∨ k = 4) → b + (c + 1) * k ≤ U32 →
          (∀ i, i < c + 1 →
            PixelStored k s'.dest (b + i * k) (fun j => src[s.pos + 1 + i * k + j]?)) ∧
          ∀ j, j < b ∨ b + (c + 1) * k ≤ j → s'.dest j = s.dest j) := by
  obtain ⟨s', h1, h2, h3, h4⟩ := rawLoop_next src k N hN (c + 1) { s with pos := s.pos + 1 }
    hsrc hfit
  refine ⟨s', ?_, h2, h3, h4⟩
  rw [packet, if_neg (by omega)]
  simp only [hc, if_pos hc128]
  rw [Nat.mod_eq_of_lt (by omega)]
  exact h1

/-- A run packet that is wholly present and fits below the pixel total. -/
theorem packet_run (src : List Byte) (k N : Nat) (hN : N < U32) (s : RleState) (c : Nat)
    (hc : at_ src s.pos = c) (hc128 : 128 ≤ c)
    (hsrc : s.pos + 1 + k ≤ src.length) (hfit : s.pixel + (c - 127) ≤ N) :
    ∃ s', packet src k N s = .next s' ∧ s'.pixel = s.pixel + (c - 127) ∧
      s'.pos = s.pos + 1 + k ∧
      ∀ b, s.byte = b % U32 → s'.byte = (b + (c - 127) * k) % U32 ∧
        ((k = 3 ∨ k = 4) → b + (c - 127) * k ≤ U32 →
          (∀ i, i < c - 127 →
            PixelStored k s'.dest (b + i * k) (fun j => src[s.pos + 1 + j]?)) ∧
          ∀ j, j < b ∨ b + (c - 127) * k ≤ j → s'.dest j = s.dest j) := by
  have hc256 : c < 256 := by rw [← hc]; exact at__lt _ _
  have hr := readPixel_some src k { s with pos := s.pos + 1 } hsrc
  obtain ⟨s', h1, h2, h3, h4⟩ := runLoop_next k N hN (c - 127)
    { s with pos := s.pos + 1 + k,
             pixel_buffer := memcpy s.pixel_buffer src (s.pos + 1) k } hfit
  refine ⟨s', ?_, h2, h3, ?_⟩
  · rw [packet, if_neg (by omega)]
    simp only [hc, if_neg (show ¬ c < 128 by omega)]
    rw [Nat.mod_eq_of_lt (by omega), hr]
    exact h1
  · intro b hb
    obtain ⟨g1, g2⟩ := h4 b hb
    refine ⟨g1, ?_⟩
    intro hk34 hfit2
    obtain ⟨g3, g4⟩ := g2 hk34 hfit2
    refine ⟨?_, g4⟩
    intro i hi
    exact PixelStored_congr k _ _ _ _ hk34
      (fun j hj => memcpy_apply_lt _ _ _ _ _ hj) (g3 i hi)


theorem pixelCount_eq (width height : Nat) (hw : width ≤ 65535) (hh : height ≤ 65535) :
    height * width % U32 = width * height ∧ width * height + 1 < U32 := by
  have hU : U32 = 4294967296 := rfl
  have h : width * height ≤ 65535 * 65535 := Nat.mul_le_mul hw hh
  rw [Nat.mul_comm height width]
  exact ⟨Nat.mod_eq_of_lt (by omega), by omega⟩

/-- C3, amended. Raw packet step of `LoadCompressed`: for every decoder state
with pixel cursor p (and byte cursor p * bytesPerPixel) and a control byte c in
[0,127] with p + c + 1 <= width*height, provided the byte cursor does not wrap
inside the packet, that is (p + c + 1) * bytesPerPixel <= 2^32, processing the
packet writes output pixels p .. p+c equal to the c+1 source pixels after the
control byte, each reordered as bytes [2,1,0] (byte 3 unchanged when pixels are
4 bytes), leaves the output below pixel p unchanged, advances the pixel cursor
to p+c+1 and the source position by 1 + (c+1)*bytesPerPixel. -/
theorem packet_raw_step (src : List Byte) (width height bpp k : Nat) (s : RleState) (c : Nat)
    (hb : bpp = 24 ∨ bpp = 32) (hk : k = bpp / 8)
    (hw : width ≤ 65535) (hh : height ≤ 65535)
    (hbyte : s.byte = s.pixel * k)
    (hc : at_ src s.pos = c) (hc128 : c < 128)
    (hsrc : s.pos + 1 + (c + 1) * k ≤ src.length)
    (hfit : s.pixel + c + 1 ≤ width * height)
    (hnowrap : (s.pixel + c + 1) * k ≤ 2 ^ 32) :
    ∃ s', packet src k (height * width % U32) s = .next s' ∧ RawPacketStep src k s s' c := by
  have hU : U32 = 4294967296 := rfl
  have hk34 : k = 3 ∨ k = 4 := by rcases hb with h | h <;> subst h <;> simp [hk]
  obtain ⟨hN, hN1⟩ := pixelCount_eq width height hw hh
  have hmul : (s.pixel + c + 1) * k = s.pixel * k + (c + 1) * k := by
    rw [Nat.add_assoc, Nat.add_mul]
  norm_num at hnowrap
  obtain ⟨s', h1, h2, h3, h4⟩ := packet_raw src k (height * width % U32) (Nat.mod_lt _ (by decide)) s c hc hc128
    hsrc (by omega)
  have hbm : s.byte = (s.pixel * k) % U32 := by
    rw [hbyte]
    exact (Nat.mod_eq_of_lt (by rcases hk34 with rfl | rfl <;> omega)).symm
  obtain ⟨g1, g2⟩ := (h4 (s.pixel * k) hbm).2 hk34 (by omega)
  refine ⟨s', h1, ?_, ?_, by omega, by omega⟩
  · intro i hi
    rw [Nat.add_mul]
    exact g1 i (by omega)
  · intro j hj
    exact g2 j (Or.inl hj)

theorem packet_raw_step_witness :
    ∃ s', packet [0, 0x10, 0x20, 0x30] 3 (1 * 1 % U32) (rleStart 0 Mem.fresh) = .next s' ∧
      s'.pixel = 1 ∧ s'.pos = 4 ∧
      (List.range 4).map s'.dest = [some 0x30, some 0x20, some 0x10, none] := by
  obtain ⟨s', h, h1, _, h3, h4⟩ := packet_raw_step [0, 0x10, 0x20, 0x30] 1 1 24 3
    (rleStart 0 Mem.fresh) 0 (Or.inl rfl) rfl (by decide) (by decide) rfl rfl (by decide)
    (by decide) (by decide) (by decide)
  refine ⟨s', h, h3, h4, ?_⟩
  have e : (endState (packet [0, 0x10, 0x20, 0x30] 3 (1 * 1 % U32) (rleStart 0 Mem.fresh))).map
      (fun t => (List.range 4).map t.dest) = some [some 0x30, some 0x20, some 0x10, none] := by
    decide
  rw [h] at e
  exact Option.some.inj e

/-- C3 fails as stated: in a 65535 x 65535 image at 32 bits per pixel, at
pixel cursor 2^30 - 1 the byte cursor is 2^32 - 4; a raw packet of two pixels
stores its second pixel at byte offset 0 (the byte cursor has wrapped), so the
output below the pixel cursor changes and output pixel 2^30 is not written. -/
theorem packet_raw_step_wraps :
    ((32 = 24 ∨ 32 = 32) ∧ 4 = 32 / 8 ∧ 65535 ≤ 65535 ∧
      nearWrapState.byte = nearWrapState.pixel * 4 ∧
      at_ twoPixelRawPacket nearWrapState.pos = 1 ∧ 1 < 128 ∧
      nearWrapState.pos + 1 + (1 + 1) * 4 ≤ twoPixelRawPacket.length ∧
      nearWrapState.pixel + 1 + 1 ≤ 65535 * 65535) ∧
    ¬ ∃ s', packet twoPixelRawPacket 4 (65535 * 65535 % U32) nearWrapState = .next s' ∧
      RawPacketStep twoPixelRawPacket 4 nearWrapState s' 1 := by
  refine ⟨by decide, ?_⟩
  rintro ⟨s', h, _, hfr, _, _⟩
  have e : (endState (packet twoPixelRawPacket 4 (65535 * 65535 % U32) nearWrapState)).map
      (fun t => t.dest 0) = some (some 7) := by decide
  rw [h] at e
  have e2 : s'.dest 0 = some 7 := Option.some.inj e
  have e3 : s'.dest 0 = none := hfr 0 (by decide)
  rw [e2] at e3
  exact Option.noConfusion e3


/-- C4, amended. Run packet step of `LoadCompressed`: for every decoder state
with pixel cursor p (and byte cursor p * bytesPerPixel) and a control byte c in
[128,255] with p + (c-127) <= width*height, provided the byte cursor does not
wrap inside the packet, that is (p + (c-127)) * bytesPerPixel <= 2^32,
processing the packet reads one source pixel after the control byte and writes
c-127 copies of it, reordered as bytes [2,1,0] (byte 3 unchanged when pixels
are 4 bytes), at output pixels p .. p+c-128, leaves the output below pixel p
unchanged, advances the pixel cursor by c-127 and the source position by
1 + bytesPerPixel. -/
theorem packet_run_step (src : List Byte) (width height bpp k : Nat) (s : RleState) (c : Nat)
    (hb : bpp = 24 ∨ bpp = 32) (hk : k = bpp / 8)
    (hw : width ≤ 65535) (hh : height ≤ 65535)
    (hbyte : s.byte = s.pixel * k)
    (hc : at_ src s.pos = c) (hc128 : 128 ≤ c ∧ c ≤ 255)
    (hsrc : s.pos + 1 + k ≤ src.length)
    (hfit : s.pixel + (c - 127) ≤ width * height)
    (hnowrap : (s.pixel + (c - 127)) * k ≤ 2 ^ 32) :
    ∃ s', packet src k (height * width % U32) s = .next s' ∧ RunPacketStep src k s s' c := by
  have hU : U32 = 4294967296 := rfl
  have hk34 : k = 3 ∨ k = 4 := by rcases hb with h | h <;> subst h <;> simp [hk]
  obtain ⟨hN, hN1⟩ := pixelCount_eq width height hw hh
  have hmul : (s.pixel + (c - 127)) * k = s.pixel * k + (c - 127) * k := Nat.add_mul _ _ _
  norm_num at hnowrap
  obtain ⟨s', h1, h2, h3, h4⟩ := packet_run src k (height * width % U32)
    (Nat.mod_lt _ (by decide)) s c hc hc128.1 hsrc (by omega)
  have hbm : s.byte = (s.pixel * k) % U32 := by
    rw [hbyte]
    exact (Nat.mod_eq_of_lt (by rcases hk34 with rfl | rfl <;> omega)).symm
  obtain ⟨g1, g2⟩ := (h4 (s.pixel * k) hbm).2 hk34 (by omega)
  refine ⟨s', h1, ?_, ?_, by omega, by omega⟩
  · intro i hi
    rw [Nat.add_mul]
    exact g1 i hi
  · intro j hj
    exact g2 j (Or.inl hj)

theorem packet_run_step_witness :
    ∃ s', packet [128, 0x10, 0x20, 0x30] 3 (1 * 1 % U32) (rleStart 0 Mem.fresh) = .next s' ∧
      s'.pixel = 1 ∧ s'.pos = 4 ∧
      (List.range 4).map s'.dest = [some 0x30, some 0x20, some 0x10, none] := by
  obtain ⟨s', h, h1, _, h3, h4⟩ := packet_run_step [128, 0x10, 0x20, 0x30] 1 1 24 3
    (rleStart 0 Mem.fresh) 128 (Or.inl rfl) rfl (by decide) (by decide) rfl rfl (by decide)
    (by decide) (by decide) (by decide)
  refine ⟨s', h, h3, h4, ?_⟩
  have e : (endState (packet [128, 0x10, 0x20, 0x30] 3 (1 * 1 % U32)
      (rleStart 0 Mem.fresh))).map
      (fun t => (List.range 4).map t.dest) = some [some 0x30, some 0x20, some 0x10, none] := by
    decide
  rw [h] at e
  exact Option.some.inj e

/-- C4 fails as stated: in a 65535 x 65535 image at 32 bits per pixel, at
pixel cursor 2^30 - 1 the byte cursor is 2^32 - 4; a run packet of two copies
stores its second copy at byte offset 0 (the byte cursor has wrapped), so the
output below the pixel cursor changes and output pixel 2^30 is not written. -/
theorem packet_run_step_wraps :
    ((32 = 24 ∨ 32 = 32) ∧ 4 = 32 / 8 ∧ 65535 ≤ 65535 ∧
      nearWrapState.byte = nearWrapState.pixel * 4 ∧
      at_ twoPixelRunPacket nearWrapState.pos = 129 ∧ (128 ≤ 129 ∧ 129 ≤ 255) ∧
      nearWrapState.pos + 1 + 4 ≤ twoPixelRunPacket.length ∧
      nearWrapState.pixel + (129 - 127) ≤ 65535 * 65535) ∧
    ¬ ∃ s', packet twoPixelRunPacket 4 (65535 * 65535 % U32) nearWrapState = .next s' ∧
      RunPacketStep twoPixelRunPacket 4 nearWrapState s' 129 := by
  refine ⟨by decide, ?_⟩
  rintro ⟨s', h, _, hfr, _, _⟩
  have e : (endState (packet twoPixelRunPacket 4 (65535 * 65535 % U32) nearWrapState)).map
      (fun t => t.dest 0) = some (some 3) := by decide
  rw [h] at e
  have e2 : s'.dest 0 = some 3 := Option.some.inj e
  have e3 : s'.dest 0 = none := hfr 0 (by decide)
  rw [e2] at e3
  exact Option.noConfusion e3


/-! ## The packet loop of `LoadCompressed` -/

theorem Packet.count_pos (q : Packet) : 1 ≤ q.count := by
  unfold Packet.count
  split <;> omega

theorem drop_packet (src : List Byte) (pos : Nat) (q : Packet) (tail : List Byte)
    (h : src.drop pos = q.bytes ++ tail) :
    at_ src pos = q.ctrl.val ∧ pos + 1 + q.payload.length ≤ src.length ∧
      src.drop (pos + 1 + q.payload.length) = tail := by
  have hlen : src.length - pos = 1 + q.payload.length + tail.length := by
    have := congrArg List.length h
    simp only [List.length_drop, Packet.bytes, List.length_append, List.length_cons] at this
    omega
  refine ⟨?_, by omega, ?_⟩
  · have h0 : src[pos]? = some q.ctrl := by
      have := congrArg (fun l => l[0]?) h
      simpa [Packet.bytes] using this
    simp [at_, List.getD_eq_getElem?_getD, h0]
  · have e : pos + 1 + q.payload.length = pos + (1 + q.payload.length) := by omega
    rw [e, ← List.drop_drop, h, Nat.add_comm 1]
    simp [Packet.bytes]

theorem encodePackets_length_ge (qs : List Packet) : qs.length ≤ (encodePackets qs).length := by
  induction qs with
  | nil => exact Nat.le_refl _
  | cons q qs ih =>
    simp only [encodePackets, Packet.bytes, List.length_cons, List.length_append]
    omega

theorem totalCount_append (qs : List Packet) (q : Packet) :
    totalCount (qs ++ [q]) = totalCount qs + q.count := by
  induction qs with
  | nil => simp [totalCount]
  | cons p qs ih => simp [totalCount, ih]; omega

/-- A whole packet that fits below the pixel total, read off the source. -/
theorem packet_whole (src : List Byte) (k N : Nat) (hN : N < U32) (s : RleState)
    (q : Packet) (tail : List Byte) (hq : q.Whole k)
    (hsrc : src.drop s.pos = q.bytes ++ tail) (hfit : s.pixel + q.count ≤ N) :
    ∃ s', packet src k N s = .next s' ∧ s'.pixel = s.pixel + q.count ∧
      s'.pos = s.pos + q.bytes.length ∧ src.drop s'.pos = tail := by
  obtain ⟨hc, hlen, hdrop⟩ := drop_packet src s.pos q tail hsrc
  unfold Packet.Whole at hq
  unfold Packet.count at hfit ⊢
  have hbl : q.bytes.length = 1 + q.payload.length := by simp [Packet.bytes]; omega
  by_cases h128 : q.ctrl.val < 128
  · rw [if_pos h128] at hq hfit ⊢
    obtain ⟨s', h1, h2, h3, _⟩ := packet_raw src k N hN s q.ctrl.val hc h128 (by omega) hfit
    refine ⟨s', h1, h2, by omega, ?_⟩
    rw [h3, ← hq]
    exact hdrop
  · rw [if_neg h128] at hq hfit ⊢
    obtain ⟨s', h1, h2, h3, _⟩ := packet_run src k N hN s q.ctrl.val hc (by omega) (by omega)
      hfit
    refine ⟨s', h1, h2, by omega, ?_⟩
    rw [h3, ← hq]
    exact hdrop

/-- The packet loop on whole packets whose counts add up to what is left of
the pixel total: it ends normally with the pixel cursor at the total, having
read exactly those packets. -/
theorem rleLoop_exact (src : List Byte) (k N : Nat) (hN : N < U32) :
    ∀ (qs : List Packet) (rest : List Byte) (s : RleState) (fuel : Nat),
      (∀ q ∈ qs, q.Whole k) → src.drop s.pos = encodePackets qs ++ rest →
      s.pixel + totalCount qs = N → qs.length + 1 ≤ fuel →
      ∃ s', rleLoop src k N fuel s = .next s' ∧ s'.pixel = N ∧
        s'.pos = s.pos + (encodePackets qs).length := by
  intro qs
  induction qs with
  | nil =>
    intro rest s fuel _ _ htot hfuel
    obtain ⟨f, rfl⟩ : ∃ f, fuel = f + 1 := ⟨fuel - 1, by omega⟩
    simp only [totalCount, Nat.add_zero] at htot
    refine ⟨s, ?_, htot, rfl⟩
    rw [rleLoop, if_neg (by omega)]
  | cons q qs ih =>
    intro rest s fuel hwhole hsrc htot hfuel
    obtain ⟨f, rfl⟩ : ∃ f, fuel = f + 1 := ⟨fuel - 1, by omega⟩
    simp only [totalCount] at htot
    simp only [List.length_cons] at hfuel
    have hpos := q.count_pos
    rw [encodePackets, List.append_assoc] at hsrc
    obtain ⟨s1, h1, h2, h3, h4⟩ := packet_whole src k N hN s q (encodePackets qs ++ rest)
      (hwhole q (List.mem_cons_self _ _)) hsrc (by omega)
    obtain ⟨s', g1, g2, g3⟩ := ih rest s1 f
      (fun p hp => hwhole p (List.mem_cons_of_mem _ hp)) h4 (by omega) (by omega)
    refine ⟨s', ?_, g2, ?_⟩
    · rw [rleLoop, if_pos (by omega), h1]
      exact g1
    · rw [g3, h3, encodePackets, List.length_append]
      omega

theorem LoadCompressed_of_next (src : List Byte) (pos : Nat) (dest : Mem)
    (width height bpp : Nat) (s : RleState)
    (h : rleLoop src (bpp / 8) (height * width % U32) (src.length + 1) (rleStart pos dest)
      = .next s) :
    LoadCompressed src pos dest width height bpp = BuildFromParameters s.dest width height bpp := by
  unfold LoadCompressed
  simp only [h]

theorem LoadCompressed_of_threw (src : List Byte) (pos : Nat) (dest : Mem)
    (width height bpp : Nat) (e : PianoGameError) (s : RleState)
    (h : rleLoop src (bpp / 8) (height * width % U32) (src.length + 1) (rleStart pos dest)
      = .threw e s) :
    LoadCompressed src pos dest width height bpp = .threw e := by
  unfold LoadCompressed
  simp only [h]

theorem swapLoop_isSome (size bpp : Nat) (hk : 1 ≤ bpp / 8) (hsize : size + bpp / 8 ≤ U32) :
    ∀ (fuel cswap : Nat) (dest : Mem), 1 ≤ fuel → size + 1 ≤ cswap + fuel →
      swapLoop size bpp fuel cswap dest ≠ none := by
  intro fuel
  induction fuel with
  | zero => intro _ _ h; omega
  | succ f ih =>
    intro cswap dest _ hb
    rw [swapLoop]
    by_cases hc : cswap < size
    · rw [if_pos hc, Nat.mod_eq_of_lt (by omega)]
      exact ih _ _ (by omega) (by omega)
    · rw [if_neg hc]
      exact Option.some_ne_none _

theorem rawLoop_pos (src : List Byte) (k N : Nat) :
    ∀ (n : Nat) (s : RleState),
      rawLoop src k N n s ≠ .outOfFuel ∧
      ∀ s', rawLoop src k N n s = .next s' → s.pos ≤ s'.pos := by
  intro n
  induction n with
  | zero =>
    intro s
    refine ⟨by simp [rawLoop], ?_⟩
    intro s' h
    simp only [rawLoop] at h
    injection h with h
    rw [h]
  | succ n ih =>
    intro s
    rw [rawLoop]
    by_cases hr : src.length < s.pos + k
    · simp [readPixel, hr]
    · rw [readPixel, if_neg hr]
      simp only
      split
      · simp
      · obtain ⟨h1, h2⟩ := ih (writePixel k
          { s with pixel_buffer := memcpy s.pixel_buffer src s.pos k, pos := s.pos + k })
        refine ⟨h1, ?_⟩
        intro s' h
        have := h2 s' h
        have e := (writePixel_fields k
          { s with pixel_buffer := memcpy s.pixel_buffer src s.pos k, pos := s.pos + k }).2.1
        simp only at e
        omega

theorem runLoop_pos (k N : Nat) :
    ∀ (n : Nat) (s : RleState),
      runLoop k N n s ≠ .outOfFuel ∧
      ∀ s', runLoop k N n s = .next s' → s.pos ≤ s'.pos := by
  intro n
  induction n with
  | zero =>
    intro s
    refine ⟨by simp [runLoop], ?_⟩
    intro s' h
    simp only [runLoop] at h
    injection h with h
    rw [h]
  | succ n ih =>
    intro s
    rw [runLoop]
    split
    · simp
    · obtain ⟨h1, h2⟩ := ih (writePixel k s)
      refine ⟨h1, ?_⟩
      intro s' h
      have := h2 s' h
      have e := (writePixel_fields k s).2.1
      omega

/-- A packet consumes at least its control byte. -/
theorem packet_pos (src : List Byte) (k N : Nat) (s : RleState) :
    packet src k N s ≠ .outOfFuel ∧
    ∀ s', packet src k N s = .next s' → s.pos + 1 ≤ s'.pos ∧ s.pos + 1 ≤ src.length := by
  rw [packet]
  by_cases h1 : src.length < s.pos + 1
  · simp [h1]
  · rw [if_neg h1]
    simp only
    split
    · obtain ⟨g1, g2⟩ := rawLoop_pos src k N ((at_ src s.pos + 1) % 256)
        { s with pos := s.pos + 1 }
      refine ⟨g1, ?_⟩
      intro s' h
      have := g2 s' h
      simp only at this
      omega
    · by_cases hr : src.length < s.pos + 1 + k
      · simp [readPixel, hr]
      · rw [readPixel, if_neg hr]
        simp only
        obtain ⟨g1, g2⟩ := runLoop_pos k N ((at_ src s.pos - 127) % 256)
          { s with pixel_buffer := memcpy s.pixel_buffer src (s.pos + 1) k,
                   pos := s.pos + 1 + k }
        refine ⟨g1, ?_⟩
        intro s' h
        have := g2 s' h
        simp only at this
        omega

theorem rleLoop_ne_outOfFuel (src : List Byte) (k N : Nat) :
    ∀ (fuel : Nat) (s : RleState), src.length - s.pos + 1 ≤ fuel →
      rleLoop src k N fuel s ≠ .outOfFuel := by
  intro fuel
  induction fuel with
  | zero => intro _ h; omega
  | succ f ih =>
    intro s hf
    rw [rleLoop]
    by_cases hp : s.pixel < N
    · rw [if_pos hp]
      obtain ⟨g1, g2⟩ := packet_pos src k N s
      cases hq : packet src k N s with
      | next s1 =>
        have := g2 s1 hq
        exact ih s1 (by omega)
      | threw e s1 => simp
      | outOfBounds => simp
      | outOfFuel => exact absurd hq g1
    · rw [if_neg hp]
      simp

/-- The function `LoadCompressed` never uses up its iteration bound. -/
theorem LoadCompressed_ne_outOfFuel (src : List Byte) (pos : Nat) (dest : Mem)
    (width height bpp : Nat) :
    LoadCompressed src pos dest width height bpp ≠ .outOfFuel := by
  have h := rleLoop_ne_outOfFuel src (bpp / 8) (height * width % U32) (src.length + 1)
    (rleStart pos dest) (by show src.length - pos + 1 ≤ _; omega)
  unfold LoadCompressed
  simp only
  split
  · simp [BuildFromParameters]
  · simp
  · simp
  · rename_i hq
    exact absurd hq h

/-- The function `LoadFromData` never uses up an iteration bound: each of its
outcomes is an outcome of the C++ code. -/
theorem LoadFromData_ne_outOfFuel (bytes : Option (List Byte)) :
    LoadFromData bytes ≠ .outOfFuel := by
  have hU : U32 = 4294967296 := rfl
  cases bytes with
  | none => simp [LoadFromData]
  | some bytes =>
    rw [LoadFromData_some]
    split
    · simp
    split
    · simp
    split
    · simp
    split
    · simp
    split
    · simp
    rename_i hb
    split
    · exact LoadCompressed_ne_outOfFuel _ _ _ _ _ _
    · have hbpp : at_ bytes 16 = 24 ∨ at_ bytes 16 = 32 := by omega
      generalize at_ bytes 13 * 256 + at_ bytes 12 = w
      generalize at_ bytes 15 * 256 + at_ bytes 14 = h
      generalize at_ bytes 16 = bpp at hbpp
      have hds : data_size w h bpp < 536870912 := by
        unfold data_size
        have := Nat.mod_lt (w * h % U32 * bpp) (show 0 < U32 by decide)
        omega
      rw [LoadUncompressed]
      split
      · simp
      · have := swapLoop_isSome (data_size w h bpp) bpp
          (by rcases hbpp with e | e <;> subst e <;> decide)
          (by rcases hbpp with e | e <;> subst e <;> norm_num <;> omega)
          (data_size w h bpp + 1) 0 (memcpy Mem.fresh bytes 18 (data_size w h bpp))
          (by omega) (by omega)
        simp only
        split
        · rename_i hq
          exact absurd hq this
        · simp [BuildFromParameters]
    · simp


/-! ## The XOR idiom and the pixel total -/

theorem add_two_mod_ne (i : Nat) : (i + 2) % U32 ≠ i := by
  have hU : U32 = 4294967296 := rfl
  intro h
  have hlt : i < U32 := by rw [← h]; exact Nat.mod_lt _ (by decide)
  by_cases h2 : i + 2 < U32
  · rw [Nat.mod_eq_of_lt h2] at h; omega
  · have : (i + 2) % U32 = i + 2 - U32 := by
      rw [Nat.mod_eq_sub_mod (by omega), Nat.mod_eq_of_lt (by omega)]
    omega

/-- C19. The chained XOR statement of `LoadUncompressed`, evaluated right to
left, is a swap: for every pair of byte values a, b (a = b included) stored at
the indices i and i+2 (the latter as the `unsigned int` expression computes
it, always distinct from i), it leaves dest[i] = b and dest[i+2] = a and
changes no other byte; it equals the swap through a temporary variable. -/
theorem xorSwap_eq_tempSwap (dest : Mem) (i j : Nat) (a b : Byte)
    (hj : j = (i + 2) % U32) (ha : dest i = some a) (hb : dest j = some b) :
    i ≠ j ∧ xorSwap dest i i = some b ∧ xorSwap dest i j = some a ∧
    (∀ l, l ≠ i → l ≠ j → xorSwap dest i l = dest l) ∧
    xorSwap dest i = tempSwap dest i := by
  have hne : j ≠ i := by rw [hj]; exact add_two_mod_ne i
  have hne2 : i ≠ j := fun h => hne h.symm
  have key : ∀ l, xorSwap dest i l =
      if l = i then some b else if l = j then some a else dest l := by
    intro l
    subst hj
    simp only [xorSwap, Mem.store, if_neg hne, if_neg hne2, ha, hb, if_true]
    by_cases h1 : l = i
    · simp only [h1, if_true]
      rw [xorCell_cancel_left]
      exact xorCell_cancel_right a b
    · simp only [if_neg h1]
      by_cases h2 : l = (i + 2) % U32
      · simp only [h2, if_true]
        exact xorCell_cancel_left a b
      · simp only [if_neg h2]
  refine ⟨hne2, ?_, ?_, ?_, ?_⟩
  · rw [key, if_pos rfl]
  · rw [key, if_neg hne, if_pos rfl]
  · intro l h1 h2
    rw [key, if_neg h1, if_neg h2]
  · funext l
    rw [key]
    subst hj
    simp only [tempSwap, Mem.store, ha, hb]
    by_cases h1 : l = i
    · subst h1
      rw [if_pos rfl, if_neg hne2, if_pos rfl]
    · by_cases h2 : l = (i + 2) % U32
      · rw [if_neg h1, if_pos h2, if_pos h2]
      · rw [if_neg h1, if_neg h2, if_neg h2, if_neg h1]

theorem xorSwap_eq_tempSwap_witness :
    xorSwap (memcpy Mem.fresh [7, 8, 7] 0 3) 0 0 = some 7 ∧
    xorSwap (memcpy Mem.fresh [5, 8, 9] 0 3) 0 = tempSwap (memcpy Mem.fresh [5, 8, 9] 0 3) 0 :=
  ⟨(xorSwap_eq_tempSwap (memcpy Mem.fresh [7, 8, 7] 0 3) 0 2 7 7 (by decide) (by decide)
      (by decide)).2.1,
   (xorSwap_eq_tempSwap (memcpy Mem.fresh [5, 8, 9] 0 3) 0 2 5 9 (by decide) (by decide)
      (by decide)).2.2.2.2⟩

/-- C18. The RLE pixel total never wraps: for every header, the width and the
height `LoadFromData` extracts (bytes 12..15, two bytes each) are below 65536,
so the product `height * width` is at most 65535^2 < 2^32 and the
`unsigned int` computation of `PixelCount` in `LoadCompressed` gives the
mathematical product: `LoadCompressed` called with these values, by
`LoadFromData` on an RLE input or otherwise, is the packet loop run with the
bound `height * width` itself. -/
theorem pixelCount_no_wrap (bytes : List Byte) (width height bpp : Nat)
    (hwv : width = at_ bytes 12 + 256 * at_ bytes 13)
    (hhv : height = at_ bytes 14 + 256 * at_ bytes 15)
    (hbv : bpp = at_ bytes 16) :
    width < 65536 ∧ height < 65536 ∧
    height * width ≤ 65535 * 65535 ∧ 65535 * 65535 < 2 ^ 32 ∧
    height * width % U32 = height * width ∧
    (∀ (src : List Byte) (pos : Nat) (dest : Mem) (b : Nat),
      LoadCompressed src pos dest width height b =
        match rleLoop src (b / 8) (height * width) (src.length + 1) (rleStart pos dest) with
        | .next s => BuildFromParameters s.dest width height b
        | .threw e _ => .threw e
        | .outOfBounds => .outOfBounds
        | .outOfFuel => .outOfFuel) ∧
    (bytes.take 12 = CompressedTgaHeader → 17 ≤ bytes.length →
      1 ≤ width → 1 ≤ height → bpp = 24 ∨ bpp = 32 →
      LoadFromData (some bytes) =
        match rleLoop bytes (bpp / 8) (height * width) (bytes.length + 1)
            (rleStart 18 Mem.fresh) with
        | .next s => BuildFromParameters s.dest width height bpp
        | .threw e _ => .threw e
        | .outOfBounds => .outOfBounds
        | .outOfFuel => .outOfFuel) := by
  have b12 := at__lt bytes 12
  have b13 := at__lt bytes 13
  have b14 := at__lt bytes 14
  have b15 := at__lt bytes 15
  have hw : width ≤ 65535 := by omega
  have hh : height ≤ 65535 := by omega
  have hp : height * width % U32 = height * width := by
    rw [(pixelCount_eq _ _ hw hh).1, Nat.mul_comm]
  have hle := Nat.mul_le_mul hh hw
  have hL : ∀ (src : List Byte) (pos : Nat) (dest : Mem) (b : Nat),
      LoadCompressed src pos dest width height b =
        match rleLoop src (b / 8) (height * width) (src.length + 1) (rleStart pos dest) with
        | .next s => BuildFromParameters s.dest width height b
        | .threw e _ => .threw e
        | .outOfBounds => .outOfBounds
        | .outOfFuel => .outOfFuel := by
    intro src pos dest b
    rw [LoadCompressed]
    simp only [hp]
  refine ⟨by omega, by omega, hle, by norm_num, hp, hL, ?_⟩
  intro hdr h17 hw1 hh1 hb
  have hd := (LoadFromData_dispatch bytes h17 (by omega) (by omega) (by omega)).2 hdr
  rw [show at_ bytes 13 * 256 + at_ bytes 12 = width by omega,
    show at_ bytes 15 * 256 + at_ bytes 14 = height by omega, ← hbv] at hd
  rw [hd]
  exact hL bytes 18 Mem.fresh bpp

theorem pixelCount_no_wrap_witness :
    1 * 2 % U32 = 1 * 2 ∧
    LoadFromData (some [0, 0, 10, 0, 0, 0, 0, 0, 0, 0, 0, 0, 2, 0, 1, 0, 24, 0,
        129, 0x10, 0x20, 0x30]) =
      match rleLoop [0, 0, 10, 0, 0, 0, 0, 0, 0, 0, 0, 0, 2, 0, 1, 0, 24, 0,
          129, 0x10, 0x20, 0x30] (24 / 8) (1 * 2) (22 + 1) (rleStart 18 Mem.fresh) with
      | .next s => BuildFromParameters s.dest 2 1 24
      | .threw e _ => .threw e
      | .outOfBounds => .outOfBounds
      | .outOfFuel => .outOfFuel :=
  ⟨(pixelCount_no_wrap [0, 0, 10, 0, 0, 0, 0, 0, 0, 0, 0, 0, 2, 0, 1, 0, 24, 0,
      129, 0x10, 0x20, 0x30] 2 1 24 (by decide) (by decide) (by decide)).2.2.2.2.1,
   (pixelCount_no_wrap [0, 0, 10, 0, 0, 0, 0, 0, 0, 0, 0, 0, 2, 0, 1, 0, 24, 0,
      129, 0x10, 0x20, 0x30] 2 1 24 (by decide) (by decide) (by decide)).2.2.2.2.2.2
      (by decide) (by decide) (by decide) (by decide) (by decide)⟩


/-! ## The store before the overrun check -/

/-- C15 fails on the code. On `overrunInput` (1 x 1 image, 24 bits per pixel,
a raw packet of two pixels) the buffer allocated is 3 bytes, pixel index 0
only; `LoadCompressed` stores the second pixel at byte offsets 3, 4, 5, pixel
index 1 = width*height, and only then, with the pixel cursor at 2, throws
"Too many pixels in TGA.". -/
theorem LoadCompressed_stores_past_buffer :
    data_size 1 1 24 = 3 ∧
    LoadFromData (some overrunInput) = .threw .TooManyPixels ∧
    (thrownAt (rleLoop overrunInput (24 / 8) (1 * 1 % U32) (overrunInput.length + 1)
        (rleStart 18 Mem.fresh))).map
      (fun es => (es.1, es.2.pixel, (List.range 7).map es.2.dest)) =
      some (.TooManyPixels, 2,
        [some 0x30, some 0x20, some 0x10, some 0x60, some 0x50, some 0x40, none]) :=
  ⟨by decide, rfl, by decide⟩

/-! ## The invariant of the packet loop -/

theorem writePixel_byte_inv (k : Nat) (s : RleState) (h : s.byte = s.pixel * k % U32) :
    (writePixel k s).byte = (writePixel k s).pixel * k % U32 := by
  show (s.byte + k) % U32 = (s.pixel + 1) % U32 * k % U32
  rw [h, Nat.mod_add_mod, Nat.mul_mod, Nat.mod_mod, ← Nat.mul_mod, Nat.succ_mul]

theorem rawLoop_inv (src : List Byte) (k N : Nat) :
    ∀ (n : Nat) (s : RleState), s.byte = s.pixel * k % U32 →
      (∀ s', rawLoop src k N n s = .next s' →
        s'.byte = s'.pixel * k % U32 ∧ (s.pixel ≤ N → s'.pixel ≤ N)) ∧
      (∀ e s', rawLoop src k N n s = .threw e s' → s'.byte = s'.pixel * k % U32) := by
  intro n
  induction n with
  | zero =>
    intro s hs
    constructor
    · intro s' h
      simp only [rawLoop] at h
      injection h with h
      subst h
      exact ⟨hs, fun h => h⟩
    · intro e s' h
      simp [rawLoop] at h
  | succ n ih =>
    intro s hs
    rw [rawLoop]
    by_cases hr : src.length < s.pos + k
    · simp [readPixel, hr]
    · rw [readPixel, if_neg hr]
      simp only
      have hw := writePixel_byte_inv k
        { s with pixel_buffer := memcpy s.pixel_buffer src s.pos k, pos := s.pos + k } hs
      generalize writePixel k
        { s with pixel_buffer := memcpy s.pixel_buffer src s.pos k, pos := s.pos + k } = s2
        at hw
      by_cases hp : s2.pixel > N
      · rw [if_pos hp]
        constructor
        · intro s' h; simp at h
        · intro e s' h
          injection h with _ h
          subst h
          exact hw
      · rw [if_neg hp]
        obtain ⟨g1, g2⟩ := ih s2 hw
        constructor
        · intro s' h
          obtain ⟨a1, a2⟩ := g1 s' h
          exact ⟨a1, fun _ => a2 (by omega)⟩
        · exact g2

theorem runLoop_inv (k N : Nat) :
    ∀ (n : Nat) (s : RleState), s.byte = s.pixel * k % U32 →
      (∀ s', runLoop k N n s = .next s' →
        s'.byte = s'.pixel * k % U32 ∧ (s.pixel ≤ N → s'.pixel ≤ N)) ∧
      (∀ e s', runLoop k N n s = .threw e s' → s'.byte = s'.pixel * k % U32) := by
  intro n
  induction n with
  | zero =>
    intro s hs
    constructor
    · intro s' h
      simp only [runLoop] at h
      injection h with h
      subst h
      exact ⟨hs, fun h => h⟩
    · intro e s' h
      simp [runLoop] at h
  | succ n ih =>
    intro s hs
    rw [runLoop]
    have hw := writePixel_byte_inv k s hs
    generalize writePixel k s = s2 at hw
    by_cases hp : s2.pixel > N
    · rw [if_pos hp]
      constructor
      · intro s' h; simp at h
      · intro e s' h
        injection h with _ h
        subst h
        exact hw
    · rw [if_neg hp]
      obtain ⟨g1, g2⟩ := ih s2 hw
      constructor
      · intro s' h
        obtain ⟨a1, a2⟩ := g1 s' h
        exact ⟨a1, fun _ => a2 (by omega)⟩
      · exact g2

/-- One packet keeps the byte cursor at the pixel cursor times the pixel
width, modulo 2^32, and the pixel cursor at most the pixel total. -/
theorem packet_inv (src : List Byte) (k N : Nat) (s : RleState)
    (hs : s.byte = s.pixel * k % U32) :
    (∀ s', packet src k N s = .next s' →
      s'.byte = s'.pixel * k % U32 ∧ (s.pixel ≤ N → s'.pixel ≤ N)) ∧
    (∀ e s', packet src k N s = .threw e s' → s'.byte = s'.pixel * k % U32) := by
  rw [packet]
  by_cases h1 : src.length < s.pos + 1
  · simp [h1]
  · rw [if_neg h1]
    simp only
    split
    · exact rawLoop_inv src k N _ { s with pos := s.pos + 1 } hs
    · by_cases hr : src.length < s.pos + 1 + k
      · simp [readPixel, hr]
      · rw [readPixel, if_neg hr]
        exact runLoop_inv k N _
          { s with pixel_buffer := memcpy s.pixel_buffer src (s.pos + 1) k,
                   pos := s.pos + 1 + k } hs

theorem LoopHead_inv (src : List Byte) (k N : Nat) (s0 s : RleState)
    (h0 : s0.byte = s0.pixel * k % U32) (hp0 : s0.pixel ≤ N)
    (h : LoopHead src k N s0 s) : s.byte = s.pixel * k % U32 ∧ s.pixel ≤ N := by
  induction h with
  | start => exact ⟨h0, hp0⟩
  | step s s' _ _ hq ih =>
    obtain ⟨a1, a2⟩ := (packet_inv src k N s ih.1).1 s' hq
    exact ⟨a1, a2 ih.2⟩

theorem rleLoop_head (src : List Byte) (k N : Nat) (s0 : RleState) :
    ∀ (fuel : Nat) (s s' : RleState), LoopHead src k N s0 s →
      rleLoop src k N fuel s = .next s' → LoopHead src k N s0 s' ∧ ¬ s'.pixel < N := by
  intro fuel
  induction fuel with
  | zero => intro s s' _ h; simp [rleLoop] at h
  | succ f ih =>
    intro s s' hs h
    rw [rleLoop] at h
    by_cases hp : s.pixel < N
    · rw [if_pos hp] at h
      cases hq : packet src k N s with
      | next s1 =>
        rw [hq] at h
        exact ih s1 s' (LoopHead.step s s1 hs hp hq) h
      | threw e s1 => rw [hq] at h; simp at h
      | outOfBounds => rw [hq] at h; simp at h
      | outOfFuel => rw [hq] at h; simp at h
    · rw [if_neg hp] at h
      injection h with h
      subst h
      exact ⟨hs, hp⟩

/-- C17. Loop invariant of `LoadCompressed`, for a descriptor with width and
height at most 65535: at every test of the outer loop condition the byte
cursor equals the pixel cursor times bytesPerPixel modulo 2^32 and the pixel
cursor is at most width*height; when the loop ends normally (the successful
return), it does so at such a test with the pixel cursor equal to
width*height. -/
theorem LoadCompressed_loop_invariant (src : List Byte) (pos : Nat) (dest : Mem)
    (width height bpp : Nat) (hw : width ≤ 65535) (hh : height ≤ 65535) :
    (∀ s, LoopHead src (bpp / 8) (height * width % U32) (rleStart pos dest) s →
      s.byte = s.pixel * (bpp / 8) % 2 ^ 32 ∧ s.pixel ≤ width * height) ∧
    (∀ s, rleLoop src (bpp / 8) (height * width % U32) (src.length + 1) (rleStart pos dest)
        = .next s →
      LoopHead src (bpp / 8) (height * width % U32) (rleStart pos dest) s ∧
      s.pixel = width * height ∧
      LoadCompressed src pos dest width height bpp =
        BuildFromParameters s.dest width height bpp) := by
  obtain ⟨hN, _⟩ := pixelCount_eq width height hw hh
  have h0 : (rleStart pos dest).byte = (rleStart pos dest).pixel * (bpp / 8) % U32 := by
    show 0 = 0 * (bpp / 8) % U32
    rw [Nat.zero_mul, Nat.zero_mod]
  have inv : ∀ s, LoopHead src (bpp / 8) (height * width % U32) (rleStart pos dest) s →
      s.byte = s.pixel * (bpp / 8) % 2 ^ 32 ∧ s.pixel ≤ width * height := by
    intro s hs
    have := LoopHead_inv src (bpp / 8) (height * width % U32) (rleStart pos dest) s h0
      (Nat.zero_le _) hs
    rw [hN] at this
    exact this
  refine ⟨inv, ?_⟩
  intro s hs
  obtain ⟨a1, a2⟩ := rleLoop_head src (bpp / 8) (height * width % U32) (rleStart pos dest)
    (src.length + 1) (rleStart pos dest) s LoopHead.start hs
  have := (inv s a1).2
  rw [hN] at a2
  exact ⟨a1, by omega, LoadCompressed_of_next src pos dest width height bpp s hs⟩

theorem LoadCompressed_loop_invariant_witness :
    ∃ s, rleLoop [129, 1, 2, 3] (24 / 8) (1 * 2 % U32) 5 (rleStart 0 Mem.fresh) = .next s ∧
      s.pixel = 2 ∧ s.byte = 6 := by
  obtain ⟨h1, h2⟩ := LoadCompressed_loop_invariant [129, 1, 2, 3] 0 Mem.fresh 2 1 24
    (by decide) (by decide)
  have e : (endState (rleLoop [129, 1, 2, 3] (24 / 8) (1 * 2 % U32) 5
      (rleStart 0 Mem.fresh))).map (fun t => t.byte) = some 6 := by decide
  cases hr : rleLoop [129, 1, 2, 3] (24 / 8) (1 * 2 % U32) 5 (rleStart 0 Mem.fresh) with
  | next s =>
    rw [hr] at e
    exact ⟨s, rfl, (h2 s hr).2.1, Option.some.inj e⟩
  | threw e1 s1 => rw [hr] at e; exact Option.noConfusion e
  | outOfBounds => rw [hr] at e; exact Option.noConfusion e
  | outOfFuel => rw [hr] at e; exact Option.noConfusion e


/-! ## Byte 17 is never read -/

theorem memcpy_congr (dest : Mem) (src src' : List Byte) (pos n : Nat)
    (h : ∀ i, i < n → src[pos + i]? = src'[pos + i]?) :
    memcpy dest src pos n = memcpy dest src' pos n := by
  funext i
  unfold memcpy
  by_cases hi : i < n
  · rw [if_pos hi, if_pos hi, h i hi]
  · rw [if_neg hi, if_neg hi]

theorem at__congr (src src' : List Byte) (i : Nat) (h : src[i]? = src'[i]?) :
    at_ src i = at_ src' i := by
  unfold at_
  rw [List.getD_eq_getElem?_getD, List.getD_eq_getElem?_getD, h]

theorem readPixel_agree (src src' : List Byte) (p0 k : Nat) (hlen : src.length = src'.length)
    (h : ∀ i, p0 ≤ i → src[i]? = src'[i]?) (s : RleState) (hs : p0 ≤ s.pos) :
    readPixel src k s = readPixel src' k s := by
  unfold readPixel
  rw [hlen, memcpy_congr s.pixel_buffer src src' s.pos k (fun i _ => h _ (by omega))]

theorem rawLoop_agree (src src' : List Byte) (p0 k N : Nat) (hlen : src.length = src'.length)
    (h : ∀ i, p0 ≤ i → src[i]? = src'[i]?) :
    ∀ (n : Nat) (s : RleState), p0 ≤ s.pos → rawLoop src k N n s = rawLoop src' k N n s := by
  intro n
  induction n with
  | zero => intro s _; rfl
  | succ n ih =>
    intro s hs
    rw [rawLoop, rawLoop, readPixel_agree src src' p0 k hlen h s hs]
    cases hr : readPixel src' k s with
    | none => rfl
    | some s1 =>
      simp only
      have hp : s1.pos = s.pos + k := by
        unfold readPixel at hr
        split at hr
        · exact Option.noConfusion hr
        · injection hr with hr
          subst hr
          rfl
      rw [ih (writePixel k s1) (by rw [(writePixel_fields k s1).2.1]; omega)]

theorem packet_agree (src src' : List Byte) (p0 k N : Nat) (hlen : src.length = src'.length)
    (h : ∀ i, p0 ≤ i → src[i]? = src'[i]?) (s : RleState) (hs : p0 ≤ s.pos) :
    packet src k N s = packet src' k N s := by
  rw [packet, packet, hlen, at__congr src src' s.pos (h _ hs)]
  by_cases h1 : src'.length < s.pos + 1
  · rw [if_pos h1, if_pos h1]
  · rw [if_neg h1, if_neg h1]
    simp only
    by_cases h2 : at_ src' s.pos < 128
    · rw [if_pos h2, if_pos h2]
      exact rawLoop_agree src src' p0 k N hlen h _ { s with pos := s.pos + 1 }
        (by show p0 ≤ s.pos + 1; omega)
    · rw [if_neg h2, if_neg h2,
        readPixel_agree src src' p0 k hlen h { s with pos := s.pos + 1 }
          (by show p0 ≤ s.pos + 1; omega)]

theorem rleLoop_agree (src src' : List Byte) (p0 k N : Nat) (hlen : src.length = src'.length)
    (h : ∀ i, p0 ≤ i → src[i]? = src'[i]?) :
    ∀ (fuel : Nat) (s : RleState), p0 ≤ s.pos →
      rleLoop src k N fuel s = rleLoop src' k N fuel s := by
  intro fuel
  induction fuel with
  | zero => intro s _; rfl
  | succ f ih =>
    intro s hs
    rw [rleLoop, rleLoop, packet_agree src src' p0 k N hlen h s hs]
    by_cases hp : s.pixel < N
    · rw [if_pos hp, if_pos hp]
      cases hq : packet src' k N s with
      | next s1 =>
        simp only
        have := ((packet_pos src' k N s).2 s1 hq).1
        exact ih s1 (by omega)
      | threw e s1 => rfl
      | outOfBounds => rfl
      | outOfFuel => rfl
    · rw [if_neg hp, if_neg hp]

/-- C11. Byte 17 is ignored: two inputs of the same length that are equal at
every index except index 17 give the same outcome of `LoadFromData`, be it the
same error, the same read past the end, or the same object (same width, height,
bpp and pixel buffer). -/
theorem LoadFromData_ignores_byte_17 (bytes bytes' : List Byte)
    (hlen : bytes.length = bytes'.length)
    (h : ∀ i, i ≠ 17 → bytes[i]? = bytes'[i]?) :
    LoadFromData (some bytes) = LoadFromData (some bytes') := by
  have h18 : ∀ i, 18 ≤ i → bytes[i]? = bytes'[i]? := fun i hi => h i (by omega)
  have hc : classify bytes 0 = classify bytes' 0 := by
    have ht : bytes.take 12 = bytes'.take 12 := by
      apply List.ext_getElem?
      intro i
      by_cases hi : i < 12
      · rw [List.getElem?_take_of_lt hi, List.getElem?_take_of_lt hi]
        exact h i (by omega)
      · rw [List.getElem?_take_eq_none (by omega), List.getElem?_take_eq_none (by omega)]
    simp only [classify, List.drop_zero, TgaTypeHeaderLength, ht]
  rw [LoadFromData_some, LoadFromData_some, ← hlen, ← hc,
    ← at__congr bytes bytes' 12 (h 12 (by decide)),
    ← at__congr bytes bytes' 13 (h 13 (by decide)),
    ← at__congr bytes bytes' 14 (h 14 (by decide)),
    ← at__congr bytes bytes' 15 (h 15 (by decide)),
    ← at__congr bytes bytes' 16 (h 16 (by decide))]
  have hC : ∀ w hh b, LoadCompressed bytes 18 Mem.fresh w hh b =
      LoadCompressed bytes' 18 Mem.fresh w hh b := by
    intro w hh b
    unfold LoadCompressed
    simp only
    rw [← hlen, rleLoop_agree bytes bytes' 18 (b / 8) (hh * w % U32) hlen h18
      (bytes.length + 1) (rleStart 18 Mem.fresh) (Nat.le_refl 18)]
  have hUn : ∀ sz w hh b, LoadUncompressed bytes 18 Mem.fresh sz w hh b =
      LoadUncompressed bytes' 18 Mem.fresh sz w hh b := by
    intro sz w hh b
    unfold LoadUncompressed
    rw [← hlen, memcpy_congr Mem.fresh bytes bytes' 18 sz (fun i _ => h18 _ (by omega))]
  rw [hC, hUn]

theorem LoadFromData_ignores_byte_17_witness :
    LoadFromData (some [0, 0, 2, 0, 0, 0, 0, 0, 0, 0, 0, 0, 1, 0, 1, 0, 24, 0x00, 1, 2, 3]) =
    LoadFromData (some [0, 0, 2, 0, 0, 0, 0, 0, 0, 0, 0, 0, 1, 0, 1, 0, 24, 0xFF, 1, 2, 3]) :=
  LoadFromData_ignores_byte_17 _ _ (by decide)
    (fun i hi => by
      by_cases h : i < 17
      · interval_cases i <;> rfl
      · by_cases h2 : i < 21
        · interval_cases i
          · exact absurd rfl hi
          · rfl
          · rfl
          · rfl
        · rw [List.getElem?_eq_none (by simp; omega), List.getElem?_eq_none (by simp; omega)])


/-! ## A stream that ends too early -/

theorem rawLoop_truncated (src : List Byte) (k N : Nat) (hN : N < U32) :
    ∀ (n : Nat) (s : RleState), s.pos ≤ src.length → src.length < s.pos + n * k →
      s.pixel + n ≤ N → rawLoop src k N n s = .outOfBounds := by
  intro n
  induction n with
  | zero => intro s h1 h2 _; rw [Nat.zero_mul] at h2; omega
  | succ n ih =>
    intro s h1 h2 h3
    have hsucc : (n + 1) * k = n * k + k := Nat.succ_mul n k
    rw [rawLoop]
    by_cases hr : src.length < s.pos + k
    · rw [readPixel, if_pos hr]
    · rw [readPixel_some src k s (by omega)]
      simp only
      obtain ⟨f1, f2, _, _⟩ := writePixel_fields k
        { s with pixel_buffer := memcpy s.pixel_buffer src s.pos k, pos := s.pos + k }
      generalize writePixel k
        { s with pixel_buffer := memcpy s.pixel_buffer src s.pos k, pos := s.pos + k } = s2
        at f1 f2
      simp only at f1 f2
      have f1' : s2.pixel = s.pixel + 1 := by rw [f1]; exact Nat.mod_eq_of_lt (by omega)
      rw [if_neg (by omega)]
      exact ih s2 (by omega) (by omega) (by omega)

/-- A packet the source ends in the middle of, or before. -/
theorem packet_truncated (src : List Byte) (k N : Nat) (hN : N < U32) (s : RleState)
    (hfit : s.pixel +
      (if at_ src s.pos < 128 then at_ src s.pos + 1 else at_ src s.pos - 127) ≤ N)
    (hcut : src.length <
      s.pos + 1 + (if at_ src s.pos < 128 then (at_ src s.pos + 1) * k else k)) :
    packet src k N s = .outOfBounds := by
  have hc256 := at__lt src s.pos
  rw [packet]
  by_cases h1 : src.length < s.pos + 1
  · rw [if_pos h1]
  · rw [if_neg h1]
    simp only
    by_cases h2 : at_ src s.pos < 128
    · rw [if_pos h2] at hfit hcut ⊢
      rw [Nat.mod_eq_of_lt (by omega)]
      exact rawLoop_truncated src k N hN _ { s with pos := s.pos + 1 }
        (by show s.pos + 1 ≤ src.length; omega) hcut hfit
    · rw [if_neg h2] at hcut ⊢
      rw [readPixel, if_pos (by show src.length < s.pos + 1 + k; omega)]

/-- The packet loop on whole packets that stay below the pixel total, after
which the source ends, at once or inside one more packet that would still fit:
the loop reads past the end of the source. -/
theorem rleLoop_truncated (src : List Byte) (k N : Nat) (hN : N < U32) (tail : List Byte)
    (t : Packet) (htail : tail = [] ∨ (tail = t.bytes ∧ t.Cut k)) :
    ∀ (qs : List Packet) (s : RleState) (fuel : Nat),
      (∀ q ∈ qs, q.Whole k) → src.drop s.pos = encodePackets qs ++ tail →
      s.pixel + totalCount qs < N → (tail ≠ [] → s.pixel + totalCount qs + t.count ≤ N) →
      qs.length + 1 ≤ fuel →
      rleLoop src k N fuel s = .outOfBounds := by
  intro qs
  induction qs with
  | nil =>
    intro s fuel _ hsrc hlt hfit hfuel
    obtain ⟨f, rfl⟩ : ∃ f, fuel = f + 1 := ⟨fuel - 1, by omega⟩
    simp only [totalCount, Nat.add_zero] at hlt hfit
    rw [encodePackets, List.nil_append] at hsrc
    have hp : packet src k N s = .outOfBounds := by
      rcases htail with h | ⟨h, hcut⟩
      · subst h
        have hl : src.length ≤ s.pos := List.drop_eq_nil_iff.1 hsrc
        rw [packet, if_pos (by omega)]
      · have hne : tail ≠ [] := by rw [h]; simp [Packet.bytes]
        rw [h, ← List.append_nil t.bytes] at hsrc
        obtain ⟨hc, hlen, hdrop⟩ := drop_packet src s.pos t [] hsrc
        have hl : src.length ≤ s.pos + 1 + t.payload.length := List.drop_eq_nil_iff.1 hdrop
        have hf := hfit hne
        unfold Packet.Cut at hcut
        unfold Packet.count at hf
        apply packet_truncated src k N hN s
        · rw [hc]; exact hf
        · rw [hc]; omega
    rw [rleLoop, if_pos hlt, hp]
  | cons q qs ih =>
    intro s fuel hwhole hsrc hlt hfit hfuel
    obtain ⟨f, rfl⟩ : ∃ f, fuel = f + 1 := ⟨fuel - 1, by omega⟩
    simp only [totalCount] at hlt hfit
    simp only [List.length_cons] at hfuel
    have hpos := q.count_pos
    rw [encodePackets, List.append_assoc] at hsrc
    obtain ⟨s1, h1, h2, h3, h4⟩ := packet_whole src k N hN s q (encodePackets qs ++ tail)
      (hwhole q (List.mem_cons_self _ _)) hsrc (by omega)
    rw [rleLoop, if_pos (by omega), h1]
    exact ih s1 f (fun p hp => hwhole p (List.mem_cons_of_mem _ hp)) h4 (by omega)
      (fun hne => by have := hfit hne; omega) (by omega)


theorem at__pos_lt (src : List Byte) (i : Nat) (h : 0 < at_ src i) : i < src.length := by
  by_contra hc
  unfold at_ at h
  rw [List.getD_eq_getElem?_getD, List.getElem?_eq_none (by omega)] at h
  exact absurd h (by decide)

/-- C13, amended. A truncated stream is not rejected by any check: for every
input with a recognised header and a valid descriptor that holds fewer
pixel-data bytes than the decode needs (fewer bytes after byte 17 than the
computed buffer size for the uncompressed variant, so that the buffer size is
not zero and the copy reads at least one byte; for the RLE variant whole
packets that stay below width*height pixels followed by the end of the input or
by a packet cut short that would still fit), `LoadFromData` reads past the end
of the bytes it was given: it neither throws an error nor builds an image. -/
theorem LoadFromData_truncated (bytes : List Byte) (width height bpp k : Nat)
    (hwv : width = at_ bytes 12 + 256 * at_ bytes 13)
    (hhv : height = at_ bytes 14 + 256 * at_ bytes 15)
    (hbv : bpp = at_ bytes 16) (hk : k = bpp / 8)
    (hw : 1 ≤ width) (hh : 1 ≤ height) (hb : bpp = 24 ∨ bpp = 32) :
    (bytes.take 12 = UncompressedTgaHeader →
      (bytes.drop 18).length < data_size width height bpp →
      LoadFromData (some bytes) = .outOfBounds) ∧
    (bytes.take 12 = CompressedTgaHeader →
      ∀ (qs : List Packet) (tail : List Byte) (t : Packet),
        bytes.drop 18 = encodePackets qs ++ tail → (∀ q ∈ qs, q.Whole k) →
        totalCount qs < width * height →
        (tail = [] ∨ (tail = t.bytes ∧ t.Cut k ∧ totalCount qs + t.count ≤ width * height)) →
        LoadFromData (some bytes) = .outOfBounds) := by
  have b12 := at__lt bytes 12
  have b13 := at__lt bytes 13
  have b14 := at__lt bytes 14
  have b15 := at__lt bytes 15
  have h17 : 17 ≤ bytes.length := by
    have := at__pos_lt bytes 16 (by omega)
    omega
  have hdisp := LoadFromData_dispatch bytes h17 (by omega) (by omega) (by omega)
  rw [show at_ bytes 13 * 256 + at_ bytes 12 = width by omega,
    show at_ bytes 15 * 256 + at_ bytes 14 = height by omega, ← hbv] at hdisp
  constructor
  · intro hdr hlen
    rw [List.length_drop] at hlen
    rw [hdisp.1 hdr, LoadUncompressed, if_pos (by omega)]
  · intro hdr qs tail t hsrc hwhole hlt htail
    obtain ⟨hN, hN1⟩ := pixelCount_eq width height (by omega) (by omega)
    have hfuel : qs.length + 1 ≤ bytes.length + 1 := by
      have h1 := congrArg List.length hsrc
      simp only [List.length_drop, List.length_append] at h1
      have := encodePackets_length_ge qs
      omega
    have hrun := rleLoop_truncated bytes k (height * width % U32)
      (Nat.mod_lt _ (by decide)) tail t
      (by rcases htail with h | ⟨h1, h2, _⟩
          · exact Or.inl h
          · exact Or.inr ⟨h1, h2⟩)
      qs (rleStart 18 Mem.fresh) (bytes.length + 1) hwhole hsrc
      (by show 0 + totalCount qs < _; omega)
      (by
        intro hne
        show 0 + totalCount qs + t.count ≤ _
        rcases htail with h | ⟨_, _, h3⟩
        · exact absurd h hne
        · omega)
      hfuel
    rw [hdisp.2 hdr, LoadCompressed, ← hk, hrun]

/-- An uncompressed input that ends after byte 16 is not a truncated one when
the computed buffer size is 0 (16384 x 16384 at 32 bits per pixel): the copy
of 0 bytes reads nothing and the object is returned. -/
theorem LoadFromData_nothing_to_copy :
    ∃ t, LoadFromData (some [0, 0, 2, 0, 0, 0, 0, 0, 0, 0, 0, 0, 0, 64, 0, 64, 32]) = .built t ∧
      t.m_width = 16384 ∧ t.m_height = 16384 ∧ t.bpp = 32 ∧ ∀ i, t.raw i = none :=
  ⟨_, rfl, rfl, rfl, rfl, fun _ => rfl⟩

theorem LoadFromData_truncated_witness :
    LoadFromData (some truncatedUncompressed) = .outOfBounds ∧
    LoadFromData (some truncatedCompressed) = .outOfBounds :=
  ⟨(LoadFromData_truncated truncatedUncompressed 2 1 24 3 (by decide) (by decide) (by decide)
      (by decide) (by decide) (by decide) (by decide)).1 (by decide) (by decide),
   (LoadFromData_truncated truncatedCompressed 2 1 24 3 (by decide) (by decide) (by decide)
      (by decide) (by decide) (by decide) (by decide)).2 (by decide)
      [⟨0, [0x10, 0x20, 0x30]⟩] [] ⟨0, []⟩ (by decide)
      (fun q hq => by rw [List.mem_singleton.1 hq]; unfold Packet.Whole; decide)
      (by decide) (Or.inl rfl)⟩

/-- C13 fails as stated: an uncompressed 2 x 1 image at 24 bits per pixel with
3 of its 6 data bytes, and an RLE image of the same size whose stream ends
after one pixel, both have a recognised header and a valid descriptor, and on
neither does `LoadFromData` throw: the decode reads past the end of the input. -/
theorem LoadFromData_truncated_not_rejected :
    (truncatedUncompressed.take 12 = UncompressedTgaHeader ∧
      truncatedUncompressed.length - 18 < 2 * 1 * (24 / 8) ∧
      LoadFromData (some truncatedUncompressed) = .outOfBounds ∧
      ¬ ∃ e, LoadFromData (some truncatedUncompressed) = .threw e) ∧
    (truncatedCompressed.take 12 = CompressedTgaHeader ∧
      LoadFromData (some truncatedCompressed) = .outOfBounds ∧
      ¬ ∃ e, LoadFromData (some truncatedCompressed) = .threw e) := by
  have h1 : LoadFromData (some truncatedUncompressed) = .outOfBounds := rfl
  have h2 : LoadFromData (some truncatedCompressed) = .outOfBounds := rfl
  refine ⟨⟨by decide, by decide, h1, ?_⟩, by decide, h2, ?_⟩
  · rintro ⟨e, he⟩
    rw [h1] at he
    exact Outcome.noConfusion he
  · rintro ⟨e, he⟩
    rw [h2] at he
    exact Outcome.noConfusion he


/-! ## Termination of `LoadCompressed` -/

theorem rawLoop_next_pixel (src : List Byte) (k N : Nat) (hN : N + 1 < U32) :
    ∀ (n : Nat) (s s' : RleState), rawLoop src k N n s = .next s' → s.pixel ≤ N →
      s'.pixel = s.pixel + n ∧ s'.pixel ≤ N := by
  intro n
  induction n with
  | zero =>
    intro s s' h hp
    simp only [rawLoop] at h
    injection h with h
    subst h
    exact ⟨rfl, hp⟩
  | succ n ih =>
    intro s s' h hp
    rw [rawLoop] at h
    by_cases hr : src.length < s.pos + k
    · rw [readPixel, if_pos hr] at h; simp at h
    · rw [readPixel, if_neg hr] at h
      simp only at h
      obtain ⟨f1, _⟩ := writePixel_fields k
        { s with pixel_buffer := memcpy s.pixel_buffer src s.pos k, pos := s.pos + k }
      generalize writePixel k
        { s with pixel_buffer := memcpy s.pixel_buffer src s.pos k, pos := s.pos + k } = s2
        at f1 h
      simp only at f1
      have f1' : s2.pixel = s.pixel + 1 := by rw [f1]; exact Nat.mod_eq_of_lt (by omega)
      by_cases hp2 : s2.pixel > N
      · rw [if_pos hp2] at h; simp at h
      · rw [if_neg hp2] at h
        obtain ⟨a1, a2⟩ := ih s2 s' h (by omega)
        exact ⟨by omega, a2⟩

theorem runLoop_next_pixel (k N : Nat) (hN : N + 1 < U32) :
    ∀ (n : Nat) (s s' : RleState), runLoop k N n s = .next s' → s.pixel ≤ N →
      s'.pixel = s.pixel + n ∧ s'.pixel ≤ N := by
  intro n
  induction n with
  | zero =>
    intro s s' h hp
    simp only [runLoop] at h
    injection h with h
    subst h
    exact ⟨rfl, hp⟩
  | succ n ih =>
    intro s s' h hp
    rw [runLoop] at h
    obtain ⟨f1, _⟩ := writePixel_fields k s
    generalize writePixel k s = s2 at f1 h
    have f1' : s2.pixel = s.pixel + 1 := by rw [f1]; exact Nat.mod_eq_of_lt (by omega)
    by_cases hp2 : s2.pixel > N
    · rw [if_pos hp2] at h; simp at h
    · rw [if_neg hp2] at h
      obtain ⟨a1, a2⟩ := ih s2 s' h (by omega)
      exact ⟨by omega, a2⟩

/-- The count of every packet is in [1,128]: a packet is a read past the end
of the source, or one of the inner loops run that many times. -/
theorem packet_count (src : List Byte) (k N : Nat) (s : RleState) :
    ∃ n s1, 1 ≤ n ∧ n ≤ 128 ∧
      (packet src k N s = .outOfBounds ∨ packet src k N s = rawLoop src k N n s1 ∨
        packet src k N s = runLoop k N n s1) := by
  have hc := at__lt src s.pos
  by_cases h1 : src.length < s.pos + 1
  · exact ⟨1, s, by omega, by omega, Or.inl (by rw [packet, if_pos h1])⟩
  · by_cases h2 : at_ src s.pos < 128
    · refine ⟨(at_ src s.pos + 1) % 256, { s with pos := s.pos + 1 }, ?_, ?_, Or.inr (Or.inl ?_)⟩
      · rw [Nat.mod_eq_of_lt (by omega)]; omega
      · rw [Nat.mod_eq_of_lt (by omega)]; omega
      · rw [packet, if_neg h1]
        simp only
        rw [if_pos h2]
    · by_cases hr : src.length < s.pos + 1 + k
      · refine ⟨1, s, by omega, by omega, Or.inl ?_⟩
        rw [packet, if_neg h1]
        simp only
        rw [if_neg h2, readPixel, if_pos hr]
      · refine ⟨(at_ src s.pos - 127) % 256,
          { s with pixel_buffer := memcpy s.pixel_buffer src (s.pos + 1) k,
                   pos := s.pos + 1 + k }, ?_, ?_, Or.inr (Or.inr ?_)⟩
        · rw [Nat.mod_eq_of_lt (by omega)]; omega
        · rw [Nat.mod_eq_of_lt (by omega)]; omega
        · rw [packet, if_neg h1]
          simp only
          rw [if_neg h2, readPixel, if_neg hr]

/-- A packet that ends normally has advanced the pixel cursor by its count,
between 1 and 128, and not past the pixel total. -/
theorem packet_progress (src : List Byte) (k N : Nat) (hN : N + 1 < U32) (s s' : RleState)
    (h : packet src k N s = .next s') (hp : s.pixel ≤ N) :
    s.pixel + 1 ≤ s'.pixel ∧ s'.pixel ≤ s.pixel + 128 ∧ s'.pixel ≤ N := by
  have hc := at__lt src s.pos
  rw [packet] at h
  by_cases h1 : src.length < s.pos + 1
  · rw [if_pos h1] at h; simp at h
  · rw [if_neg h1] at h
    simp only at h
    by_cases h2 : at_ src s.pos < 128
    · rw [if_pos h2, Nat.mod_eq_of_lt (by omega)] at h
      obtain ⟨a1, a2⟩ := rawLoop_next_pixel src k N hN _ _ s' h hp
      simp only at a1
      omega
    · rw [if_neg h2, Nat.mod_eq_of_lt (by omega)] at h
      by_cases hr : src.length < s.pos + 1 + k
      · rw [readPixel, if_pos hr] at h; simp at h
      · rw [readPixel, if_neg hr] at h
        obtain ⟨a1, a2⟩ := runLoop_next_pixel k N hN _ _ s' h hp
        simp only at a1
        omega

/-- The outer loop tests its condition at most once more than there are
pixels left. -/
theorem rleLoop_bound (src : List Byte) (k N : Nat) (hN : N + 1 < U32) :
    ∀ (fuel : Nat) (s : RleState), s.pixel ≤ N → N - s.pixel + 1 ≤ fuel →
      rleLoop src k N fuel s ≠ .outOfFuel := by
  intro fuel
  induction fuel with
  | zero => intro _ _ h; omega
  | succ f ih =>
    intro s hp hf
    rw [rleLoop]
    by_cases hlt : s.pixel < N
    · rw [if_pos hlt]
      cases hq : packet src k N s with
      | next s1 =>
        obtain ⟨a1, _, a3⟩ := packet_progress src k N hN s s1 hq hp
        exact ih s1 a3 (by omega)
      | threw e s1 => simp
      | outOfBounds => simp
      | outOfFuel => exact absurd hq (packet_pos src k N s).1
    · rw [if_neg hlt]
      simp

/-- More fuel than a run needs does not change it. -/
theorem rleLoop_fuel_mono (src : List Byte) (k N : Nat) :
    ∀ (fuel : Nat) (s : RleState), rleLoop src k N fuel s ≠ .outOfFuel →
      ∀ fuel', fuel ≤ fuel' → rleLoop src k N fuel' s = rleLoop src k N fuel s := by
  intro fuel
  induction fuel with
  | zero => intro s h; exact absurd rfl h
  | succ f ih =>
    intro s h fuel' hle
    obtain ⟨f', rfl⟩ : ∃ f', fuel' = f' + 1 := ⟨fuel' - 1, by omega⟩
    rw [rleLoop] at h ⊢
    rw [rleLoop]
    by_cases hlt : s.pixel < N
    · rw [if_pos hlt] at h ⊢
      rw [if_pos hlt]
      cases hq : packet src k N s with
      | next s1 =>
        rw [hq] at h
        exact ih s1 h f' (by omega)
      | threw e s1 => rfl
      | outOfBounds => rfl
      | outOfFuel => rfl
    · rw [if_neg hlt, if_neg hlt]


/-- The three ways `LoadCompressed` ends. -/
theorem LoadCompressed_outcome (src : List Byte) (pos : Nat) (dest : Mem)
    (width height bpp : Nat) :
    (∃ t, LoadCompressed src pos dest width height bpp = .built t) ∨
    LoadCompressed src pos dest width height bpp = .threw .TooManyPixels ∨
    LoadCompressed src pos dest width height bpp = .outOfBounds := by
  cases hr : rleLoop src (bpp / 8) (height * width % U32) (src.length + 1)
      (rleStart pos dest) with
  | next s =>
    obtain ⟨t, ht, _⟩ := BuildFromParameters_eq s.dest width height bpp
    exact Or.inl ⟨t, by rw [LoadCompressed_of_next src pos dest width height bpp s hr, ht]⟩
  | threw e s =>
    have he := rleLoop_threw_eq _ _ _ _ _ _ _ hr
    subst he
    exact Or.inr (Or.inl (LoadCompressed_of_threw src pos dest width height bpp _ s hr))
  | outOfBounds =>
    refine Or.inr (Or.inr ?_)
    unfold LoadCompressed
    simp only [hr]
  | outOfFuel =>
    exact absurd hr (rleLoop_ne_outOfFuel src _ _ _ _
      (by show src.length - pos + 1 ≤ _; omega))

/-- C14, amended. `LoadCompressed` terminates on every input, for a descriptor
with width and height at most 65535: every packet, raw or run, has a count in
[1,128] and, when it ends normally, has advanced the pixel cursor by at least
one and at most 128, so the outer loop tests its condition at most
width*height + 1 times (width*height packets) and each inner loop runs at most
128 times; the run ends in success, in the throw of "Too many pixels in TGA.",
or, when the source bytes end first, in a read past their end. -/
theorem LoadCompressed_terminates (src : List Byte) (pos : Nat) (dest : Mem)
    (width height bpp : Nat) (hw : width ≤ 65535) (hh : height ≤ 65535) :
    (∀ s, ∃ n s1, 1 ≤ n ∧ n ≤ 128 ∧
      (packet src (bpp / 8) (height * width % U32) s = .outOfBounds ∨
        packet src (bpp / 8) (height * width % U32) s =
          rawLoop src (bpp / 8) (height * width % U32) n s1 ∨
        packet src (bpp / 8) (height * width % U32) s =
          runLoop (bpp / 8) (height * width % U32) n s1)) ∧
    (∀ s s', s.pixel ≤ width * height →
      packet src (bpp / 8) (height * width % U32) s = .next s' →
      s.pixel + 1 ≤ s'.pixel ∧ s'.pixel ≤ s.pixel + 128 ∧ s'.pixel ≤ width * height) ∧
    rleLoop src (bpp / 8) (height * width % U32) (width * height + 1) (rleStart pos dest)
      ≠ .outOfFuel ∧
    rleLoop src (bpp / 8) (height * width % U32) (src.length + 1) (rleStart pos dest) =
      rleLoop src (bpp / 8) (height * width % U32) (width * height + 1) (rleStart pos dest) ∧
    ((∃ t, LoadCompressed src pos dest width height bpp = .built t) ∨
      LoadCompressed src pos dest width height bpp = .threw .TooManyPixels ∨
      LoadCompressed src pos dest width height bpp = .outOfBounds) := by
  obtain ⟨hN, hN1⟩ := pixelCount_eq width height hw hh
  have hb : rleLoop src (bpp / 8) (height * width % U32) (width * height + 1)
      (rleStart pos dest) ≠ .outOfFuel :=
    rleLoop_bound src (bpp / 8) (height * width % U32) (by rw [hN]; exact hN1) _ _
      (Nat.zero_le _) (by show height * width % U32 - 0 + 1 ≤ _; rw [hN]; omega)
  have hs : rleLoop src (bpp / 8) (height * width % U32) (src.length + 1)
      (rleStart pos dest) ≠ .outOfFuel :=
    rleLoop_ne_outOfFuel src _ _ _ _ (by show src.length - pos + 1 ≤ _; omega)
  refine ⟨fun s => packet_count src _ _ s, ?_, hb, ?_, LoadCompressed_outcome _ _ _ _ _ _⟩
  · intro s s' hp hq
    have := packet_progress src (bpp / 8) (height * width % U32) (by rw [hN]; exact hN1)
      s s' hq (by rw [hN]; exact hp)
    rw [hN] at this
    exact this
  · rcases Nat.le_total (src.length + 1) (width * height + 1) with hle | hle
    · exact (rleLoop_fuel_mono src _ _ _ _ hs _ hle).symm
    · exact rleLoop_fuel_mono src _ _ _ _ hb _ hle

theorem LoadCompressed_terminates_witness :
    rleLoop overrunInput (24 / 8) (1 * 1 % U32) (1 * 1 + 1) (rleStart 18 Mem.fresh)
      ≠ .outOfFuel ∧
    ((∃ t, LoadCompressed overrunInput 18 Mem.fresh 1 1 24 = .built t) ∨
      LoadCompressed overrunInput 18 Mem.fresh 1 1 24 = .threw .TooManyPixels ∨
      LoadCompressed overrunInput 18 Mem.fresh 1 1 24 = .outOfBounds) :=
  ⟨(LoadCompressed_terminates overrunInput 18 Mem.fresh 1 1 24 (by decide) (by decide)).2.2.1,
   (LoadCompressed_terminates overrunInput 18 Mem.fresh 1 1 24 (by decide)
     (by decide)).2.2.2.2⟩

/-- C14 fails as stated: on the RLE 1 x 1 input that holds no pixel data,
`LoadCompressed` ends neither in success nor in the throw of "Too many pixels
in TGA.": it reads its first control byte past the end of the input. -/
theorem LoadCompressed_reads_past_end :
    LoadFromData (some emptyRleInput) = LoadCompressed emptyRleInput 18 Mem.fresh 1 1 24 ∧
    LoadCompressed emptyRleInput 18 Mem.fresh 1 1 24 = .outOfBounds ∧
    (¬ ∃ t, LoadCompressed emptyRleInput 18 Mem.fresh 1 1 24 = .built t) ∧
    LoadCompressed emptyRleInput 18 Mem.fresh 1 1 24 ≠ .threw .TooManyPixels := by
  have h : LoadCompressed emptyRleInput 18 Mem.fresh 1 1 24 = .outOfBounds := rfl
  refine ⟨rfl, h, ?_, ?_⟩
  · rintro ⟨t, ht⟩
    rw [h] at ht
    exact Outcome.noConfusion ht
  · rw [h]
    exact fun hc => Outcome.noConfusion hc


/-! ## Bytes after the last one read -/

theorem SamePrefix_of_take (n : Nat) (src src' : List Byte) (hn : n ≤ src.length)
    (h : src'.take n = src.take n) : SamePrefix n src src' := by
  refine ⟨hn, ?_, ?_⟩
  · have := congrArg List.length h
    simp only [List.length_take] at this
    omega
  · intro i hi
    have := congrArg (fun l => l[i]?) h
    simp only [List.getElem?_take_of_lt hi] at this
    exact this.symm

theorem SamePrefix_mono (n m : Nat) (src src' : List Byte) (hm : m ≤ n)
    (h : SamePrefix n src src') : SamePrefix m src src' :=
  ⟨by have := h.1; omega, by have := h.2.1; omega, fun i hi => h.2.2 i (by omega)⟩

theorem SamePrefix_append (src T : List Byte) (n : Nat) (hn : n ≤ src.length) :
    SamePrefix n src (src ++ T) := by
  refine ⟨hn, by rw [List.length_append]; omega, ?_⟩
  intro i hi
  rw [List.getElem?_append_left (by omega)]

theorem readPixel_upTo (src src' : List Byte) (k : Nat) (s : RleState)
    (h : SamePrefix (s.pos + k) src src') : readPixel src' k s = readPixel src k s := by
  rw [readPixel_some src k s h.1, readPixel_some src' k s h.2.1,
    memcpy_congr s.pixel_buffer src src' s.pos k (fun i hi => h.2.2 _ (by omega))]

theorem rawLoop_upTo (src src' : List Byte) (k N : Nat) :
    ∀ (n : Nat) (s s' : RleState), rawLoop src k N n s = .next s' →
      SamePrefix s'.pos src src' → rawLoop src' k N n s = .next s' := by
  intro n
  induction n with
  | zero => intro s s' h _; exact h
  | succ n ih =>
    intro s s' h hp
    rw [rawLoop] at h
    by_cases hr : src.length < s.pos + k
    · rw [readPixel, if_pos hr] at h; simp at h
    · have hrd := readPixel_some src k s (by omega)
      rw [hrd] at h
      simp only at h
      have f2 := (writePixel_fields k
        { s with pixel_buffer := memcpy s.pixel_buffer src s.pos k, pos := s.pos + k }).2.1
      simp only at f2
      by_cases hp2 : (writePixel k
          { s with pixel_buffer := memcpy s.pixel_buffer src s.pos k, pos := s.pos + k }).pixel
          > N
      · rw [if_pos hp2] at h; simp at h
      · rw [if_neg hp2] at h
        have hmono := (rawLoop_pos src k N n _).2 s' h
        rw [f2] at hmono
        rw [rawLoop, readPixel_upTo src src' k s (SamePrefix_mono _ _ _ _ hmono hp), hrd]
        simp only
        rw [if_neg hp2]
        exact ih _ s' h hp

theorem packet_upTo (src src' : List Byte) (k N : Nat) (s s' : RleState)
    (h : packet src k N s = .next s') (hp : SamePrefix s'.pos src src') :
    packet src' k N s = .next s' := by
  have hpos := ((packet_pos src k N s).2 s' h).1
  have hc : at_ src' s.pos = at_ src s.pos :=
    (at__congr src src' s.pos (hp.2.2 s.pos (by omega))).symm
  rw [packet] at h
  rw [packet, hc, if_neg (by have := hp.2.1; omega)]
  by_cases h1 : src.length < s.pos + 1
  · rw [if_pos h1] at h; simp at h
  · rw [if_neg h1] at h
    simp only at h ⊢
    by_cases h2 : at_ src s.pos < 128
    · rw [if_pos h2] at h ⊢
      exact rawLoop_upTo src src' k N _ _ s' h hp
    · rw [if_neg h2] at h ⊢
      by_cases hr : src.length < s.pos + 1 + k
      · rw [readPixel, if_pos hr] at h; simp at h
      · have hrd := readPixel_some src k { s with pos := s.pos + 1 } (by show s.pos + 1 + k ≤ src.length; omega)
        rw [hrd] at h
        simp only at h
        have hmono := (runLoop_pos k N _ _).2 s' h
        simp only at hmono
        rw [readPixel_upTo src src' k { s with pos := s.pos + 1 }
          (SamePrefix_mono _ _ _ _ hmono hp), hrd]
        exact h

theorem rleLoop_pos (src : List Byte) (k N : Nat) :
    ∀ (fuel : Nat) (s s' : RleState), rleLoop src k N fuel s = .next s' → s.pos ≤ s'.pos := by
  intro fuel
  induction fuel with
  | zero => intro s s' h; simp [rleLoop] at h
  | succ f ih =>
    intro s s' h
    rw [rleLoop] at h
    by_cases hlt : s.pixel < N
    · rw [if_pos hlt] at h
      cases hq : packet src k N s with
      | next s1 =>
        rw [hq] at h
        have := ((packet_pos src k N s).2 s1 hq).1
        have := ih s1 s' h
        omega
      | threw e s1 => rw [hq] at h; simp at h
      | outOfBounds => rw [hq] at h; simp at h
      | outOfFuel => rw [hq] at h; simp at h
    · rw [if_neg hlt] at h
      injection h with h
      rw [h]

theorem rleLoop_upTo (src src' : List Byte) (k N : Nat) :
    ∀ (fuel : Nat) (s s' : RleState), rleLoop src k N fuel s = .next s' →
      SamePrefix s'.pos src src' → rleLoop src' k N fuel s = .next s' := by
  intro fuel
  induction fuel with
  | zero => intro s s' h; simp [rleLoop] at h
  | succ f ih =>
    intro s s' h hp
    rw [rleLoop] at h ⊢
    by_cases hlt : s.pixel < N
    · rw [if_pos hlt] at h ⊢
      cases hq : packet src k N s with
      | next s1 =>
        rw [hq] at h
        have hmono := rleLoop_pos src k N f s1 s' h
        rw [packet_upTo src src' k N s s1 hq (SamePrefix_mono _ _ _ _ hmono hp)]
        exact ih s1 s' h hp
      | threw e s1 => rw [hq] at h; simp at h
      | outOfBounds => rw [hq] at h; simp at h
      | outOfFuel => rw [hq] at h; simp at h
    · rw [if_neg hlt] at h ⊢
      exact h

/-- A run of `LoadCompressed` that ends normally is the same on every source
with the same bytes up to the position the run ended at. -/
theorem LoadCompressed_upTo (src src' : List Byte) (pos : Nat) (dest : Mem)
    (width height bpp : Nat) (s : RleState)
    (h : rleLoop src (bpp / 8) (height * width % U32) (src.length + 1) (rleStart pos dest)
      = .next s)
    (hp : SamePrefix s.pos src src') :
    LoadCompressed src' pos dest width height bpp = BuildFromParameters s.dest width height bpp := by
  have h1 := rleLoop_upTo src src' _ _ _ _ s h hp
  have h2 : rleLoop src' (bpp / 8) (height * width % U32) (src'.length + 1)
      (rleStart pos dest) ≠ .outOfFuel :=
    rleLoop_ne_outOfFuel src' _ _ _ _ (by show src'.length - pos + 1 ≤ _; omega)
  have h3 : rleLoop src' (bpp / 8) (height * width % U32) (src'.length + 1)
      (rleStart pos dest) = .next s := by
    rcases Nat.le_total (src'.length + 1) (src.length + 1) with hle | hle
    · rw [← rleLoop_fuel_mono src' _ _ _ _ h2 _ hle]
      exact h1
    · rw [rleLoop_fuel_mono src' _ _ _ _ (by rw [h1]; simp) _ hle]
      exact h1
  exact LoadCompressed_of_next src' pos dest width height bpp s h3

theorem LoadUncompressed_upTo (src src' : List Byte) (pos : Nat) (dest : Mem)
    (size width height bpp : Nat) (hp : 0 < size → SamePrefix (pos + size) src src') :
    LoadUncompressed src' pos dest size width height bpp =
      LoadUncompressed src pos dest size width height bpp := by
  rcases Nat.eq_zero_or_pos size with h0 | h0
  · subst h0
    rw [LoadUncompressed, LoadUncompressed, if_neg (by omega), if_neg (by omega),
      memcpy_congr dest src src' pos 0 (fun i hi => absurd hi (Nat.not_lt_zero i))]
  · have hp := hp h0
    rw [LoadUncompressed, LoadUncompressed, if_neg (by have := hp.2.1; omega),
      if_neg (by have := hp.1; omega),
      memcpy_congr dest src src' pos size (fun i hi => hp.2.2 _ (by omega))]


theorem rawLoop_pos_le (src : List Byte) (k N : Nat) :
    ∀ (n : Nat) (s s' : RleState), rawLoop src k N n s = .next s' → s.pos ≤ src.length →
      s'.pos ≤ src.length := by
  intro n
  induction n with
  | zero =>
    intro s s' h hp
    simp only [rawLoop] at h
    injection h with h
    rw [← h]
    exact hp
  | succ n ih =>
    intro s s' h _
    rw [rawLoop] at h
    by_cases hr : src.length < s.pos + k
    · rw [readPixel, if_pos hr] at h; simp at h
    · rw [readPixel, if_neg hr] at h
      simp only at h
      split at h
      · simp at h
      · refine ih _ s' h ?_
        rw [(writePixel_fields k _).2.1]
        show s.pos + k ≤ src.length
        omega

theorem runLoop_pos_eq (k N : Nat) :
    ∀ (n : Nat) (s s' : RleState), runLoop k N n s = .next s' → s'.pos = s.pos := by
  intro n
  induction n with
  | zero =>
    intro s s' h
    simp only [runLoop] at h
    injection h with h
    rw [h]
  | succ n ih =>
    intro s s' h
    rw [runLoop] at h
    split at h
    · simp at h
    · rw [ih _ s' h, (writePixel_fields k s).2.1]

/-- A packet that ends normally has read inside the source only. -/
theorem packet_pos_le (src : List Byte) (k N : Nat) (s s' : RleState)
    (h : packet src k N s = .next s') : s'.pos ≤ src.length := by
  rw [packet] at h
  by_cases h1 : src.length < s.pos + 1
  · rw [if_pos h1] at h; simp at h
  · rw [if_neg h1] at h
    simp only at h
    by_cases h2 : at_ src s.pos < 128
    · rw [if_pos h2] at h
      exact rawLoop_pos_le src k N _ _ s' h (by show s.pos + 1 ≤ src.length; omega)
    · rw [if_neg h2] at h
      by_cases hr : src.length < s.pos + 1 + k
      · rw [readPixel, if_pos hr] at h; simp at h
      · rw [readPixel, if_neg hr] at h
        rw [runLoop_pos_eq k N _ _ s' h]
        show s.pos + 1 + k ≤ src.length
        omega

theorem rleLoop_pos_le (src : List Byte) (k N : Nat) :
    ∀ (fuel : Nat) (s s' : RleState), rleLoop src k N fuel s = .next s' →
      s.pos ≤ src.length ∨ s.pixel < N → s'.pos ≤ src.length := by
  intro fuel
  induction fuel with
  | zero => intro s s' h; simp [rleLoop] at h
  | succ f ih =>
    intro s s' h hs
    rw [rleLoop] at h
    by_cases hlt : s.pixel < N
    · rw [if_pos hlt] at h
      cases hq : packet src k N s with
      | next s1 =>
        rw [hq] at h
        exact ih s1 s' h (Or.inl (packet_pos_le src k N s s1 hq))
      | threw e s1 => rw [hq] at h; simp at h
      | outOfBounds => rw [hq] at h; simp at h
      | outOfFuel => rw [hq] at h; simp at h
    · rw [if_neg hlt] at h
      injection h with h
      rw [← h]
      rcases hs with hs | hs
      · exact hs
      · exact absurd hs hlt

/-- What a successful `LoadFromData` has passed through: the descriptor read
and valid, and the decoder its header selects having built the object. -/
theorem LoadFromData_built_inv (bytes : List Byte) (t : Tga)
    (h : LoadFromData (some bytes) = .built t) :
    17 ≤ bytes.length ∧ 1 ≤ at_ bytes 13 * 256 + at_ bytes 12 ∧
    1 ≤ at_ bytes 15 * 256 + at_ bytes 14 ∧ (at_ bytes 16 = 24 ∨ at_ bytes 16 = 32) ∧
    ((bytes.take 12 = UncompressedTgaHeader ∧
      LoadUncompressed bytes 18 Mem.fresh
        (data_size (at_ bytes 13 * 256 + at_ bytes 12) (at_ bytes 15 * 256 + at_ bytes 14)
          (at_ bytes 16))
        (at_ bytes 13 * 256 + at_ bytes 12) (at_ bytes 15 * 256 + at_ bytes 14)
        (at_ bytes 16) = .built t) ∨
     (bytes.take 12 = CompressedTgaHeader ∧
      LoadCompressed bytes 18 Mem.fresh (at_ bytes 13 * 256 + at_ bytes 12)
        (at_ bytes 15 * 256 + at_ bytes 14) (at_ bytes 16) = .built t)) := by
  have h0 := h
  rw [LoadFromData_some] at h
  split at h
  · exact Outcome.noConfusion h
  split at h
  · exact Outcome.noConfusion h
  rename_i hty
  split at h
  · exact Outcome.noConfusion h
  split at h
  · exact Outcome.noConfusion h
  split at h
  · exact Outcome.noConfusion h
  have h17 : 17 ≤ bytes.length := by omega
  have hw : 1 ≤ at_ bytes 13 * 256 + at_ bytes 12 := by omega
  have hh : 1 ≤ at_ bytes 15 * 256 + at_ bytes 14 := by omega
  have hb : at_ bytes 16 = 24 ∨ at_ bytes 16 = 32 := by omega
  have hdisp := LoadFromData_dispatch bytes h17 hw hh hb
  refine ⟨h17, hw, hh, hb, ?_⟩
  by_cases hB : bytes.take 12 = CompressedTgaHeader
  · exact Or.inr ⟨hB, by rw [← hdisp.2 hB]; exact h0⟩
  · by_cases hA : bytes.take 12 = UncompressedTgaHeader
    · exact Or.inl ⟨hA, by rw [← hdisp.1 hA]; exact h0⟩
    · exact absurd ((classify_unknown_iff bytes).2 ⟨hA, hB⟩) hty

theorem take_eq_of_SamePrefix (n m : Nat) (src src' : List Byte) (hm : m ≤ n)
    (h : SamePrefix n src src') : src'.take m = src.take m := by
  apply List.ext_getElem?
  intro i
  by_cases hi : i < m
  · rw [List.getElem?_take_of_lt hi, List.getElem?_take_of_lt hi]
    exact (h.2.2 i (by omega)).symm
  · rw [List.getElem?_take_eq_none (by omega), List.getElem?_take_eq_none (by omega)]

/-- An input that decodes to an object decodes to the same object when the
bytes after the last one read are replaced, removed or added to. -/
theorem LoadFromData_upTo (bytes : List Byte) (t : Tga)
    (h : LoadFromData (some bytes) = .built t) :
    (bytes.take 12 = UncompressedTgaHeader →
      ∀ bytes', SamePrefix 17 bytes bytes' →
        (0 < data_size (at_ bytes 13 * 256 + at_ bytes 12)
            (at_ bytes 15 * 256 + at_ bytes 14) (at_ bytes 16) →
          SamePrefix
            (18 + data_size (at_ bytes 13 * 256 + at_ bytes 12)
              (at_ bytes 15 * 256 + at_ bytes 14) (at_ bytes 16)) bytes bytes') →
        LoadFromData (some bytes') = .built t) ∧
    (bytes.take 12 = CompressedTgaHeader →
      ∃ s, rleLoop bytes (at_ bytes 16 / 8)
          ((at_ bytes 15 * 256 + at_ bytes 14) * (at_ bytes 13 * 256 + at_ bytes 12) % U32)
          (bytes.length + 1) (rleStart 18 Mem.fresh) = .next s ∧
        s.pixel = (at_ bytes 13 * 256 + at_ bytes 12) * (at_ bytes 15 * 256 + at_ bytes 14) ∧
        18 ≤ s.pos ∧ s.pos ≤ bytes.length ∧
        ∀ bytes', SamePrefix s.pos bytes bytes' → LoadFromData (some bytes') = .built t) := by
  obtain ⟨h17, hw, hh, hb, hcase⟩ := LoadFromData_built_inv bytes t h
  have b12 := at__lt bytes 12
  have b13 := at__lt bytes 13
  have b14 := at__lt bytes 14
  have b15 := at__lt bytes 15
  have hdr_ne : UncompressedTgaHeader ≠ CompressedTgaHeader := UncompressedTgaHeader_ne
  have key : ∀ n bytes', 17 ≤ n → SamePrefix n bytes bytes' →
      17 ≤ bytes'.length ∧ bytes'.take 12 = bytes.take 12 ∧
      at_ bytes' 12 = at_ bytes 12 ∧ at_ bytes' 13 = at_ bytes 13 ∧
      at_ bytes' 14 = at_ bytes 14 ∧ at_ bytes' 15 = at_ bytes 15 ∧
      at_ bytes' 16 = at_ bytes 16 := by
    intro n bytes' hn hp
    refine ⟨by have := hp.2.1; omega, take_eq_of_SamePrefix n 12 bytes bytes' (by omega) hp,
      ?_, ?_, ?_, ?_, ?_⟩ <;>
    exact (at__congr bytes bytes' _ (hp.2.2 _ (by omega))).symm
  constructor
  · intro hA bytes' hp17 hp
    rcases hcase with ⟨_, hL⟩ | ⟨hB, _⟩
    · obtain ⟨k17, kt, k12, k13, k14, k15, k16⟩ := key _ bytes' (Nat.le_refl 17) hp17
      have hd := (LoadFromData_dispatch bytes' k17 (by rw [k12, k13]; exact hw)
        (by rw [k14, k15]; exact hh) (by rw [k16]; exact hb)).1 (by rw [kt]; exact hA)
      rw [hd, k12, k13, k14, k15, k16, LoadUncompressed_upTo bytes bytes' 18 _ _ _ _ _ hp]
      exact hL
    · rw [hA] at hB; exact absurd hB hdr_ne
  · intro hB
    rcases hcase with ⟨hA, _⟩ | ⟨_, hL⟩
    · rw [hB] at hA; exact absurd hA.symm hdr_ne
    · obtain ⟨hN, hN1⟩ := pixelCount_eq (at_ bytes 13 * 256 + at_ bytes 12)
        (at_ bytes 15 * 256 + at_ bytes 14) (by omega) (by omega)
      cases hr : rleLoop bytes (at_ bytes 16 / 8)
          ((at_ bytes 15 * 256 + at_ bytes 14) * (at_ bytes 13 * 256 + at_ bytes 12) % U32)
          (bytes.length + 1) (rleStart 18 Mem.fresh) with
      | next s =>
        have hbuild := LoadCompressed_of_next bytes 18 Mem.fresh _ _ _ s hr
        obtain ⟨a1, a2⟩ := rleLoop_head bytes _ _ (rleStart 18 Mem.fresh) _ _ s
          LoopHead.start hr
        have a3 := (LoopHead_inv bytes _ _ (rleStart 18 Mem.fresh) s
          (by show 0 = 0 * (at_ bytes 16 / 8) % U32; rw [Nat.zero_mul, Nat.zero_mod])
          (Nat.zero_le _) a1).2
        have hpos := rleLoop_pos bytes _ _ _ _ s hr
        have hpos18 : 18 ≤ s.pos := hpos
        have hle : s.pos ≤ bytes.length :=
          rleLoop_pos_le bytes _ _ _ _ s hr
            (Or.inr (by
              show 0 < (at_ bytes 15 * 256 + at_ bytes 14) *
                (at_ bytes 13 * 256 + at_ bytes 12) % U32
              rw [hN]
              exact Nat.mul_pos hw hh))
        refine ⟨s, rfl, by rw [hN] at a2 a3; omega, hpos18, hle, ?_⟩
        intro bytes' hp
        obtain ⟨k17, kt, k12, k13, k14, k15, k16⟩ := key _ bytes' (by omega) hp
        have hd := (LoadFromData_dispatch bytes' k17 (by rw [k12, k13]; exact hw)
          (by rw [k14, k15]; exact hh) (by rw [k16]; exact hb)).2 (by rw [kt]; exact hB)
        rw [hd, k12, k13, k14, k15, k16,
          LoadCompressed_upTo bytes bytes' 18 Mem.fresh _ _ _ s hr hp, ← hbuild]
        exact hL
      | threw e s =>
        rw [LoadCompressed_of_threw bytes 18 Mem.fresh _ _ _ e s hr] at hL
        exact Outcome.noConfusion hL
      | outOfBounds =>
        unfold LoadCompressed at hL
        simp only [hr] at hL
        exact Outcome.noConfusion hL
      | outOfFuel =>
        unfold LoadCompressed at hL
        simp only [hr] at hL
        exact Outcome.noConfusion hL

/-- C12. Trailing bytes are not validated: for every input that decodes
successfully (uncompressed or RLE) and every byte sequence T, the input with T
appended decodes successfully to the same object (same width, height, bpp and
pixel buffer); in the RLE case the packet loop ends at a source position
inside the input with the pixel cursor at width*height, and no byte from that
position on is read: every input with the same bytes before it decodes to the
same object. -/
theorem LoadFromData_trailing_bytes (bytes T : List Byte) (t : Tga)
    (h : LoadFromData (some bytes) = .built t) :
    LoadFromData (some (bytes ++ T)) = .built t ∧
    (bytes.take 12 = CompressedTgaHeader →
      ∃ s, rleLoop bytes (at_ bytes 16 / 8)
          ((at_ bytes 15 * 256 + at_ bytes 14) * (at_ bytes 13 * 256 + at_ bytes 12) % U32)
          (bytes.length + 1) (rleStart 18 Mem.fresh) = .next s ∧
        s.pixel = (at_ bytes 13 * 256 + at_ bytes 12) * (at_ bytes 15 * 256 + at_ bytes 14) ∧
        s.pos ≤ bytes.length ∧
        ∀ bytes', bytes'.take s.pos = bytes.take s.pos →
          LoadFromData (some bytes') = .built t) := by
  obtain ⟨hU, hC⟩ := LoadFromData_upTo bytes t h
  obtain ⟨h17, _, _, _, hcase⟩ := LoadFromData_built_inv bytes t h
  constructor
  · rcases hcase with ⟨hA, hL⟩ | ⟨hB, _⟩
    · refine hU hA _ (SamePrefix_append bytes T _ h17) (fun h0 => ?_)
      have hlen : 18 + data_size (at_ bytes 13 * 256 + at_ bytes 12)
          (at_ bytes 15 * 256 + at_ bytes 14) (at_ bytes 16) ≤ bytes.length := by
        by_contra hc
        rw [LoadUncompressed, if_pos ⟨h0, by omega⟩] at hL
        exact Outcome.noConfusion hL
      exact SamePrefix_append bytes T _ hlen
    · obtain ⟨s, _, _, _, hle, hs⟩ := hC hB
      exact hs _ (SamePrefix_append bytes T _ hle)
  · intro hB
    obtain ⟨s, h1, h2, _, hle, hs⟩ := hC hB
    exact ⟨s, h1, h2, hle, fun bytes' ht => hs bytes' (SamePrefix_of_take _ _ _ hle ht)⟩

theorem LoadFromData_trailing_bytes_witness :
    ∃ t, LoadFromData (some [0, 0, 10, 0, 0, 0, 0, 0, 0, 0, 0, 0, 2, 0, 1, 0, 24, 0,
        129, 0x10, 0x20, 0x30]) = .built t ∧
      LoadFromData (some ([0, 0, 10, 0, 0, 0, 0, 0, 0, 0, 0, 0, 2, 0, 1, 0, 24, 0,
        129, 0x10, 0x20, 0x30] ++ [0xAA, 0xBB, 0xCC])) = .built t :=
  ⟨_, rfl, (LoadFromData_trailing_bytes
    [0, 0, 10, 0, 0, 0, 0, 0, 0, 0, 0, 0, 2, 0, 1, 0, 24, 0, 129, 0x10, 0x20, 0x30]
    [0xAA, 0xBB, 0xCC] _ rfl).1⟩


/-! ## Raw packets against the uncompressed decoder -/

theorem PixelStored_dest_congr (k : Nat) (d d' : Mem) (b : Nat) (px : Nat → Option Byte)
    (h : ∀ r, r < 4 → d' (b + r) = d (b + r)) (hs : PixelStored k d b px) :
    PixelStored k d' b px := by
  obtain ⟨h0, h1, h2, h3⟩ := hs
  refine ⟨?_, ?_, ?_, ?_⟩
  · have := h 0 (by decide); rw [Nat.add_zero] at this; rw [this, h0]
  · rw [h 1 (by decide), h1]
  · rw [h 2 (by decide), h2]
  · intro h4; rw [h 3 (by decide), h3 h4]

theorem drop_packet_payload (src : List Byte) (pos : Nat) (q : Packet) (tail : List Byte)
    (h : src.drop pos = q.bytes ++ tail) (m : Nat) (hm : m < q.payload.length) :
    src[pos + 1 + m]? = q.payload[m]? := by
  have := congrArg (fun l => l[1 + m]?) h
  simp only [List.getElem?_drop] at this
  rw [Nat.add_assoc, this]
  simp only [Packet.bytes, List.cons_append]
  rw [Nat.add_comm 1 m, List.getElem?_cons_succ, List.getElem?_append_left hm]

/-- The packet loop on whole raw packets whose counts add up to what is left
of the pixel total, when the byte cursor does not wrap: every pixel the packets
carry is stored reordered at its place, nothing else changing. -/
theorem rleLoop_raw_data (src : List Byte) (k N : Nat) (hk34 : k = 3 ∨ k = 4)
    (hNk : N * k < U32) (rest : List Byte) :
    ∀ (qs : List Packet) (s : RleState) (fuel : Nat),
      (∀ q ∈ qs, q.ctrl.val < 128 ∧ q.Whole k) → src.drop s.pos = encodePackets qs ++ rest →
      s.pixel + totalCount qs = N → s.byte = s.pixel * k → qs.length + 1 ≤ fuel →
      ∃ s', rleLoop src k N fuel s = .next s' ∧
        (∀ i, i < totalCount qs →
          PixelStored k s'.dest ((s.pixel + i) * k) (fun j => (payloads qs)[i * k + j]?)) ∧
        ∀ j, j < s.pixel * k ∨ N * k ≤ j → s'.dest j = s.dest j := by
  have hU : U32 = 4294967296 := rfl
  have hN : N < U32 := by rcases hk34 with rfl | rfl <;> omega
  intro qs
  induction qs with
  | nil =>
    intro s fuel _ _ htot _ hfuel
    obtain ⟨f, rfl⟩ : ∃ f, fuel = f + 1 := ⟨fuel - 1, by omega⟩
    simp only [totalCount, Nat.add_zero] at htot
    refine ⟨s, by rw [rleLoop, if_neg (by omega)], ?_, fun _ _ => rfl⟩
    intro i hi
    simp only [totalCount] at hi
    omega
  | cons q qs ih =>
    intro s fuel hraw hsrc htot hbyte hfuel
    obtain ⟨f, rfl⟩ : ∃ f, fuel = f + 1 := ⟨fuel - 1, by omega⟩
    simp only [totalCount] at htot
    simp only [List.length_cons] at hfuel
    obtain ⟨hc128, hwhole⟩ := hraw q (List.mem_cons_self _ _)
    have hcount : q.count = q.ctrl.val + 1 := by rw [Packet.count, if_pos hc128]
    have hpl : q.payload.length = (q.ctrl.val + 1) * k := by
      rw [Packet.Whole, if_pos hc128] at hwhole; exact hwhole
    rw [encodePackets, List.append_assoc] at hsrc
    obtain ⟨hc, hlen, hdrop⟩ := drop_packet src s.pos q (encodePackets qs ++ rest) hsrc
    have hmul : (s.pixel + (q.ctrl.val + 1)) * k = s.pixel * k + (q.ctrl.val + 1) * k :=
      Nat.add_mul _ _ _
    have hle : (s.pixel + (q.ctrl.val + 1)) * k ≤ N * k :=
      Nat.mul_le_mul_right k (by omega)
    obtain ⟨s1, h1, h2, h3, h4⟩ := packet_raw src k N hN s q.ctrl.val hc hc128
      (by omega) (by omega)
    obtain ⟨g1, g2⟩ := h4 (s.pixel * k)
      (by rw [hbyte]; exact (Nat.mod_eq_of_lt (by omega)).symm)
    obtain ⟨g3, g4⟩ := g2 hk34 (by omega)
    have hb1 : s1.byte = s1.pixel * k := by
      rw [g1, h2, hmul]
      exact Nat.mod_eq_of_lt (by omega)
    obtain ⟨s', e1, e2, e3⟩ := ih s1 f
      (fun p hp => hraw p (List.mem_cons_of_mem _ hp)) (by rw [h3, ← hpl]; exact hdrop)
      (by omega) hb1 (by omega)
    refine ⟨s', by rw [rleLoop, if_pos (by have := q.count_pos; omega), h1]; exact e1, ?_, ?_⟩
    · intro i hi
      simp only [totalCount] at hi
      by_cases hi1 : i < q.ctrl.val + 1
      · have hmi : (s.pixel + i) * k = s.pixel * k + i * k := Nat.add_mul _ _ _
        have hik : i * k + k ≤ (q.ctrl.val + 1) * k := by
          have := Nat.mul_le_mul_right k (show i + 1 ≤ q.ctrl.val + 1 by omega)
          rw [Nat.add_mul, Nat.one_mul] at this
          exact this
        have hstored := g3 i hi1
        rw [← hmi] at hstored
        have hpx : PixelStored k s1.dest ((s.pixel + i) * k)
            (fun j => (payloads (q :: qs))[i * k + j]?) := by
          apply PixelStored_congr k _ _ _ _ hk34 _ hstored
          intro j hj
          show src[s.pos + 1 + i * k + j]? = (q.payload ++ payloads qs)[i * k + j]?
          rw [List.getElem?_append_left (by omega), Nat.add_assoc (s.pos + 1),
            drop_packet_payload src s.pos q _ hsrc _ (by omega)]
        obtain ⟨p0, p1, p2, p3⟩ := hpx
        have hs1 : s1.pixel * k = s.pixel * k + (q.ctrl.val + 1) * k := by rw [h2, hmul]
        refine ⟨?_, ?_, ?_, ?_⟩
        · rw [e3 _ (Or.inl (by rcases hk34 with rfl | rfl <;> omega)), p0]
        · rw [e3 _ (Or.inl (by rcases hk34 with rfl | rfl <;> omega)), p1]
        · rw [e3 _ (Or.inl (by rcases hk34 with rfl | rfl <;> omega)), p2]
        · intro h4k
          rw [e3 _ (Or.inl (by rcases hk34 with rfl | rfl <;> omega)), p3 h4k]
      · have hi2 := e2 (i - (q.ctrl.val + 1)) (by omega)
        have ep : s1.pixel + (i - (q.ctrl.val + 1)) = s.pixel + i := by omega
        have hsub : i * k = (q.ctrl.val + 1) * k + (i - (q.ctrl.val + 1)) * k := by
          rw [← Nat.add_mul]
          congr 1
          omega
        rw [ep] at hi2
        apply PixelStored_congr k _ _ _ _ hk34 _ hi2
        intro j _
        show (payloads qs)[(i - (q.ctrl.val + 1)) * k + j]? =
          (q.payload ++ payloads qs)[i * k + j]?
        rw [List.getElem?_append_right (by omega)]
        congr 1
        omega
    · intro j hj
      have hs1 : s1.pixel * k = s.pixel * k + (q.ctrl.val + 1) * k := by rw [h2, hmul]
      rw [e3 j (by omega), g4 j (by omega)]


theorem payloads_length (k : Nat) :
    ∀ qs : List Packet, (∀ q ∈ qs, q.ctrl.val < 128 ∧ q.Whole k) →
      (payloads qs).length = totalCount qs * k := by
  intro qs
  induction qs with
  | nil => intro _; simp [payloads, totalCount]
  | cons q qs ih =>
    intro h
    obtain ⟨hc, hwh⟩ := h q (List.mem_cons_self _ _)
    rw [Packet.Whole, if_pos hc] at hwh
    rw [payloads, totalCount, List.length_append, ih (fun p hp => h p (List.mem_cons_of_mem _ hp)),
      hwh, Packet.count, if_pos hc, ← Nat.add_mul]

/-- C16. The two pixel decoders apply the same reorder rule: for every valid
descriptor with width*height*bpp < 2^32 and every sequence D of width*height
source pixels, the uncompressed stream holding D and an RLE stream carrying D
in raw packets only (each of 1 to 128 pixels) both decode, to the same width,
height and bpp and to identical output buffers. -/
theorem raw_packets_same_buffer (width height bpp : Nat) (D : List Byte) (qs : List Packet)
    (hw : 1 ≤ width ∧ width ≤ 65535) (hh : 1 ≤ height ∧ height ≤ 65535)
    (hb : bpp = 24 ∨ bpp = 32) (hov : width * height * bpp < 2 ^ 32)
    (hD : D.length = width * height * (bpp / 8))
    (hraw : ∀ q ∈ qs, q.ctrl.val < 128 ∧ q.Whole (bpp / 8)) (hpay : payloads qs = D) :
    ∃ t1 t2,
      LoadFromData (some (UncompressedTgaHeader ++ descriptor width height bpp ++ D))
        = .built t1 ∧
      LoadFromData (some (CompressedTgaHeader ++ descriptor width height bpp ++
        encodePackets qs)) = .built t2 ∧
      t1.raw = t2.raw ∧ t1.m_width = t2.m_width ∧ t1.m_height = t2.m_height ∧
      t1.bpp = t2.bpp ∧ t1.m_width = width ∧ t1.m_height = height := by
  have hU : U32 = 4294967296 := rfl
  have hov2 : width * height * bpp < 4294967296 := by norm_num at hov; exact hov
  have hk34 : bpp / 8 = 3 ∨ bpp / 8 = 4 := by rcases hb with h | h <;> subst h <;> simp
  obtain ⟨hN, hN1⟩ := pixelCount_eq width height hw.2 hh.2
  have hNk : width * height * (bpp / 8) < U32 := by
    rcases hb with h | h <;> subst h <;> norm_num <;> omega
  -- the uncompressed side
  have hUlen : (UncompressedTgaHeader ++ descriptor width height bpp ++ D).length
      = 18 + D.length := by
    simp [UncompressedTgaHeader, descriptor]; omega
  have hUget : ∀ m, (UncompressedTgaHeader ++ descriptor width height bpp ++ D)[18 + m]?
      = D[m]? := by
    intro m
    rw [List.getElem?_append_right (by simp [UncompressedTgaHeader, descriptor])]
    congr 1
    simp [UncompressedTgaHeader, descriptor]
  obtain ⟨t1, ht1, a1, a2, a3, a4, a5⟩ := LoadFromData_uncompressed_spec
    (UncompressedTgaHeader ++ descriptor width height bpp ++ D) width height bpp (bpp / 8) rfl
    (by show width = width % 256 + 256 * (width / 256 % 256); omega)
    (by show height = height % 256 + 256 * (height / 256 % 256); omega)
    (by show bpp = bpp % 256; omega) rfl hw.1 hh.1 hb (by rw [hUlen, hD]) hov2
  -- the RLE side
  have htot : totalCount qs = width * height := by
    have h1 := payloads_length (bpp / 8) qs hraw
    rw [hpay, hD] at h1
    rcases hk34 with h | h <;> rw [h] at h1 <;> omega
  have hClen : (CompressedTgaHeader ++ descriptor width height bpp ++ encodePackets qs).length
      = 18 + (encodePackets qs).length := by
    simp [CompressedTgaHeader, descriptor]; omega
  have hCdrop : (CompressedTgaHeader ++ descriptor width height bpp ++ encodePackets qs).drop 18
      = encodePackets qs ++ [] := by
    simp [CompressedTgaHeader, descriptor]
  obtain ⟨s, hs, c1, c2⟩ := rleLoop_raw_data
    (CompressedTgaHeader ++ descriptor width height bpp ++ encodePackets qs) (bpp / 8)
    (height * width % U32) hk34 (by rw [hN]; exact hNk) [] qs (rleStart 18 Mem.fresh)
    ((CompressedTgaHeader ++ descriptor width height bpp ++ encodePackets qs).length + 1)
    hraw hCdrop (by show 0 + totalCount qs = _; rw [hN]; omega)
    (by show 0 = 0 * (bpp / 8); rw [Nat.zero_mul])
    (by have := encodePackets_length_ge qs; rw [hClen]; omega)
  have hdisp := (LoadFromData_dispatch
    (CompressedTgaHeader ++ descriptor width height bpp ++ encodePackets qs)
    (by rw [hClen]; omega)
    (by show 1 ≤ width / 256 % 256 * 256 + width % 256; omega)
    (by show 1 ≤ height / 256 % 256 * 256 + height % 256; omega)
    (by show bpp % 256 = 24 ∨ bpp % 256 = 32; omega)).2 rfl
  have e1 : at_ (CompressedTgaHeader ++ descriptor width height bpp ++ encodePackets qs) 13
      * 256 + at_ (CompressedTgaHeader ++ descriptor width height bpp ++ encodePackets qs) 12
      = width := by
    show width / 256 % 256 * 256 + width % 256 = width; omega
  have e2 : at_ (CompressedTgaHeader ++ descriptor width height bpp ++ encodePackets qs) 15
      * 256 + at_ (CompressedTgaHeader ++ descriptor width height bpp ++ encodePackets qs) 14
      = height := by
    show height / 256 % 256 * 256 + height % 256 = height; omega
  have e3 : at_ (CompressedTgaHeader ++ descriptor width height bpp ++ encodePackets qs) 16
      = bpp := by
    show bpp % 256 = bpp; omega
  rw [e1, e2, e3, LoadCompressed_of_next _ 18 Mem.fresh width height bpp s hs] at hdisp
  obtain ⟨t2, ht2, b1, b2, b3, b4⟩ := BuildFromParameters_eq s.dest width height bpp
  refine ⟨t1, t2, ht1, hdisp.trans ht2, ?_, by rw [a1, b1], by rw [a2, b2], by rw [a3, b3],
    a1, a2⟩
  rw [b4]
  funext i
  by_cases hi : i < width * height * (bpp / 8)
  · rw [hN] at c2
    rcases hk34 with hk | hk
    · rw [hk] at a4 c1 hi
      obtain ⟨p, r, hr, rfl⟩ : ∃ p r, r < 3 ∧ i = p * 3 + r :=
        ⟨i / 3, i % 3, Nat.mod_lt _ (by decide), by omega⟩
      obtain ⟨g0, g1, g2, _⟩ := a4 p (by omega)
      obtain ⟨q0, q1, q2, _⟩ := c1 p (by omega)
      rw [Nat.add_assoc, hUget] at g0 g1
      rw [hUget] at g2
      have ez : (rleStart 18 Mem.fresh).pixel + p = p := Nat.zero_add p
      rw [ez, hpay] at q0 q1 q2
      simp only [Nat.add_zero] at q2
      interval_cases r
      · rw [Nat.add_zero, g0, q0]
      · rw [g1, q1]
      · rw [g2, q2]
    · rw [hk] at a4 c1 hi
      obtain ⟨p, r, hr, rfl⟩ : ∃ p r, r < 4 ∧ i = p * 4 + r :=
        ⟨i / 4, i % 4, Nat.mod_lt _ (by decide), by omega⟩
      obtain ⟨g0, g1, g2, g3⟩ := a4 p (by omega)
      obtain ⟨q0, q1, q2, q3⟩ := c1 p (by omega)
      have g3 := g3 rfl
      have q3 := q3 rfl
      rw [Nat.add_assoc, hUget] at g0 g1 g3
      rw [hUget] at g2
      have ez : (rleStart 18 Mem.fresh).pixel + p = p := Nat.zero_add p
      rw [ez, hpay] at q0 q1 q2 q3
      simp only [Nat.add_zero] at q2
      interval_cases r
      · rw [Nat.add_zero, g0, q0]
      · rw [g1, q1]
      · rw [g2, q2]
      · rw [g3, q3]
  · rw [hN] at c2
    rw [a5 i (by omega), c2 i (Or.inr (by omega))]
    rfl

theorem raw_packets_same_buffer_witness :
    ∃ t1 t2,
      LoadFromData (some [0, 0, 2, 0, 0, 0, 0, 0, 0, 0, 0, 0, 2, 0, 1, 0, 24, 0,
        0x10, 0x20, 0x30, 0x40, 0x50, 0x60]) = .built t1 ∧
      LoadFromData (some [0, 0, 10, 0, 0, 0, 0, 0, 0, 0, 0, 0, 2, 0, 1, 0, 24, 0,
        0, 0x10, 0x20, 0x30, 0, 0x40, 0x50, 0x60]) = .built t2 ∧
      t1.raw = t2.raw := by
  obtain ⟨t1, t2, h1, h2, h3, _⟩ := raw_packets_same_buffer 2 1 24
    [0x10, 0x20, 0x30, 0x40, 0x50, 0x60]
    [⟨0, [0x10, 0x20, 0x30]⟩, ⟨0, [0x40, 0x50, 0x60]⟩]
    (by decide) (by decide) (by decide) (by decide) (by decide)
    (fun q hq => by
      simp only [List.mem_cons, List.mem_singleton, List.not_mem_nil, or_false] at hq
      rcases hq with rfl | rfl <;> exact ⟨by decide, by unfold Packet.Whole; decide⟩)
    (by decide)
  exact ⟨t1, t2, h1, h2, h3⟩

end Tga

end PianoGame
